import Mathlib

/-! # Red-black tree set (`src/set.hpp`): embedding and verification

The container `Set<T>` of `src/set.hpp` is a red-black tree whose nodes live on the
C++ heap and are linked by `left`, `right` and `parent` pointers.  The embedding keeps
that shape: a state is a memory (`heap`, a finite map from addresses to nodes) together
with the three data members `_root`, `_begin` and `_size`.  A `Node*` is an
`Option Nat` (`none` is `nullptr`).  Every member function is a function on states that
returns `none` when the C++ code would dereference a null or dangling pointer, or when a
loop runs out of the fuel derived from the number of allocated addresses.

`new Node` takes the next unused address (`fresh`).  It always succeeds in the member
functions of the first part; `clone`, the copy constructor and `insert_alloc` take the
number of allocations that succeed before `new` throws `std::bad_alloc`.
`size_t _size` is a natural number: the count of live nodes is bounded by the address
space, so the 64-bit wrap-around is never reached.
-/

namespace SetReview

/-- The `enum Color : bool` of the source (lines 11-14). -/
inductive Color where
  | black
  | red
deriving DecidableEq, Repr

/-- A `Node*`: `none` is `nullptr`, `some a` the address `a`. -/
abbrev Ptr := Option Nat

/-- The `struct Node` of the source (lines 16-22). -/
structure Node (α : Type) where
  value : α
  left : Ptr
  right : Ptr
  parent : Ptr
  color : Color
deriving DecidableEq, Repr

/-- The state of a `Set<T>` object together with the memory its nodes live in
(data members at lines 85-87). -/
structure Set (α : Type) where
  heap : Nat → Option (Node α)
  fresh : Nat
  _root : Ptr
  _begin : Ptr
  _size : Nat

/-- A `Node*&` or `Node**` as used by `insert` (`cur`) and `replace_with_child`
(`p_ptr`): the place `_root`, or the `left` or `right` field of the node at an address. -/
inductive Slot where
  | root
  | left (a : Nat)
  | right (a : Nat)
deriving DecidableEq, Repr

variable {α : Type}

namespace Set

/-- The default constructor `Set()` (line 332) on an empty memory. -/
def ctor : Set α := ⟨fun _ => none, 0, none, none, 0⟩

/-- Bound on loop iterations and recursion depth: one more than the number of addresses
ever allocated. -/
def fuel (s : Set α) : Nat := s.fresh + 1

/-- Dereference `*p`: fails on `nullptr` and on an address that holds no node. -/
def node (s : Set α) : Ptr → Option (Node α)
  | none => none
  | some a => s.heap a

/-- Update of the fields of `*p` in place. -/
def write (s : Set α) (p : Ptr) (f : Node α → Node α) : Option (Set α) :=
  match p with
  | none => none
  | some a =>
    match s.heap a with
    | none => none
    | some n => some { s with heap := Function.update s.heap a (some (f n)) }

/-- The expression `delete p`. -/
def delete (s : Set α) (p : Ptr) : Option (Set α) :=
  match p with
  | none => some s
  | some a =>
    match s.heap a with
    | none => none
    | some _ => some { s with heap := Function.update s.heap a none }

/-- The expression `new Node{value, nullptr, nullptr, parent, red}` generalised to any
node: the node is stored at the next unused address, which is returned. -/
def alloc (s : Set α) (n : Node α) : Nat × Set α :=
  (s.fresh, { s with heap := Function.update s.heap s.fresh (some n),
                     fresh := s.fresh + 1 })

/-- Reading `color(n)` (lines 90-93): black for `nullptr`. -/
def color (s : Set α) : Ptr → Option Color
  | none => some Color.black
  | some a => (s.heap a).map (fun n => n.color)

/-- Assigning through `color(n) = c` (lines 90-93): for `nullptr` the write goes to the
function-local static, which every later call resets, so the tree is unchanged. -/
def color_assign (s : Set α) (n : Ptr) (c : Color) : Option (Set α) :=
  match n with
  | none => some s
  | some _ => s.write n (fun x => { x with color := c })

/-- Reading through a `Node*&`. -/
def slot_get (s : Set α) : Slot → Option Ptr
  | Slot.root => some s._root
  | Slot.left a => (s.heap a).map (fun n => n.left)
  | Slot.right a => (s.heap a).map (fun n => n.right)

/-- Assigning through a `Node*&`. -/
def slot_set (s : Set α) (c : Slot) (x : Ptr) : Option (Set α) :=
  match c with
  | Slot.root => some { s with _root := x }
  | Slot.left a => s.write (some a) (fun n => { n with left := x })
  | Slot.right a => s.write (some a) (fun n => { n with right := x })

/-- The function `brother` (lines 95-101). -/
def brother (s : Set α) (n : Ptr) : Option Ptr := do
  let nn ← s.node n
  let p := nn.parent
  let np ← s.node p
  if n = np.left then pure np.right else pure np.left

/-- The loop `while (v->left) v = v->left;` (lines 106, 112, 340, 453). -/
def descend_left : Nat → Set α → Ptr → Option Ptr
  | 0, _, _ => none
  | k + 1, s, v => do
    let n ← s.node v
    match n.left with
    | none => pure v
    | some l => descend_left k s (some l)

/-- The loop `while (v->right) v = v->right;` (lines 127, 133, 441). -/
def descend_right : Nat → Set α → Ptr → Option Ptr
  | 0, _, _ => none
  | k + 1, s, v => do
    let n ← s.node v
    match n.right with
    | none => pure v
    | some r => descend_right k s (some r)

/-- The loop `while (p && v == p->right) { v = p; p = p->parent; }` of `next`. -/
def climb_right : Nat → Set α → Ptr → Ptr → Option Ptr
  | 0, _, _, _ => none
  | k + 1, s, v, p =>
    match p with
    | none => some none
    | some _ => do
      let np ← s.node p
      if v = np.right then climb_right k s p np.parent else pure p

/-- The loop `while (p && v == p->left) { v = p; p = p->parent; }` of `prev`. -/
def climb_left : Nat → Set α → Ptr → Ptr → Option Ptr
  | 0, _, _, _ => none
  | k + 1, s, v, p =>
    match p with
    | none => some none
    | some _ => do
      let np ← s.node p
      if v = np.left then climb_left k s p np.parent else pure p

/-- The function `next` (lines 103-122). -/
def next (s : Set α) (v : Ptr) : Option Ptr :=
  match v with
  | none =>
    match s._root with
    | none => some none
    | some r => s.descend_left s.fuel (some r)
  | some _ => do
    let n ← s.node v
    match n.right with
    | some r => s.descend_left s.fuel (some r)
    | none => s.climb_right s.fuel v n.parent

/-- The function `prev` (lines 124-143). -/
def prev (s : Set α) (v : Ptr) : Option Ptr :=
  match v with
  | none =>
    match s._root with
    | none => some none
    | some r => s.descend_right s.fuel (some r)
  | some _ => do
    let n ← s.node v
    match n.left with
    | some l => s.descend_right s.fuel (some l)
    | none => s.climb_left s.fuel v n.parent

/-- The function `rotate_left` (lines 145-166). -/
def rotate_left (s : Set α) (v : Ptr) : Option (Set α) := do
  let nv ← s.node v
  let son := nv.right
  let parent := nv.parent
  let s ← match parent with
    | none => pure s
    | some _ => do
      let np ← s.node parent
      if np.left = v then s.write parent (fun n => { n with left := son })
      else s.write parent (fun n => { n with right := son })
  let s ← s.write son (fun n => { n with parent := parent })
  let nson ← s.node son
  let s ← s.write v (fun n => { n with right := nson.left })
  let s ← match nson.left with
    | none => pure s
    | some _ => s.write nson.left (fun n => { n with parent := v })
  let s ← s.write son (fun n => { n with left := v })
  let s ← s.write v (fun n => { n with parent := son })
  if s._root = v then do
    let nv ← s.node v
    pure { s with _root := nv.parent }
  else pure s

/-- The function `rotate_right` (lines 168-189). -/
def rotate_right (s : Set α) (v : Ptr) : Option (Set α) := do
  let nv ← s.node v
  let son := nv.left
  let parent := nv.parent
  let s ← match parent with
    | none => pure s
    | some _ => do
      let np ← s.node parent
      if np.left = v then s.write parent (fun n => { n with left := son })
      else s.write parent (fun n => { n with right := son })
  let s ← s.write son (fun n => { n with parent := parent })
  let nson ← s.node son
  let s ← s.write v (fun n => { n with left := nson.right })
  let s ← match nson.right with
    | none => pure s
    | some _ => s.write nson.right (fun n => { n with parent := v })
  let s ← s.write son (fun n => { n with right := v })
  let s ← s.write v (fun n => { n with parent := son })
  if s._root = v then do
    let nv ← s.node v
    pure { s with _root := nv.parent }
  else pure s

/-- The last part of `insert_rebalance` (lines 210-228): the uncle is black, one or two
rotations around the grandparent `gp`. -/
def insert_rebalance_rotate (s : Set α) (v p gp : Ptr) : Option (Set α) := do
  let np ← s.node p
  let ngp ← s.node gp
  if ngp.left = p then do
    let r ← (if np.right = v then do
        let s ← s.rotate_left p
        let ngp ← s.node gp
        let _ ← s.node ngp.left
        pure (s, ngp.left)
      else pure (s, p) : Option (Set α × Ptr))
    let s ← r.1.color_assign gp Color.red
    let s ← s.color_assign r.2 Color.black
    s.rotate_right gp
  else do
    let r ← (if np.left = v then do
        let s ← s.rotate_right p
        let ngp ← s.node gp
        let _ ← s.node ngp.right
        pure (s, ngp.right)
      else pure (s, p) : Option (Set α × Ptr))
    let s ← r.1.color_assign gp Color.red
    let s ← s.color_assign r.2 Color.black
    s.rotate_left gp

/-- The function `insert_rebalance` (lines 191-229); the recursion on the grandparent
consumes fuel. -/
def insert_rebalance : Nat → Set α → Ptr → Option (Set α)
  | 0, _, _ => none
  | k + 1, s, v => do
    let nv ← s.node v
    match nv.parent with
    | none => s.write v (fun n => { n with color := Color.black })
    | some _ => do
      let cp ← s.color nv.parent
      if cp = Color.black then pure s
      else do
        let p := nv.parent
        let np ← s.node p
        let gp := np.parent
        let u ← s.brother p
        let cu ← s.color u
        if cu = Color.red then do
          let s ← s.color_assign p Color.black
          let s ← s.color_assign u Color.black
          let s ← s.color_assign gp Color.red
          insert_rebalance k s gp
        else s.insert_rebalance_rotate v p gp

/-- The red-sibling step of `erase_rebalance` (lines 239-247); returns the state and the
local `b`. -/
def erase_rebalance_red (s : Set α) (v p b : Ptr) : Option (Set α × Ptr) := do
  let cb ← s.color b
  if cb = Color.red then do
    let s ← s.color_assign b Color.black
    let s ← s.color_assign p Color.red
    let np ← s.node p
    let s ← (if np.right = v then s.rotate_right p else s.rotate_left p)
    let b ← s.brother v
    pure (s, b)
  else pure (s, b)

/-- The inner rotation of `erase_rebalance` (lines 261-271); returns the state and the
local `b`. -/
def erase_rebalance_inner (s : Set α) (v p b : Ptr) : Option (Set α × Ptr) := do
  let np ← s.node p
  let nb ← s.node b
  let cbl ← s.color nb.left
  let cbr ← s.color nb.right
  if v = np.left ∧ cbr = Color.black then do
    let s ← s.color_assign b Color.red
    let s ← s.color_assign nb.left Color.black
    let s ← s.rotate_right b
    let b ← s.brother v
    pure (s, b)
  else if v = np.right ∧ cbl = Color.black then do
    let s ← s.color_assign b Color.red
    let s ← s.color_assign nb.right Color.black
    let s ← s.rotate_left b
    let b ← s.brother v
    pure (s, b)
  else pure (s, b)

/-- The final rotation of `erase_rebalance` (lines 273-281). -/
def erase_rebalance_outer (s : Set α) (v p b : Ptr) : Option (Set α) := do
  let cp ← s.color p
  let s ← s.color_assign b cp
  let s ← s.color_assign p Color.black
  let np ← s.node p
  let nb ← s.node b
  if v = np.left then do
    let s ← s.color_assign nb.right Color.black
    s.rotate_left p
  else do
    let s ← s.color_assign nb.left Color.black
    s.rotate_right p

/-- The function `erase_rebalance` (lines 231-282); the recursion on the parent consumes
fuel. -/
def erase_rebalance : Nat → Set α → Ptr → Option (Set α)
  | 0, _, _ => none
  | k + 1, s, v => do
    let nv ← s.node v
    let p := nv.parent
    let cv ← s.color v
    if p = none ∨ cv = Color.red then s.color_assign v Color.black
    else do
      let b ← s.brother v
      let r ← s.erase_rebalance_red v p b
      let nb ← r.1.node r.2
      let cbl ← r.1.color nb.left
      let cbr ← r.1.color nb.right
      if cbl = Color.black ∧ cbr = Color.black then do
        let cp ← r.1.color p
        if cp = Color.black then do
          let s ← r.1.color_assign r.2 Color.red
          erase_rebalance k s p
        else do
          let s ← r.1.color_assign p Color.black
          s.color_assign r.2 Color.red
      else do
        let r ← r.1.erase_rebalance_inner v p r.2
        r.1.erase_rebalance_outer v p r.2

/-- The function `replace_with_child` (lines 284-306). -/
def replace_with_child (s : Set α) (v : Ptr) : Option (Set α) := do
  let nv ← s.node v
  let c := if nv.left ≠ none then nv.left else nv.right
  let p_ptr ← (match nv.parent with
    | none => pure Slot.root
    | some pa => do
      let np ← s.node nv.parent
      if v = np.left then pure (Slot.left pa) else pure (Slot.right pa) : Option Slot)
  let cv ← s.color v
  if cv = Color.red then do
    let s ← s.slot_set p_ptr c
    match c with
    | none => pure s
    | some _ => s.write c (fun n => { n with parent := nv.parent })
  else
    match c with
    | some _ => do
      let s ← s.slot_set p_ptr c
      let s ← s.write c (fun n => { n with parent := nv.parent })
      s.erase_rebalance s.fuel c
    | none => do
      let s ← s.erase_rebalance s.fuel v
      s.slot_set p_ptr none

/-- The static function `clear(Node*)` (lines 308-314). -/
def clear_node : Nat → Set α → Ptr → Option (Set α)
  | 0, _, _ => none
  | k + 1, s, v =>
    match v with
    | none => some s
    | some _ => do
      let n ← s.node v
      let s ← clear_node k s n.left
      let n ← s.node v
      let s ← clear_node k s n.right
      s.delete v

/-- The member function `clear()` (lines 458-463). -/
def clear (s : Set α) : Option (Set α) := do
  let s ← clear_node s.fuel s s._root
  pure { s with _begin := none, _root := none, _size := 0 }

/-- The function `begin()` (lines 365-367): the iterator is the node pointer. -/
def begin (s : Set α) : Ptr := s._begin

/-- The function `end()` (lines 369-371). -/
def «end» (_s : Set α) : Ptr := none

/-- The function `size()` (lines 373-375). -/
def size (s : Set α) : Nat := s._size

/-- The function `empty()` (lines 377-379). -/
def empty (s : Set α) : Bool := s._size == 0

variable [LT α] [DecidableRel (fun a b : α => a < b)]

/-- The loop of `lower_bound` (lines 384-391) with its two locals `v` and `prev`. -/
def lower_bound_loop : Nat → Set α → α → Ptr → Ptr → Option Ptr
  | 0, _, _, _, _ => none
  | k + 1, s, value, v, prev =>
    match v with
    | none => some prev
    | some _ => do
      let n ← s.node v
      if n.value < value then lower_bound_loop k s value n.right prev
      else lower_bound_loop k s value n.left v

/-- The function `lower_bound` (lines 381-395). -/
def lower_bound (s : Set α) (value : α) : Option Ptr :=
  lower_bound_loop s.fuel s value s._root none

/-- The loop of `find` (lines 399-406). -/
def find_loop : Nat → Set α → α → Ptr → Option Ptr
  | 0, _, _, _ => none
  | k + 1, s, value, v =>
    match v with
    | none => some none
    | some _ => do
      let n ← s.node v
      if value < n.value then find_loop k s value n.left
      else if n.value < value then find_loop k s value n.right
      else pure v

/-- The function `find` (lines 397-408). -/
def find (s : Set α) (value : α) : Option Ptr :=
  find_loop s.fuel s value s._root

/-- The descent of `insert` (lines 413-422) with its locals `prev` and `cur`; the inner
`none` is the early `return` taken when an equivalent value is met. -/
def insert_loop : Nat → Set α → α → Ptr → Slot → Option (Option (Ptr × Slot))
  | 0, _, _, _, _ => none
  | k + 1, s, value, prev, cur => do
    let c ← s.slot_get cur
    match c with
    | none => pure (some (prev, cur))
    | some a => do
      let n ← s.node c
      if value < n.value then insert_loop k s value c (Slot.left a)
      else if n.value < value then insert_loop k s value c (Slot.right a)
      else pure none

/-- The function `insert` (lines 410-429).  `moved` is the state in which `std::move`
at line 424 leaves the by-value parameter `value`: the identity for a trivially
copyable `T`, the empty string for `std::string`.  Line 427 reads `value` after the
move. -/
def insert (moved : α → α) (s : Set α) (value : α) : Option (Set α) := do
  match ← s.insert_loop s.fuel value none Slot.root with
  | none => pure s
  | some (prev, cur) => do
    let s := { s with _size := s._size + 1 }
    let (a, s) := s.alloc ⟨value, none, none, prev, Color.red⟩
    let value := moved value
    let s ← s.slot_set cur (some a)
    let c ← s.slot_get cur
    let s ← s.insert_rebalance s.fuel c
    let b ← (match s._begin with
      | none => pure true
      | some _ => do
        let nb ← s.node s._begin
        pure (decide (value < nb.value)) : Option Bool)
    if b then do
      let c ← s.slot_get cur
      pure { s with _begin := c }
    else pure s

/-- The function `erase` (lines 431-456).  `--_size` is reached only when a node was
found, so on a set whose `_size` counts its nodes the `size_t` value does not wrap. -/
def erase (s : Set α) (value : α) : Option (Set α) := do
  let it ← s.find value
  if it = s.end then pure s
  else do
    let s := { s with _size := s._size - 1 }
    let v := it
    let nv ← s.node v
    let u ← (if nv.left ≠ none ∧ nv.right ≠ none then s.descend_right s.fuel nv.left
      else pure v : Option Ptr)
    let nu ← s.node u
    let s ← s.write v (fun n => { n with value := nu.value })
    let s ← s.write u (fun n => { n with value := nv.value })
    let s ← s.replace_with_child u
    let s ← s.delete u
    if s._begin = u then do
      let b ← (match s._root with
        | none => pure none
        | some _ => s.descend_left s.fuel s._root : Option Ptr)
      pure { s with _begin := b }
    else pure s

/-- The range constructor's loop `while (first != last) insert(*first++);`
(lines 357-361). -/
def insert_range (moved : α → α) : Set α → List α → Option (Set α)
  | s, [] => some s
  | s, x :: xs => do
    let s ← s.insert moved x
    insert_range moved s xs

/-- The loop `for (it = p; it != end(); ++it)` collecting `*it`: forward iteration. -/
def iterate : Nat → Set α → Ptr → Option (List α)
  | 0, _, _ => none
  | k + 1, s, it =>
    match it with
    | none => some []
    | some _ => do
      let n ← s.node it
      let nx ← s.next it
      let rest ← iterate k s nx
      pure (n.value :: rest)

/-- Forward iteration from `begin()` to `end()`. -/
def toList (s : Set α) : Option (List α) := iterate s.fuel s s.begin

end Set

end SetReview

namespace SetReview

variable {α : Type}

/-! ## Abstract view of the memory

The nodes reachable from a pointer form a binary tree; `Tree` records, for every node,
its address, colour and value.  `Tree.Repr` says that a memory holds exactly that tree,
parent links included.  A `Path` is the list of ancestors of a position, nearest
first, each with the sibling subtree that hangs off it.
-/

/-- Shape of the nodes reachable from a pointer: `nil` for `nullptr`. -/
inductive Tree (α : Type) where
  | nil
  | node (a : Nat) (c : Color) (l : Tree α) (v : α) (r : Tree α)
deriving DecidableEq, Repr

namespace Tree

/-- The pointer to the root node of the tree. -/
def ptr : Tree α → Ptr
  | nil => none
  | node a _ _ _ _ => some a

/-- The colour of the root, black for the empty tree. -/
def color : Tree α → Color
  | nil => Color.black
  | node _ c _ _ _ => c

/-- The tree with its root recoloured. -/
def setColor : Tree α → Color → Tree α
  | nil, _ => nil
  | node a _ l v r, c => node a c l v r

/-- The tree with the value of its root replaced. -/
def setValue : Tree α → α → Tree α
  | nil, _ => nil
  | node a c l _ r, v => node a c l v r

/-- In-order list of the nodes, as pairs of address and value. -/
def cells : Tree α → List (Nat × α)
  | nil => []
  | node a _ l v r => l.cells ++ (a, v) :: r.cells

/-- In-order list of the addresses of the nodes. -/
def addrs (t : Tree α) : List Nat := t.cells.map Prod.fst

/-- In-order list of the values: the in-order traversal. -/
def vals (t : Tree α) : List α := t.cells.map Prod.snd

/-- Number of nodes. -/
def size : Tree α → Nat
  | nil => 0
  | node _ _ l _ r => l.size + 1 + r.size

/-- Number of nodes on the longest path from the root to a leaf. -/
def height : Tree α → Nat
  | nil => 0
  | node _ _ l _ r => max l.height r.height + 1

/-- Address of the leftmost node, the one `begin()` must reference. -/
def leftmost : Tree α → Ptr
  | nil => none
  | node a _ l _ _ => match l with
    | nil => some a
    | node _ _ _ _ _ => l.leftmost

/-- Address of the rightmost node. -/
def rightmost : Tree α → Ptr
  | nil => none
  | node a _ _ _ r => match r with
    | nil => some a
    | node _ _ _ _ _ => r.rightmost

/-- The memory `h` holds the tree `t` below a node (or root place) `par`: every node of
`t` is stored at its address with the value, colour and child pointers of `t`, and its
`parent` field points to its parent in `t` (to `par` for the root of `t`). -/
def Repr (h : Nat → Option (Node α)) : Ptr → Tree α → Prop
  | _, nil => True
  | par, node a c l v r =>
    h a = some ⟨v, l.ptr, r.ptr, par, c⟩ ∧ Repr h (some a) l ∧ Repr h (some a) r

/-- Number of black nodes on the leftmost path to a null pointer. -/
def bh : Tree α → Nat
  | nil => 0
  | node _ c l _ _ => l.bh + (if c = Color.black then 1 else 0)

/-- Invariant RB-1: the root, if present, is black. -/
def RB1 (t : Tree α) : Prop := t.color = Color.black

/-- Invariant RB-2: a red node never has a red child (so never a red parent). -/
def RB2 : Tree α → Prop
  | nil => True
  | node _ c l _ r =>
    (c = Color.red → l.color = Color.black ∧ r.color = Color.black) ∧ l.RB2 ∧ r.RB2

/-- Invariant RB-3: from every node, every path to a null pointer passes through the
same number of black nodes (the two subtrees of every node have equal black height). -/
def RB3 : Tree α → Prop
  | nil => True
  | node _ _ l _ r => l.bh = r.bh ∧ l.RB3 ∧ r.RB3

/-- Invariant BST-order: at every node the values of the left subtree are less than the
node's value and the values of the right subtree are greater. -/
def BST [LT α] : Tree α → Prop
  | nil => True
  | node _ _ l v r => (∀ x ∈ l.vals, x < v) ∧ (∀ y ∈ r.vals, v < y) ∧ l.BST ∧ r.BST

end Tree

/-- One ancestor of a position: the position lies in the left subtree of node `a`
(`left`, with right sibling `r`) or in its right subtree (`right`, with left sibling `l`). -/
inductive Frame (α : Type) where
  | left (a : Nat) (c : Color) (v : α) (r : Tree α)
  | right (a : Nat) (c : Color) (l : Tree α) (v : α)
deriving DecidableEq, Repr

/-- The ancestors of a position, nearest first. -/
abbrev Path (α : Type) := List (Frame α)

namespace Frame

/-- The address of the ancestor. -/
def addr : Frame α → Nat
  | left a _ _ _ => a
  | right a _ _ _ => a

/-- The colour of the ancestor. -/
def color : Frame α → Color
  | left _ c _ _ => c
  | right _ c _ _ => c

/-- The sibling subtree. -/
def sibling : Frame α → Tree α
  | left _ _ _ r => r
  | right _ _ l _ => l

/-- The ancestor with a subtree put at the position. -/
def plug : Frame α → Tree α → Tree α
  | left a c v r, t => Tree.node a c t v r
  | right a c l v, t => Tree.node a c l v t

/-- The place in the ancestor where the pointer to the position is stored. -/
def slot : Frame α → Slot
  | left a _ _ _ => Slot.left a
  | right a _ _ _ => Slot.right a

/-- The node record of the ancestor when the position holds pointer `hole` and the
ancestor's own parent is `up`. -/
def cell : Frame α → Ptr → Ptr → Node α
  | left _ c v r, hole, up => ⟨v, hole, r.ptr, up, c⟩
  | right _ c l v, hole, up => ⟨v, l.ptr, hole, up, c⟩

/-- Nodes of the ancestor and its sibling subtree that come before the position. -/
def before : Frame α → List (Nat × α)
  | left _ _ _ _ => []
  | right a _ l v => l.cells ++ [(a, v)]

/-- Nodes of the ancestor and its sibling subtree that come after the position. -/
def after : Frame α → List (Nat × α)
  | left a _ v r => (a, v) :: r.cells
  | right _ _ _ _ => []

end Frame

namespace Path

/-- The whole tree, with `t` put at the position. -/
def fill : Path α → Tree α → Tree α
  | [], t => t
  | f :: up, t => fill up (f.plug t)

/-- The pointer to the parent of the position. -/
def ptr : Path α → Ptr
  | [] => none
  | f :: _ => some f.addr

/-- The colour of the parent of the position, black at the root. -/
def color : Path α → Color
  | [] => Color.black
  | f :: _ => f.color

/-- The place where the pointer to the position is stored. -/
def slot : Path α → Slot
  | [] => Slot.root
  | f :: _ => f.slot

/-- The root pointer of the whole tree when the position holds pointer `x`. -/
def root : Path α → Ptr → Ptr
  | [], x => x
  | f :: up, _ => root up (some f.addr)

/-- All nodes before the position, in order. -/
def before : Path α → List (Nat × α)
  | [] => []
  | f :: up => before up ++ f.before

/-- All nodes after the position, in order. -/
def after : Path α → List (Nat × α)
  | [] => []
  | f :: up => f.after ++ after up

/-- The memory holds the ancestors and their sibling subtrees, the position itself
holding the pointer `hole`. -/
def Repr (h : Nat → Option (Node α)) : Path α → Ptr → Prop
  | [], _ => True
  | f :: up, hole =>
    h f.addr = some (f.cell hole (ptr up)) ∧ Tree.Repr h (some f.addr) f.sibling ∧
      Repr h up (some f.addr)

/-- Addresses of the ancestors and of the nodes of the sibling subtrees. -/
def addrs : Path α → List Nat
  | [] => []
  | f :: up => f.addr :: (f.sibling.addrs ++ addrs up)

/-- The nearest ancestor that has the position in its left subtree: the in-order
successor of a position with nothing after it in its own subtree. -/
def nextUp : Path α → Ptr
  | [] => none
  | Frame.left a _ _ _ :: _ => some a
  | Frame.right _ _ _ _ :: up => nextUp up

/-- The nearest ancestor that has the position in its right subtree. -/
def prevUp : Path α → Ptr
  | [] => none
  | Frame.right a _ _ _ :: _ => some a
  | Frame.left _ _ _ _ :: up => prevUp up

end Path

/-- The set object `s` is well formed with shape `t`: the nodes reachable from `_root`
are exactly the tree `t` with all parent links consistent, no node occurs twice, every
node lies in allocated memory, and `_begin` is null or points to a node of the tree. -/
structure Set.Shape (s : Set α) (t : Tree α) : Prop where
  repr : t.Repr s.heap none
  root : s._root = t.ptr
  nodup : t.addrs.Nodup
  bound : ∀ a ∈ t.addrs, a < s.fresh
  begin_live : ∀ a, s._begin = some a → a ∈ t.addrs

/-- The state `s` holds the tree `t` at `_root`, each node once. -/
structure Set.Own (s : Set α) (t : Tree α) : Prop where
  repr : t.Repr s.heap none
  root : s._root = t.ptr
  nodup : t.addrs.Nodup

/-- The state `s2` arises from `s1` by a change confined to the memory cells `A`: it
holds the tree `t` at `_root`, and `fresh`, `_begin`, `_size` and all other cells are
those of `s1`. -/
structure Set.Step (s1 s2 : Set α) (A : List Nat) (t : Tree α) : Prop where
  repr : t.Repr s2.heap none
  root : s2._root = t.ptr
  fresh : s2.fresh = s1.fresh
  begin_eq : s2._begin = s1._begin
  size_eq : s2._size = s1._size
  frame : ∀ x, x ∉ A → s2.heap x = s1.heap x

/-- The state `s2` arises from `s1`, which holds `t1`, by a change confined to the nodes
of `t1`, and holds `t2`, a tree of the same nodes with the same values in the same
order. -/
structure Set.Sim (s1 s2 : Set α) (t1 t2 : Tree α) : Prop where
  step : s1.Step s2 t1.addrs t2
  cells : t2.cells = t1.cells

end SetReview

namespace SetReview

variable {α : Type}

/-! ## The algorithms on trees and paths

Each pointer algorithm of the source has a counterpart on `Tree` and `Path` that
performs the same steps on the shape; `none` marks the situations in which the pointer
code dereferences a null pointer.
-/

namespace Frame

/-- The ancestor recoloured. -/
def setColor : Frame α → Color → Frame α
  | left a _ v r, c => left a c v r
  | right a _ l v, c => right a c l v

/-- The ancestor with another sibling subtree. -/
def setSibling : Frame α → Tree α → Frame α
  | left a c v _, t => left a c v t
  | right a c _ v, t => right a c t v

/-- The ancestor seen from its other child: the subtree `t` becomes the sibling. -/
def flip : Frame α → Tree α → Frame α
  | left a c v _, t => right a c t v
  | right a c _ v, t => left a c v t

end Frame

open Tree in
/-- Counterpart of `insert_rebalance` (lines 191-229) for the node at the root of `t`,
below the ancestors `p`; the result is the whole tree. -/
def insFix : Path α → Tree α → Option (Tree α)
  | _, nil => none
  | [], node a _ l v r => some (node a Color.black l v r)
  | [f], node a c l v r =>
    if f.color = Color.black then some (f.plug (node a c l v r)) else none
  | f :: g :: up, node a c l v r =>
    if f.color = Color.black then some (Path.fill (f :: g :: up) (node a c l v r))
    else if g.sibling.color = Color.red then
      insFix up (((g.setSibling (g.sibling.setColor Color.black)).setColor Color.red).plug
        ((f.setColor Color.black).plug (node a c l v r)))
    else
      match g, f with
      | Frame.left ga _ gv u, Frame.left pa _ pv pr =>
        some (Path.fill up
          (node pa Color.black (node a c l v r) pv (node ga Color.red pr gv u)))
      | Frame.left ga _ gv u, Frame.right pa pc pl pv =>
        some (Path.fill up
          (node a Color.black (node pa pc pl pv l) v (node ga Color.red r gv u)))
      | Frame.right ga _ u gv, Frame.right pa _ pl pv =>
        some (Path.fill up
          (node pa Color.black (node ga Color.red u gv pl) pv (node a c l v r)))
      | Frame.right ga _ u gv, Frame.left pa pc pv pr =>
        some (Path.fill up
          (node a Color.black (node ga Color.red u gv l) v (node pa pc r pv pr)))

section Descent

variable [LT α] [DecidableRel (fun a b : α => a < b)]

/-- Counterpart of the descent of `insert` (lines 413-422) through the subtree `t` below
the ancestors `p`: the path to the null position where the value belongs, or `none` when
an equivalent value is met. -/
def insPath (x : α) : Path α → Tree α → Option (Path α)
  | p, Tree.nil => some p
  | p, Tree.node a c l v r =>
    if x < v then insPath x (Frame.left a c v r :: p) l
    else if v < x then insPath x (Frame.right a c l v :: p) r
    else none

/-- Counterpart of `insert` on trees: the new node gets the address `a`. -/
def Tree.ins (a : Nat) (x : α) (t : Tree α) : Option (Tree α) :=
  match insPath x [] t with
  | none => some t
  | some p => insFix p (Tree.node a Color.red Tree.nil x Tree.nil)

/-- Counterpart of the loop of `find` (lines 399-406). -/
def Tree.find (x : α) : Tree α → Ptr
  | Tree.nil => none
  | Tree.node a _ l v r =>
    if x < v then l.find x else if v < x then r.find x else some a

end Descent

open Tree in
/-- Counterpart of the red-sibling step of `erase_rebalance` (lines 239-247) for a node
below the parent `f`: the new ancestors of the node. -/
def eraseRed : Frame α → Path α → Path α
  | Frame.left p _ vp (node b Color.red bl vb br), up =>
    Frame.left p Color.red vp bl :: Frame.left b Color.black vb br :: up
  | Frame.right p _ (node b Color.red bl vb br) vp, up =>
    Frame.right p Color.red br vp :: Frame.right b Color.black bl vb :: up
  | f, up => f :: up

open Tree in
/-- Counterpart of the inner rotation of `erase_rebalance` (lines 261-271) below the
parent `f`: the parent with the sibling subtree rotated when its far child is black. -/
def eraseInner : Frame α → Option (Frame α)
  | Frame.left _ _ _ nil => none
  | Frame.right _ _ nil _ => none
  | Frame.left p cp vp (node b cb bl vb br) =>
    if br.color = Color.black then
      match bl with
      | nil => none
      | node c _ cl vc cr =>
        some (Frame.left p cp vp (node c Color.black cl vc (node b Color.red cr vb br)))
    else some (Frame.left p cp vp (node b cb bl vb br))
  | Frame.right p cp (node b cb bl vb br) vp =>
    if bl.color = Color.black then
      match br with
      | nil => none
      | node c _ cl vc cr =>
        some (Frame.right p cp (node c Color.black (node b Color.red bl vb cl) vc cr) vp)
    else some (Frame.right p cp (node b cb bl vb br) vp)

open Tree in
/-- Counterpart of the final rotation of `erase_rebalance` (lines 273-281) below the
parent `f`: the new ancestors of the node. -/
def eraseOuter : Frame α → Path α → Option (Path α)
  | Frame.left _ _ _ nil, _ => none
  | Frame.right _ _ nil _, _ => none
  | Frame.left p cp vp (node b _ bl vb br), up =>
    some (Frame.left p Color.black vp bl :: Frame.left b cp vb (br.setColor Color.black) :: up)
  | Frame.right p cp (node b _ bl vb br) vp, up =>
    some (Frame.right p Color.black br vp ::
      Frame.right b cp (bl.setColor Color.black) vb :: up)

/-- Counterpart of `erase_rebalance` after the red-sibling step (lines 249-281), without
the recursion: `none` when the sibling is null, `some none` when the parent and both
children of the sibling are black (the case that recurses), else the new ancestors. -/
def eraseLocal : Frame α → Path α → Option (Option (Path α))
  | f, up =>
    match f.sibling with
    | Tree.nil => none
    | Tree.node b _ bl vb br =>
      if bl.color = Color.black ∧ br.color = Color.black then
        if f.color = Color.black then some none
        else
          some (some ((f.setSibling (Tree.node b Color.red bl vb br)).setColor Color.black
            :: up))
      else
        match eraseInner f with
        | none => none
        | some f2 => (eraseOuter f2 up).map some

/-- Counterpart of `erase_rebalance` (lines 231-282) for a black node below the
ancestors `p`: the new ancestors of the node, whose own subtree is left as it is. -/
def delFix : Path α → Option (Path α)
  | [] => some []
  | f :: up =>
    if f.sibling.color = Color.red then
      match eraseRed f up with
      | f1 :: up1 =>
        match eraseLocal f1 up1 with
        | some (some q) => some q
        | _ => none
      | [] => none
    else
      match eraseLocal f up with
      | none => none
      | some (some q) => some q
      | some none =>
        match delFix up with
        | none => none
        | some up2 =>
          match f.sibling with
          | Tree.nil => none
          | Tree.node b _ bl vb br => some (f.setSibling (Tree.node b Color.red bl vb br) :: up2)

section Lookup

variable [LT α] [DecidableRel (fun a b : α => a < b)]

/-- The node found by `find`, as a position and the subtree at it. -/
def findPath (x : α) : Path α → Tree α → Option (Path α × Tree α)
  | _, Tree.nil => none
  | p, Tree.node a c l v r =>
    if x < v then findPath x (Frame.left a c v r :: p) l
    else if v < x then findPath x (Frame.right a c l v :: p) r
    else some (p, Tree.node a c l v r)

end Lookup

/-- The rightmost node of a subtree below the ancestors `p`, as a position and the
subtree at it: the loop `while (u->right) u = u->right` (line 441). -/
def maxPath : Path α → Tree α → Option (Path α × Tree α)
  | _, Tree.nil => none
  | p, Tree.node a c l v Tree.nil => some (p, Tree.node a c l v Tree.nil)
  | p, Tree.node a c l v (Tree.node b cb rl vb rr) =>
    maxPath (Frame.right a c l v :: p) (Tree.node b cb rl vb rr)

/-- The root of the tree around a position is black (or the position is the root). -/
def Path.RootBlack : Path α → Prop
  | [] => True
  | [f] => f.color = Color.black
  | _ :: g :: up => RootBlack (g :: up)

/-- The first node, in order, among the nodes of the subtree `t` at a position and the
nodes after the position. -/
def Path.first (t : Tree α) (p : Path α) : Ptr :=
  match t.leftmost with
  | some z => some z
  | none => Path.nextUp p

/-- Invariant RB-3 around a position whose subtree has black height `n`: every sibling
subtree along the path is balanced and has the black height required at its level. -/
def Path.RB3 : Path α → Nat → Prop
  | [], _ => True
  | f :: up, n =>
    f.sibling.bh = n ∧ f.sibling.RB3 ∧ RB3 up (n + (if f.color = Color.black then 1 else 0))

/-- Invariant RB-2 around a position: it holds inside every sibling subtree, and a red
ancestor has a black sibling subtree below it and a black parent above it. -/
def Path.RB2 : Path α → Prop
  | [] => True
  | f :: up =>
    f.sibling.RB2 ∧ (f.color = Color.red → f.sibling.color = Color.black ∧
      Path.color up = Color.black) ∧ RB2 up

end SetReview

namespace SetReview

variable {α : Type}

/-- The subtree that `replace_with_child` puts in the place of the root of a tree
(line 285): the left child if there is one, else the right child. -/
def Tree.child : Tree α → Tree α
  | Tree.nil => Tree.nil
  | Tree.node _ _ Tree.nil _ r => r
  | Tree.node _ _ (Tree.node b cb bl vb br) _ _ => Tree.node b cb bl vb br

/-- Counterpart of `erase_rebalance` (lines 231-282) called on the root of `t` below the
ancestors `ctx`: a red node is coloured black, around a black node `delFix` applies. -/
def Path.rebalance (ctx : Path α) (t : Tree α) : Option (Tree α) :=
  if t.color = Color.red then some (ctx.fill (t.setColor Color.black))
  else (delFix ctx).map (fun q => q.fill t)

/-- Counterpart of `replace_with_child` (lines 284-306) called on the root of a tree
below the ancestors `ctx`: the whole tree without that node. -/
def Path.splice (ctx : Path α) : Tree α → Option (Tree α)
  | Tree.nil => none
  | Tree.node a c l v r =>
    if c = Color.red then some (ctx.fill (Tree.node a c l v r).child)
    else
      match (Tree.node a c l v r).child with
      | Tree.node b cb bl vb br => ctx.rebalance (Tree.node b cb bl vb br)
      | Tree.nil => (delFix ctx).map (fun q => q.fill Tree.nil)

/-- Two lists of ancestors that lead to the same place, with the same nodes before and
after the position. -/
def Path.Same (q p : Path α) : Prop :=
  Path.slot q = Path.slot p ∧ Path.before q = Path.before p ∧ Path.after q = Path.after p

/-- The red-black invariants around a position whose subtree has black height `n`. -/
def Path.Inv (p : Path α) (n : Nat) : Prop := Path.RB2 p ∧ Path.RB3 p n ∧ Path.RootBlack p

section Lookup

variable [LT α] [DecidableRel (fun a b : α => a < b)]

/-- Counterpart of lines 437-444 of `erase`: the position of the node `u` that is
unlinked, with the tree as it is after the values of `v` and `u` are exchanged. -/
def erasePos (x : α) (T : Tree α) : Option (Path α × Tree α) :=
  match findPath x [] T with
  | some (pv, Tree.node v c l xv r) =>
    if l.ptr ≠ none ∧ r.ptr ≠ none then
      match maxPath [] l with
      | some (pm, Tree.node u cu ul y ur) =>
        some (pm ++ Frame.left v c y r :: pv, Tree.node u cu ul xv ur)
      | _ => none
    else some (pv, Tree.node v c l xv r)
  | _ => none

/-- Counterpart of `erase` (lines 431-456) on the shape of the tree. -/
def Tree.erase (x : α) (T : Tree α) : Option (Tree α) :=
  match T.find x with
  | none => some T
  | some _ => (erasePos x T).bind (fun r => r.1.splice r.2)

/-- The invariants of the specification for the set object `s` whose nodes form the tree
`T`: well-formedness of the pointers, BST order and the three red-black invariants. -/
structure Set.Inv (s : Set α) (T : Tree α) : Prop where
  shape : s.Shape T
  bst : T.BST
  rb1 : T.RB1
  rb2 : T.RB2
  rb3 : T.RB3

/-- A call of one of the modifying member functions `insert`, `erase` and `clear`. -/
inductive Op (α : Type) where
  | insert (x : α)
  | erase (x : α)
  | clear

/-- One call on the state `s`. -/
def Set.step (moved : α → α) (s : Set α) : Op α → Option (Set α)
  | Op.insert x => s.insert moved x
  | Op.erase x => s.erase x
  | Op.clear => s.clear

/-- A sequence of calls, from left to right. -/
def Set.run (moved : α → α) : Set α → List (Op α) → Option (Set α)
  | s, [] => some s
  | s, o :: os => (s.step moved o).bind (fun s' => Set.run moved s' os)

end Lookup

/-! ### The scenarios of the specification -/

/-- The set of Scenario 1: the values 5, 3, 8, 1, 4, 7, 9 inserted in that order into an
empty `Set<int>` (moving an `int` copies it). -/
def scenario1 : Set Nat := (Set.insert_range id Set.ctor [5, 3, 8, 1, 4, 7, 9]).getD Set.ctor

/-- The tree of Scenario 1, with the address of every node. -/
def scenario1Tree : Tree Nat :=
  Tree.node 0 Color.black
    (Tree.node 1 Color.black (Tree.node 3 Color.red Tree.nil 1 Tree.nil) 3
      (Tree.node 4 Color.red Tree.nil 4 Tree.nil)) 5
    (Tree.node 2 Color.black (Tree.node 5 Color.red Tree.nil 7 Tree.nil) 8
      (Tree.node 6 Color.red Tree.nil 9 Tree.nil))

/-- The set of Scenario 2: Scenario 1 after `erase(5)`. -/
def scenario2 : Set Nat := (scenario1.erase 5).getD Set.ctor

/-- The tree of Scenario 2, with the address of every node. -/
def scenario2Tree : Tree Nat :=
  Tree.node 0 Color.black
    (Tree.node 1 Color.black (Tree.node 3 Color.red Tree.nil 1 Tree.nil) 3 Tree.nil) 4
    (Tree.node 2 Color.black (Tree.node 5 Color.red Tree.nil 7 Tree.nil) 8
      (Tree.node 6 Color.red Tree.nil 9 Tree.nil))

end SetReview

namespace SetReview

variable {α : Type}

/-! ## Backward iteration, copy construction and allocation failure -/

namespace Tree

/-- The tree with every address replaced by 0: shape, colours and values only. -/
def shape : Tree α → Tree α
  | nil => nil
  | node _ c l v r => node 0 c l.shape v r.shape

/-- The tree with the addresses that `clone` gives to its copies when the first
allocation returns the address `b`: a node is allocated before the nodes of its left
subtree, and these before the nodes of its right subtree. -/
def relabel : Tree α → Nat → Tree α
  | nil, _ => nil
  | node _ c l v r, b => node b c (l.relabel (b + 1)) v (r.relabel (b + 1 + l.size))

end Tree

/-- The last node, in order, among the nodes before a position and the nodes of the
subtree `t` at the position. -/
def Path.last (t : Tree α) (p : Path α) : Ptr :=
  match t.rightmost with
  | some z => some z
  | none => Path.prevUp p

/-- The result of a call during which `new` may throw `std::bad_alloc`: the normal
return, with the state and the value returned, or the state in which the exception
leaves the call. -/
inductive Outcome (α : Type) (β : Type) where
  | returned (s : Set α) (b : β)
  | thrown (s : Set α)

namespace Set

/-- The loop `for (it = end(); it != begin(); ) { --it; visit(*it); }`: backward
iteration with `operator--` (lines 72-75), which calls `prev`. -/
def iterate_back : Nat → Set α → Ptr → Option (List α)
  | 0, _, _ => none
  | k + 1, s, it =>
    if it = s.begin then some []
    else do
      let p ← s.prev it
      let n ← s.node p
      let rest ← iterate_back k s p
      pure (n.value :: rest)

/-- Backward iteration from `end()` to `begin()`. -/
def toListBack (s : Set α) : Option (List α) := iterate_back s.fuel s s.end

/-- The handler of `clone` (lines 324-328): `clear(res->left); clear(res->right);`
before the exception is thrown again. -/
def clone_catch (s : Set α) (res : Ptr) : Option (Set α) := do
  let n ← s.node res
  let s ← s.clear_node s.fuel n.left
  let n ← s.node res
  s.clear_node s.fuel n.right

/-- The static function `clone` (lines 316-329).  `n` is the number of allocations that
succeed before `new` throws `std::bad_alloc`; a normal return carries the pointer
returned and the number of allocations that remain. -/
def clone : Nat → Nat → Set α → Ptr → Ptr → Option (Outcome α (Ptr × Nat))
  | 0, _, _, _, _ => none
  | k + 1, n, s, v, p =>
    match v with
    | none => some (Outcome.returned s (none, n))
    | some _ => do
      let nv ← s.node v
      match n with
      | 0 => some (Outcome.thrown s)
      | n + 1 =>
        let r := s.alloc ⟨nv.value, none, none, p, nv.color⟩
        match ← clone k n r.2 nv.left (some r.1) with
        | Outcome.thrown s => (s.clone_catch (some r.1)).map Outcome.thrown
        | Outcome.returned s (l, n) => do
          let s ← s.write (some r.1) (fun x => { x with left := l })
          let nv ← s.node v
          match ← clone k n s nv.right (some r.1) with
          | Outcome.thrown s => (s.clone_catch (some r.1)).map Outcome.thrown
          | Outcome.returned s (rt, n) => do
            let s ← s.write (some r.1) (fun x => { x with right := rt })
            some (Outcome.returned s (some r.1, n))

/-- The copy constructor `Set(const Set& src)` (lines 334-342), which builds the new
object in the memory that holds `src`; `n` is the number of allocations that succeed.
The state returned is the memory with the data members of the new object; the data
members of `src` are not written. -/
def copy_ctor (n : Nat) (src : Set α) : Option (Outcome α Unit) := do
  let s : Set α := { src with _root := none, _begin := none, _size := 0 }
  match ← s.clone s.fuel n src._root none with
  | Outcome.thrown s => some (Outcome.thrown s)
  | Outcome.returned s r => do
    let s := { s with _root := r.1 }
    let s := { s with _size := src._size }
    let s := { s with _begin := s._root }
    let b ← (match s._begin with
      | none => pure none
      | some _ => s.descend_left s.fuel s._begin : Option Ptr)
    some (Outcome.returned { s with _begin := b } ())

section Alloc

variable [LT α] [DecidableRel (fun a b : α => a < b)]

/-- The function `insert` (lines 410-429) when `new` at line 424 may throw: with
`avail = false` the allocation throws `std::bad_alloc`, which leaves `insert` at once
(there is no handler), after `++_size` at line 423; with `avail = true` the call is
`insert`. -/
def insert_alloc (avail : Bool) (moved : α → α) (s : Set α) (value : α) :
    Option (Outcome α Unit) :=
  if avail then (s.insert moved value).map (fun t => Outcome.returned t ())
  else do
    match ← s.insert_loop s.fuel value none Slot.root with
    | none => pure (Outcome.returned s ())
    | some _ => pure (Outcome.thrown { s with _size := s._size + 1 })

end Alloc

end Set

/-! ## Further scenarios -/

/-- The set built from 2 and 1: a black root holding 2 at address 0 with a red left
child holding 1 at address 1. -/
def scenarioPair : Set Nat := (Set.insert_range id Set.ctor [2, 1]).getD Set.ctor

/-- A `Set<std::string>` after `insert("b")` and `insert("c")`.  Strings are lists of
character codes, and a moved-from string is empty. -/
def scenarioBC : Set (List Nat) :=
  (Set.run (fun _ => []) Set.ctor [Op.insert [98], Op.insert [99]]).getD Set.ctor

/-- The tree of `scenarioBC`: the black root holds "b", its red right child holds "c". -/
def scenarioBCTree : Tree (List Nat) :=
  Tree.node 0 Color.black Tree.nil [98] (Tree.node 1 Color.red Tree.nil [99] Tree.nil)

/-- A `Set<std::string>` after `insert("c")`, `insert("a")` and `insert("b")`, a
moved-from string being empty. -/
def scenarioCAB : Set (List Nat) :=
  (Set.run (fun _ => []) Set.ctor [Op.insert [99], Op.insert [97], Op.insert [98]]).getD
    Set.ctor

/-- The tree of `scenarioCAB`: the black root holds "b", its red children hold "a" and
"c". -/
def scenarioCABTree : Tree (List Nat) :=
  Tree.node 2 Color.black (Tree.node 1 Color.red Tree.nil [97] Tree.nil) [98]
    (Tree.node 0 Color.red Tree.nil [99] Tree.nil)

/-- The calls of Scenario 4: ten values inserted in strictly decreasing order, then ten
other values in strictly increasing order. -/
def scenario4Ops : List (Op Nat) :=
  [Op.insert 20, Op.insert 19, Op.insert 18, Op.insert 17, Op.insert 16, Op.insert 15,
    Op.insert 14, Op.insert 13, Op.insert 12, Op.insert 11, Op.insert 1, Op.insert 2,
    Op.insert 3, Op.insert 4, Op.insert 5, Op.insert 6, Op.insert 7, Op.insert 8,
    Op.insert 9, Op.insert 10]

end SetReview

namespace SetReview

variable {α : Type}

/-! ## Basic facts about trees, paths and their representation in memory -/

namespace Tree

@[simp] theorem cells_nil : (nil : Tree α).cells = [] := rfl

@[simp] theorem cells_node (a : Nat) (c : Color) (l : Tree α) (v : α) (r : Tree α) :
    (node a c l v r).cells = l.cells ++ (a, v) :: r.cells := rfl

@[simp] theorem addrs_nil : (nil : Tree α).addrs = [] := rfl

@[simp] theorem addrs_node (a : Nat) (c : Color) (l : Tree α) (v : α) (r : Tree α) :
    (node a c l v r).addrs = l.addrs ++ a :: r.addrs := by
  simp [addrs]

@[simp] theorem vals_nil : (nil : Tree α).vals = [] := rfl

@[simp] theorem vals_node (a : Nat) (c : Color) (l : Tree α) (v : α) (r : Tree α) :
    (node a c l v r).vals = l.vals ++ v :: r.vals := by
  simp [vals]

@[simp] theorem ptr_nil : (nil : Tree α).ptr = none := rfl

@[simp] theorem ptr_node (a : Nat) (c : Color) (l : Tree α) (v : α) (r : Tree α) :
    (node a c l v r).ptr = some a := rfl

@[simp] theorem color_nil : (nil : Tree α).color = Color.black := rfl

@[simp] theorem color_node (a : Nat) (c : Color) (l : Tree α) (v : α) (r : Tree α) :
    (node a c l v r).color = c := rfl

@[simp] theorem repr_nil (h : Nat → Option (Node α)) (par : Ptr) :
    Repr h par (nil : Tree α) = True := rfl

@[simp] theorem repr_node (h : Nat → Option (Node α)) (par : Ptr) (a : Nat) (c : Color)
    (l : Tree α) (v : α) (r : Tree α) :
    Repr h par (node a c l v r) =
      (h a = some ⟨v, l.ptr, r.ptr, par, c⟩ ∧ Repr h (some a) l ∧ Repr h (some a) r) := rfl

theorem ptr_mem_addrs {t : Tree α} {a : Nat} (h : t.ptr = some a) : a ∈ t.addrs := by
  cases t with
  | nil => simp at h
  | node b c l v r => simp at h; simp [h]

/-- Writing to an address outside a tree does not disturb its representation. -/
theorem repr_update {h : Nat → Option (Node α)} {x : Nat} {n : Option (Node α)} :
    ∀ {t : Tree α} {par : Ptr}, x ∉ t.addrs →
      (Repr (Function.update h x n) par t ↔ Repr h par t)
  | nil, _, _ => by simp
  | node a c l v r, par, hx => by
    simp only [addrs_node, List.mem_append, List.mem_cons, not_or] at hx
    have hax : a ≠ x := fun e => hx.2.1 e.symm
    simp [repr_update hx.1, repr_update hx.2.2, Function.update_noteq hax]

/-- The parent pointer only matters at the root of a tree. -/
theorem repr_children {h : Nat → Option (Node α)} {par : Ptr} {a : Nat} {c : Color}
    {l : Tree α} {v : α} {r : Tree α} (hr : Repr h par (node a c l v r)) :
    Repr h (some a) l ∧ Repr h (some a) r := hr.2

end Tree

namespace Path

@[simp] theorem fill_nil (t : Tree α) : fill ([] : Path α) t = t := rfl

@[simp] theorem fill_cons (f : Frame α) (up : Path α) (t : Tree α) :
    fill (f :: up) t = fill up (f.plug t) := rfl

@[simp] theorem ptr_empty : ptr ([] : Path α) = none := rfl

@[simp] theorem ptr_cons (f : Frame α) (up : Path α) : ptr (f :: up) = some f.addr := rfl

@[simp] theorem before_nil : before ([] : Path α) = [] := rfl

@[simp] theorem after_nil : after ([] : Path α) = [] := rfl

@[simp] theorem before_cons (f : Frame α) (up : Path α) :
    before (f :: up) = before up ++ f.before := rfl

@[simp] theorem after_cons (f : Frame α) (up : Path α) :
    after (f :: up) = f.after ++ after up := rfl

theorem cells_plug (f : Frame α) (t : Tree α) :
    (f.plug t).cells = f.before ++ t.cells ++ f.after := by
  cases f <;> simp [Frame.plug, Frame.before, Frame.after]

theorem cells_fill : ∀ (p : Path α) (t : Tree α),
    (p.fill t).cells = p.before ++ t.cells ++ p.after
  | [], t => by simp
  | f :: up, t => by
    simp [cells_fill up, cells_plug]

theorem addrs_fill (p : Path α) (t : Tree α) :
    (p.fill t).addrs = p.before.map Prod.fst ++ t.addrs ++ p.after.map Prod.fst := by
  simp [Tree.addrs, cells_fill]

theorem vals_fill (p : Path α) (t : Tree α) :
    (p.fill t).vals = p.before.map Prod.snd ++ t.vals ++ p.after.map Prod.snd := by
  simp [Tree.vals, cells_fill]

theorem ptr_fill : ∀ (p : Path α) (t : Tree α), (p.fill t).ptr = p.root t.ptr
  | [], t => rfl
  | f :: up, t => by
    cases f <;> simp [ptr_fill up, root, Frame.plug, Frame.addr]

@[simp] theorem addrs_empty : addrs ([] : Path α) = [] := rfl

@[simp] theorem addrs_cons (f : Frame α) (up : Path α) :
    addrs (f :: up) = f.addr :: (f.sibling.addrs ++ addrs up) := rfl

theorem addrs_plug_perm (f : Frame α) (t : Tree α) :
    (f.plug t).addrs.Perm (f.addr :: (f.sibling.addrs ++ t.addrs)) := by
  cases f with
  | left a c v r =>
    simp only [Frame.plug, Frame.addr, Frame.sibling, Tree.addrs_node]
    refine List.perm_middle.trans (List.Perm.cons _ List.perm_append_comm)
  | right a c l v =>
    simp only [Frame.plug, Frame.addr, Frame.sibling, Tree.addrs_node]
    exact List.perm_middle

/-- The nodes of a filled path are those of the path and those of the subtree. -/
theorem addrs_fill_perm : ∀ (p : Path α) (t : Tree α),
    (p.fill t).addrs.Perm (p.addrs ++ t.addrs)
  | [], t => by simp
  | f :: up, t => by
    refine (addrs_fill_perm up (f.plug t)).trans ?_
    refine (List.Perm.append_left _ (addrs_plug_perm f t)).trans ?_
    simp only [addrs_cons, List.cons_append, List.append_assoc]
    refine List.perm_middle.trans (List.Perm.cons _ ?_)
    rw [← List.append_assoc, ← List.append_assoc]
    exact List.Perm.append_right _ List.perm_append_comm

theorem mem_addrs_fill {p : Path α} {t : Tree α} {x : Nat} :
    x ∈ (p.fill t).addrs ↔ x ∈ p.addrs ∨ x ∈ t.addrs := by
  rw [(addrs_fill_perm p t).mem_iff, List.mem_append]

theorem nodup_fill {p : Path α} {t : Tree α} :
    (p.fill t).addrs.Nodup ↔ (p.addrs ++ t.addrs).Nodup :=
  (addrs_fill_perm p t).nodup_iff

@[simp] theorem repr_empty (h : Nat → Option (Node α)) (hole : Ptr) :
    Repr h ([] : Path α) hole = True := rfl

@[simp] theorem repr_cons (h : Nat → Option (Node α)) (f : Frame α) (up : Path α)
    (hole : Ptr) :
    Repr h (f :: up) hole =
      (h f.addr = some (f.cell hole (ptr up)) ∧ Tree.Repr h (some f.addr) f.sibling ∧
        Repr h up (some f.addr)) := rfl

/-- The root pointer of a nonempty path is one of its ancestors. -/
theorem root_mem : ∀ (up : Path α) (f : Frame α) (x : Ptr),
    ∃ y, root (f :: up) x = some y ∧ y ∈ addrs (f :: up)
  | [], f, x => ⟨f.addr, rfl, by simp⟩
  | g :: up, f, x => by
    obtain ⟨y, hy, hm⟩ := root_mem up g (some f.addr)
    refine ⟨y, hy, ?_⟩
    simp only [addrs_cons, List.mem_cons, List.mem_append] at hm ⊢
    tauto

/-- Representation of a filled path splits into the path and the subtree. -/
theorem repr_fill {h : Nat → Option (Node α)} : ∀ (p : Path α) (t : Tree α),
    Tree.Repr h none (p.fill t) ↔ Repr h p t.ptr ∧ Tree.Repr h p.ptr t
  | [], t => by simp
  | Frame.left a c v r :: up, t => by
    simp [repr_fill up, Frame.plug, Frame.addr, Frame.cell, Frame.sibling]
    tauto
  | Frame.right a c l v :: up, t => by
    simp [repr_fill up, Frame.plug, Frame.addr, Frame.cell, Frame.sibling]
    tauto

end Path

end SetReview

namespace SetReview

variable {α : Type}

/-! ## Tools for following pointer updates -/

theorem update_ne_symm {β : Type} (f : Nat → β) {a b : Nat} (v : β) (h : b ≠ a) :
    Function.update f b v a = f a := Function.update_noteq (Ne.symm h) v f

/-- Distinctness facts for the nodes taking part in a rotation. -/
theorem nodup_rot {C L M R : List Nat} {a b : Nat}
    (h : (C ++ (L ++ a :: (M ++ b :: R))).Nodup) :
    a ≠ b ∧ (a ∉ C ∧ a ∉ L ∧ a ∉ M ∧ a ∉ R) ∧ (b ∉ C ∧ b ∉ L ∧ b ∉ M ∧ b ∉ R) ∧
    (∀ z ∈ C, z ∉ L ∧ z ∉ M ∧ z ∉ R) ∧ (∀ z ∈ L, z ∉ M ∧ z ∉ R) ∧ (∀ z ∈ M, z ∉ R) ∧
    C.Nodup ∧ L.Nodup ∧ M.Nodup ∧ R.Nodup := by
  have hc := fun z => List.nodup_iff_count_le_one.1 h z
  simp only [List.count_append, List.count_cons] at hc
  have hm : ∀ {z : Nat} {X : List Nat}, z ∈ X → 1 ≤ X.count z :=
    fun hz => List.count_pos_iff.2 hz
  have hn : ∀ {X : List Nat}, (∀ z, X.count z ≤ 1) → X.Nodup :=
    fun hX => List.nodup_iff_count_le_one.2 hX
  have ha := hc a
  have hb := hc b
  simp only [beq_self_eq_true, if_true] at ha hb
  refine ⟨?_, ⟨?_, ?_, ?_, ?_⟩, ⟨?_, ?_, ?_, ?_⟩, ?_, ?_, ?_, ?_, ?_, ?_, ?_⟩
  · rintro rfl
    simp only [beq_self_eq_true, if_true] at ha
    omega
  · exact fun hz => by have := hm hz; omega
  · exact fun hz => by have := hm hz; omega
  · exact fun hz => by have := hm hz; omega
  · exact fun hz => by have := hm hz; omega
  · exact fun hz => by have := hm hz; omega
  · exact fun hz => by have := hm hz; omega
  · exact fun hz => by have := hm hz; omega
  · exact fun hz => by have := hm hz; omega
  · intro z hz
    have := hc z
    have := hm hz
    exact ⟨fun h => by have := hm h; omega, fun h => by have := hm h; omega,
      fun h => by have := hm h; omega⟩
  · intro z hz
    have := hc z
    have := hm hz
    exact ⟨fun h => by have := hm h; omega, fun h => by have := hm h; omega⟩
  · intro z hz h
    have := hc z
    have := hm hz
    have := hm h
    omega
  · exact hn fun z => by have := hc z; omega
  · exact hn fun z => by have := hc z; omega
  · exact hn fun z => by have := hc z; omega
  · exact hn fun z => by have := hc z; omega

namespace Tree

/-- A tree stays represented when the memory is unchanged on its nodes. -/
theorem repr_congr {h h' : Nat → Option (Node α)} : ∀ {t : Tree α} {par : Ptr},
    (∀ z ∈ t.addrs, h' z = h z) → Repr h par t → Repr h' par t
  | nil, _, _, _ => trivial
  | node a c l v r, par, hz, hr => by
    simp only [repr_node] at hr ⊢
    refine ⟨?_, repr_congr (fun z hm => hz z (by simp [hm])) hr.2.1,
      repr_congr (fun z hm => hz z (by simp [hm])) hr.2.2⟩
    rw [hz a (by simp)]
    exact hr.1

/-- A tree stays represented, below a new parent, when only the parent field of its
root changes. -/
theorem repr_reparent {h h' : Nat → Option (Node α)} {t : Tree α} {par par' : Ptr}
    (hn : t.addrs.Nodup) (hr : Repr h par t)
    (hroot : ∀ a n, t.ptr = some a → h a = some n → h' a = some { n with parent := par' })
    (hrest : ∀ z ∈ t.addrs, some z ≠ t.ptr → h' z = h z) : Repr h' par' t := by
  cases t with
  | nil => trivial
  | node a c l v r =>
    simp only [repr_node] at hr ⊢
    simp only [addrs_node, List.nodup_append, List.nodup_cons, List.disjoint_cons_right]
      at hn
    obtain ⟨_, ⟨har, _⟩, hal, _⟩ := hn
    refine ⟨by rw [hroot a _ rfl hr.1], ?_, ?_⟩
    · refine repr_congr (fun z hm => hrest z (by simp [hm]) ?_) hr.2.1
      simp only [ptr_node, ne_eq, Option.some.injEq]
      rintro rfl
      exact hal hm
    · refine repr_congr (fun z hm => hrest z (by simp [hm]) ?_) hr.2.2
      simp only [ptr_node, ne_eq, Option.some.injEq]
      rintro rfl
      exact har hm

end Tree

namespace Path

/-- A path stays represented when the memory is unchanged on its nodes. -/
theorem repr_agree {h h' : Nat → Option (Node α)} : ∀ {p : Path α} {hole : Ptr},
    (∀ z ∈ p.addrs, h' z = h z) → Repr h p hole → Repr h' p hole
  | [], _, _, _ => trivial
  | f :: up, hole, hz, hr => by
    simp only [repr_cons] at hr ⊢
    refine ⟨?_, Tree.repr_congr (fun z hm => hz z (by simp [hm])) hr.2.1,
      repr_agree (fun z hm => hz z (by simp [hm])) hr.2.2⟩
    rw [hz f.addr (by simp)]
    exact hr.1

/-- A path stays represented, around a new pointer at the position, when only the
child link of the nearest ancestor changes. -/
theorem repr_rehang {h h' : Nat → Option (Node α)} {p : Path α} {x y : Ptr}
    (hn : p.addrs.Nodup) (hr : Repr h p x)
    (hpar : ∀ f up, p = f :: up → h' f.addr = some (f.cell y (ptr up)))
    (hrest : ∀ z ∈ p.addrs, some z ≠ p.ptr → h' z = h z) : Repr h' p y := by
  cases p with
  | nil => trivial
  | cons f up =>
    simp only [repr_cons] at hr ⊢
    simp only [addrs_cons, List.nodup_cons, List.mem_append, not_or] at hn
    refine ⟨hpar f up rfl, ?_, ?_⟩
    · refine Tree.repr_congr (fun z hm => hrest z (by simp [hm]) ?_) hr.2.1
      simp only [ptr_cons, ne_eq, Option.some.injEq]
      rintro rfl
      exact hn.1.1 hm
    · refine repr_agree (fun z hm => hrest z (by simp [hm]) ?_) hr.2.2
      simp only [ptr_cons, ne_eq, Option.some.injEq]
      rintro rfl
      exact hn.1.2 hm

end Path

/-- Replacing the child link that points to `a` in the record of an ancestor gives the
record of the ancestor around the new pointer. -/
theorem Frame.relink_cell (f : Frame α) (a : Nat) (y u : Ptr) (ha : a ∉ f.sibling.addrs) :
    (if (f.cell (some a) u).left = some a then { f.cell (some a) u with left := y }
      else { f.cell (some a) u with right := y }) = f.cell y u := by
  cases f with
  | left b c v r => simp [Frame.cell]
  | right b c l v =>
    have : l.ptr ≠ some a := fun e => ha (Tree.ptr_mem_addrs e)
    simp [Frame.cell, this]

end SetReview

namespace SetReview

variable {α : Type}

/-! ## Rotations -/

/-- Effect of `rotate_left` on the four records it touches. -/
theorem rotate_left_cells (h : Nat → Option (Node α)) (f n : Nat) (rt bg : Ptr)
    (a b : Nat) (va vb : α) (la rb par lb pb : Ptr) (ca cb : Color)
    (ha : h a = some ⟨va, la, some b, par, ca⟩)
    (hb : h b = some ⟨vb, lb, rb, pb, cb⟩)
    (hab : a ≠ b)
    (hp : ∀ p, par = some p → p ≠ a ∧ p ≠ b ∧ ∃ np, h p = some np)
    (hx : ∀ x, lb = some x → x ≠ a ∧ x ≠ b ∧ par ≠ some x ∧ ∃ nx, h x = some nx) :
    ∃ h', Set.rotate_left ⟨h, f, rt, bg, n⟩ (some a) =
        some ⟨h', f, if rt = some a then some b else rt, bg, n⟩ ∧
      h' a = some ⟨va, la, lb, some b, ca⟩ ∧
      h' b = some ⟨vb, some a, rb, par, cb⟩ ∧
      (∀ p np, par = some p → h p = some np →
        h' p = some (if np.left = some a then { np with left := some b }
          else { np with right := some b })) ∧
      (∀ x nx, lb = some x → h x = some nx → h' x = some { nx with parent := some a }) ∧
      (∀ z, z ≠ a → z ≠ b → some z ≠ par → some z ≠ lb → h' z = h z) := by
  rcases par with _ | p <;> rcases lb with _ | x
  · by_cases hrt : rt = some a
    all_goals
    · apply Exists.intro
      refine ⟨?_, ?_, ?_, ?_, ?_, ?_⟩
      · simp only [Set.rotate_left, Set.node, Set.write, ha, hb, bind, Option.bind, pure,
        Function.update_same, Function.update_noteq, update_ne_symm, ne_eq, hab, hab.symm,
        not_false_eq_true, if_true, if_false, hrt, reduceCtorEq]
        rfl
      · simp only [Function.update_same]
      · simp only [Function.update_same, Function.update_noteq, update_ne_symm, ne_eq, hab,
          hab.symm, not_false_eq_true]
      · intro p np e
        cases e
      · intro x nx e
        cases e
      · intro z h1 h2 _ _
        simp only [Function.update_noteq, ne_eq, h1, h2, not_false_eq_true]
  · obtain ⟨hxa, hxb, -, nx, hnx⟩ := hx x rfl
    by_cases hrt : rt = some a
    all_goals
    · apply Exists.intro
      refine ⟨?_, ?_, ?_, ?_, ?_, ?_⟩
      · simp only [Set.rotate_left, Set.node, Set.write, ha, hb, bind, Option.bind, pure,
        Function.update_same, Function.update_noteq, update_ne_symm, ne_eq, hab, hab.symm,
        not_false_eq_true, if_true, if_false, hrt, reduceCtorEq, hnx, hxa, hxb, Ne.symm hxa, Ne.symm hxb]
        rfl
      · simp only [Function.update_same]
      · simp only [Function.update_same, Function.update_noteq, update_ne_symm, ne_eq, hab,
          hab.symm, not_false_eq_true]
      · intro p np e
        cases e
      · intro x2 nx2 e1 e2
        cases e1
        rw [hnx] at e2
        cases e2
        simp only [Function.update_same, Function.update_noteq, update_ne_symm, ne_eq, hab,
          hab.symm, hxa, hxb, Ne.symm hxa, Ne.symm hxb, not_false_eq_true]
      · intro z h1 h2 _ h4
        have h4 : z ≠ x := fun e => h4 (by rw [e])
        simp only [Function.update_noteq, ne_eq, h1, h2, h4, not_false_eq_true]
  · obtain ⟨hpa, hpb, np, hnp⟩ := hp p rfl
    by_cases hrt : rt = some a <;> by_cases hq : np.left = some a
    all_goals
    · apply Exists.intro
      refine ⟨?_, ?_, ?_, ?_, ?_, ?_⟩
      · simp only [Set.rotate_left, Set.node, Set.write, ha, hb, bind, Option.bind, pure,
        Function.update_same, Function.update_noteq, update_ne_symm, ne_eq, hab, hab.symm,
        not_false_eq_true, if_true, if_false, hrt, reduceCtorEq, hnp, hq, hpa, hpb, Ne.symm hpa, Ne.symm hpb]
        rfl
      · simp only [Function.update_same]
      · simp only [Function.update_same, Function.update_noteq, update_ne_symm, ne_eq, hab,
          hab.symm, not_false_eq_true]
      · intro p2 np2 e1 e2
        cases e1
        rw [hnp] at e2
        cases e2
        simp only [Function.update_same, Function.update_noteq, update_ne_symm, ne_eq, hab,
          hab.symm, hpa, hpb, Ne.symm hpa, Ne.symm hpb, not_false_eq_true, hq, if_true, if_false]
      · intro x nx e
        cases e
      · intro z h1 h2 h3 _
        have h3 : z ≠ p := fun e => h3 (by rw [e])
        simp only [Function.update_noteq, ne_eq, h1, h2, h3, not_false_eq_true]
  · obtain ⟨hpa, hpb, np, hnp⟩ := hp p rfl
    obtain ⟨hxa, hxb, hpx, nx, hnx⟩ := hx x rfl
    have hpx : p ≠ x := fun e => hpx (by rw [e])
    by_cases hrt : rt = some a <;> by_cases hq : np.left = some a
    all_goals
    · apply Exists.intro
      refine ⟨?_, ?_, ?_, ?_, ?_, ?_⟩
      · simp only [Set.rotate_left, Set.node, Set.write, ha, hb, bind, Option.bind, pure,
        Function.update_same, Function.update_noteq, update_ne_symm, ne_eq, hab, hab.symm,
        not_false_eq_true, if_true, if_false, hrt, reduceCtorEq, hnp, hnx, hq, hpa, hpb, Ne.symm hpa, Ne.symm hpb, hxa, hxb, Ne.symm hxa, Ne.symm hxb, hpx, Ne.symm hpx]
        rfl
      · simp only [Function.update_same]
      · simp only [Function.update_same, Function.update_noteq, update_ne_symm, ne_eq, hab,
          hab.symm, not_false_eq_true]
      · intro p2 np2 e1 e2
        cases e1
        rw [hnp] at e2
        cases e2
        simp only [Function.update_same, Function.update_noteq, update_ne_symm, ne_eq, hab,
          hab.symm, hpa, hpb, Ne.symm hpa, Ne.symm hpb, hpx, Ne.symm hpx, not_false_eq_true,
          hq, if_true, if_false]
      · intro x2 nx2 e1 e2
        cases e1
        rw [hnx] at e2
        cases e2
        simp only [Function.update_same, Function.update_noteq, update_ne_symm, ne_eq, hab,
          hab.symm, hxa, hxb, Ne.symm hxa, Ne.symm hxb, hpx, Ne.symm hpx, not_false_eq_true]
      · intro z h1 h2 h3 h4
        have h3 : z ≠ p := fun e => h3 (by rw [e])
        have h4 : z ≠ x := fun e => h4 (by rw [e])
        simp only [Function.update_noteq, ne_eq, h1, h2, h3, h4, not_false_eq_true]

/-- Effect of `rotate_right` on the four records it touches. -/
theorem rotate_right_cells (h : Nat → Option (Node α)) (f n : Nat) (rt bg : Ptr)
    (a b : Nat) (va vb : α) (ra lb par rb pb : Ptr) (ca cb : Color)
    (ha : h a = some ⟨va, some b, ra, par, ca⟩)
    (hb : h b = some ⟨vb, lb, rb, pb, cb⟩)
    (hab : a ≠ b)
    (hp : ∀ p, par = some p → p ≠ a ∧ p ≠ b ∧ ∃ np, h p = some np)
    (hx : ∀ x, rb = some x → x ≠ a ∧ x ≠ b ∧ par ≠ some x ∧ ∃ nx, h x = some nx) :
    ∃ h', Set.rotate_right ⟨h, f, rt, bg, n⟩ (some a) =
        some ⟨h', f, if rt = some a then some b else rt, bg, n⟩ ∧
      h' a = some ⟨va, rb, ra, some b, ca⟩ ∧
      h' b = some ⟨vb, lb, some a, par, cb⟩ ∧
      (∀ p np, par = some p → h p = some np →
        h' p = some (if np.left = some a then { np with left := some b }
          else { np with right := some b })) ∧
      (∀ x nx, rb = some x → h x = some nx → h' x = some { nx with parent := some a }) ∧
      (∀ z, z ≠ a → z ≠ b → some z ≠ par → some z ≠ rb → h' z = h z) := by
  rcases par with _ | p <;> rcases rb with _ | x
  · by_cases hrt : rt = some a
    all_goals
    · apply Exists.intro
      refine ⟨?_, ?_, ?_, ?_, ?_, ?_⟩
      · simp only [Set.rotate_right, Set.node, Set.write, ha, hb, bind, Option.bind, pure,
        Function.update_same, Function.update_noteq, update_ne_symm, ne_eq, hab, hab.symm,
        not_false_eq_true, if_true, if_false, hrt, reduceCtorEq]
        rfl
      · simp only [Function.update_same]
      · simp only [Function.update_same, Function.update_noteq, update_ne_symm, ne_eq, hab,
          hab.symm, not_false_eq_true]
      · intro p np e
        cases e
      · intro x nx e
        cases e
      · intro z h1 h2 _ _
        simp only [Function.update_noteq, ne_eq, h1, h2, not_false_eq_true]
  · obtain ⟨hxa, hxb, -, nx, hnx⟩ := hx x rfl
    by_cases hrt : rt = some a
    all_goals
    · apply Exists.intro
      refine ⟨?_, ?_, ?_, ?_, ?_, ?_⟩
      · simp only [Set.rotate_right, Set.node, Set.write, ha, hb, bind, Option.bind, pure,
        Function.update_same, Function.update_noteq, update_ne_symm, ne_eq, hab, hab.symm,
        not_false_eq_true, if_true, if_false, hrt, reduceCtorEq, hnx, hxa, hxb, Ne.symm hxa, Ne.symm hxb]
        rfl
      · simp only [Function.update_same]
      · simp only [Function.update_same, Function.update_noteq, update_ne_symm, ne_eq, hab,
          hab.symm, not_false_eq_true]
      · intro p np e
        cases e
      · intro x2 nx2 e1 e2
        cases e1
        rw [hnx] at e2
        cases e2
        simp only [Function.update_same, Function.update_noteq, update_ne_symm, ne_eq, hab,
          hab.symm, hxa, hxb, Ne.symm hxa, Ne.symm hxb, not_false_eq_true]
      · intro z h1 h2 _ h4
        have h4 : z ≠ x := fun e => h4 (by rw [e])
        simp only [Function.update_noteq, ne_eq, h1, h2, h4, not_false_eq_true]
  · obtain ⟨hpa, hpb, np, hnp⟩ := hp p rfl
    by_cases hrt : rt = some a <;> by_cases hq : np.left = some a
    all_goals
    · apply Exists.intro
      refine ⟨?_, ?_, ?_, ?_, ?_, ?_⟩
      · simp only [Set.rotate_right, Set.node, Set.write, ha, hb, bind, Option.bind, pure,
        Function.update_same, Function.update_noteq, update_ne_symm, ne_eq, hab, hab.symm,
        not_false_eq_true, if_true, if_false, hrt, reduceCtorEq, hnp, hq, hpa, hpb, Ne.symm hpa, Ne.symm hpb]
        rfl
      · simp only [Function.update_same]
      · simp only [Function.update_same, Function.update_noteq, update_ne_symm, ne_eq, hab,
          hab.symm, not_false_eq_true]
      · intro p2 np2 e1 e2
        cases e1
        rw [hnp] at e2
        cases e2
        simp only [Function.update_same, Function.update_noteq, update_ne_symm, ne_eq, hab,
          hab.symm, hpa, hpb, Ne.symm hpa, Ne.symm hpb, not_false_eq_true, hq, if_true, if_false]
      · intro x nx e
        cases e
      · intro z h1 h2 h3 _
        have h3 : z ≠ p := fun e => h3 (by rw [e])
        simp only [Function.update_noteq, ne_eq, h1, h2, h3, not_false_eq_true]
  · obtain ⟨hpa, hpb, np, hnp⟩ := hp p rfl
    obtain ⟨hxa, hxb, hpx, nx, hnx⟩ := hx x rfl
    have hpx : p ≠ x := fun e => hpx (by rw [e])
    by_cases hrt : rt = some a <;> by_cases hq : np.left = some a
    all_goals
    · apply Exists.intro
      refine ⟨?_, ?_, ?_, ?_, ?_, ?_⟩
      · simp only [Set.rotate_right, Set.node, Set.write, ha, hb, bind, Option.bind, pure,
        Function.update_same, Function.update_noteq, update_ne_symm, ne_eq, hab, hab.symm,
        not_false_eq_true, if_true, if_false, hrt, reduceCtorEq, hnp, hnx, hq, hpa, hpb, Ne.symm hpa, Ne.symm hpb, hxa, hxb, Ne.symm hxa, Ne.symm hxb, hpx, Ne.symm hpx]
        rfl
      · simp only [Function.update_same]
      · simp only [Function.update_same, Function.update_noteq, update_ne_symm, ne_eq, hab,
          hab.symm, not_false_eq_true]
      · intro p2 np2 e1 e2
        cases e1
        rw [hnp] at e2
        cases e2
        simp only [Function.update_same, Function.update_noteq, update_ne_symm, ne_eq, hab,
          hab.symm, hpa, hpb, Ne.symm hpa, Ne.symm hpb, hpx, Ne.symm hpx, not_false_eq_true,
          hq, if_true, if_false]
      · intro x2 nx2 e1 e2
        cases e1
        rw [hnx] at e2
        cases e2
        simp only [Function.update_same, Function.update_noteq, update_ne_symm, ne_eq, hab,
          hab.symm, hxa, hxb, Ne.symm hxa, Ne.symm hxb, hpx, Ne.symm hpx, not_false_eq_true]
      · intro z h1 h2 h3 h4
        have h3 : z ≠ p := fun e => h3 (by rw [e])
        have h4 : z ≠ x := fun e => h4 (by rw [e])
        simp only [Function.update_noteq, ne_eq, h1, h2, h3, h4, not_false_eq_true]


theorem Path.parent_mem_addrs {p : Path α} {a : Nat} (h : p.ptr = some a) : a ∈ p.addrs := by
  cases p with
  | nil => simp at h
  | cons f up =>
    simp only [Path.ptr_cons, Option.some.injEq] at h
    simp [h]

@[simp] theorem Path.root_cons (f : Frame α) (up : Path α) (x : Ptr) :
    Path.root (f :: up) x = Path.root up (some f.addr) := rfl

@[simp] theorem Path.root_nil (x : Ptr) : Path.root ([] : Path α) x = x := rfl

/-- The root pointer of a nonempty path differs from every address outside the path. -/
theorem Path.root_ne {up : Path α} {f : Frame α} {x : Ptr} {a : Nat}
    (ha : a ∉ Path.addrs (f :: up)) : Path.root (f :: up) x ≠ some a := by
  obtain ⟨y, hy, hm⟩ := Path.root_mem up f x
  rw [hy]
  rintro e
  simp only [Option.some.injEq] at e
  exact ha (e ▸ hm)

/-- The root pointer after the subtree at a position is replaced. -/
theorem Path.root_replace {p : Path α} {a : Nat} {y : Ptr} (ha : a ∉ p.addrs) :
    (if p.root (some a) = some a then y else p.root (some a)) = p.root y := by
  cases p with
  | nil => simp
  | cons f up =>
    have hne := @Path.root_ne _ up f (some a) a ha
    rw [if_neg hne]
    rfl

open Tree in
/-- The function `rotate_left` performs the left rotation of the subtree at `a`. -/
theorem rotate_left_sim (s : Set α) (ctx : Path α) (a : Nat) (ca : Color) (l : Tree α)
    (va : α) (b : Nat) (cb : Color) (m : Tree α) (vb : α) (r : Tree α)
    (hO : s.Own (ctx.fill (node a ca l va (node b cb m vb r)))) :
    ∃ s', s.rotate_left (some a) = some s' ∧
      s.Step s' (ctx.fill (node a ca l va (node b cb m vb r))).addrs
        (ctx.fill (node b cb (node a ca l va m) vb r)) := by
  obtain ⟨h, f, rt, bg, n⟩ := s
  obtain ⟨hR, hroot, hN⟩ := hO
  obtain ⟨hctx, ha, hl, hb, hm, hr⟩ := (Path.repr_fill _ _).1 hR
  have hD := Path.nodup_fill.1 hN
  simp only [addrs_node] at hD
  obtain ⟨hab, ⟨haC, haL, haM, haR⟩, ⟨hbC, hbL, hbM, hbR⟩, hC, hL, hM, hCn, hLn, hMn, hRn⟩ :=
    nodup_rot hD
  simp only [ptr_node] at ha hb
  have hp : ∀ p, ctx.ptr = some p → p ≠ a ∧ p ≠ b ∧ ∃ np, h p = some np := by
    intro p hp
    have hpC := Path.parent_mem_addrs hp
    refine ⟨fun e => haC (e ▸ hpC), fun e => hbC (e ▸ hpC), ?_⟩
    cases ctx with
    | nil => simp at hp
    | cons g up =>
      simp only [Path.ptr_cons, Option.some.injEq] at hp
      exact ⟨_, hp ▸ hctx.1⟩
  have hx : ∀ x, m.ptr = some x → x ≠ a ∧ x ≠ b ∧ ctx.ptr ≠ some x ∧ ∃ nx, h x = some nx := by
    intro x hx
    have hxM := ptr_mem_addrs hx
    refine ⟨fun e => haM (e ▸ hxM), fun e => hbM (e ▸ hxM),
      fun e => (hC x (Path.parent_mem_addrs e)).2.1 hxM, ?_⟩
    cases m with
    | nil => simp at hx
    | node x2 cx ml vx mr =>
      simp only [ptr_node, Option.some.injEq] at hx
      exact ⟨_, hx ▸ hm.1⟩
  obtain ⟨h', hev, ha', hb', hp', hx', hfr⟩ :=
    rotate_left_cells h f n rt bg a b va vb l.ptr r.ptr ctx.ptr m.ptr (some a) ca cb ha hb hab
      hp hx
  refine ⟨_, hev, ?_, ?_, rfl, rfl, rfl, ?_⟩
  · refine (Path.repr_fill _ _).2 ⟨?_, hb', ⟨ha', ?_, ?_⟩, ?_⟩
    · refine Path.repr_rehang hCn hctx ?_ ?_
      · rintro g up rfl
        change h' g.addr = _
        rw [hp' g.addr _ rfl hctx.1]
        exact congrArg some (Frame.relink_cell g a (some b) _ (fun hh => haC (by simp [hh])))
      · intro z hz hzp
        exact hfr z (fun e => haC (e ▸ hz)) (fun e => hbC (e ▸ hz)) hzp
          (fun e => (hC z hz).2.1 (ptr_mem_addrs e.symm))
    · refine repr_congr (fun z hz => ?_) hl
      exact hfr z (fun e => haL (e ▸ hz)) (fun e => hbL (e ▸ hz))
        (fun e => (hC z (Path.parent_mem_addrs e.symm)).1 hz)
        (fun e => (hL z hz).1 (ptr_mem_addrs e.symm))
    · refine repr_reparent hMn hm ?_ ?_
      · intro x nx hx1 hx2
        exact hx' x nx hx1 hx2
      · intro z hz hzm
        exact hfr z (fun e => haM (e ▸ hz)) (fun e => hbM (e ▸ hz))
          (fun e => (hC z (Path.parent_mem_addrs e.symm)).2.1 hz) hzm
    · refine repr_congr (fun z hz => ?_) hr
      exact hfr z (fun e => haR (e ▸ hz)) (fun e => hbR (e ▸ hz))
        (fun e => (hC z (Path.parent_mem_addrs e.symm)).2.2 hz)
        (fun e => (hM z (ptr_mem_addrs e.symm)) hz)
  · simp only at hroot ⊢
    rw [hroot, Path.ptr_fill, Path.ptr_fill]
    exact Path.root_replace haC
  · intro z hz
    simp only [Path.mem_addrs_fill, addrs_node, List.mem_append, List.mem_cons, not_or] at hz
    exact hfr z hz.2.2.1 hz.2.2.2.2.1 (fun e => hz.1 (Path.parent_mem_addrs e.symm))
      (fun e => hz.2.2.2.1 (ptr_mem_addrs e.symm))

open Tree in
/-- The function `rotate_right` performs the right rotation of the subtree at `a`. -/
theorem rotate_right_sim (s : Set α) (ctx : Path α) (a : Nat) (ca : Color) (l : Tree α)
    (va : α) (b : Nat) (cb : Color) (m : Tree α) (vb : α) (r : Tree α)
    (hO : s.Own (ctx.fill (node a ca (node b cb l vb m) va r))) :
    ∃ s', s.rotate_right (some a) = some s' ∧
      s.Step s' (ctx.fill (node a ca (node b cb l vb m) va r)).addrs
        (ctx.fill (node b cb l vb (node a ca m va r))) := by
  obtain ⟨h, f, rt, bg, n⟩ := s
  obtain ⟨hR, hroot, hN⟩ := hO
  obtain ⟨hctx, ha, ⟨hb, hl, hm⟩, hr⟩ := (Path.repr_fill _ _).1 hR
  have hD := Path.nodup_fill.1 hN
  simp only [addrs_node, List.append_assoc, List.cons_append] at hD
  obtain ⟨hba, ⟨hbC, hbL, hbM, hbR⟩, ⟨haC, haL, haM, haR⟩, hC, hL, hM, hCn, hLn, hMn, hRn⟩ :=
    nodup_rot hD
  have hab : a ≠ b := Ne.symm hba
  simp only [ptr_node] at ha hb
  have hp : ∀ p, ctx.ptr = some p → p ≠ a ∧ p ≠ b ∧ ∃ np, h p = some np := by
    intro p hp
    have hpC := Path.parent_mem_addrs hp
    refine ⟨fun e => haC (e ▸ hpC), fun e => hbC (e ▸ hpC), ?_⟩
    cases ctx with
    | nil => simp at hp
    | cons g up =>
      simp only [Path.ptr_cons, Option.some.injEq] at hp
      exact ⟨_, hp ▸ hctx.1⟩
  have hx : ∀ x, m.ptr = some x → x ≠ a ∧ x ≠ b ∧ ctx.ptr ≠ some x ∧ ∃ nx, h x = some nx := by
    intro x hx
    have hxM := ptr_mem_addrs hx
    refine ⟨fun e => haM (e ▸ hxM), fun e => hbM (e ▸ hxM),
      fun e => (hC x (Path.parent_mem_addrs e)).2.1 hxM, ?_⟩
    cases m with
    | nil => simp at hx
    | node x2 cx ml vx mr =>
      simp only [ptr_node, Option.some.injEq] at hx
      exact ⟨_, hx ▸ hm.1⟩
  obtain ⟨h', hev, ha', hb', hp', hx', hfr⟩ :=
    rotate_right_cells h f n rt bg a b va vb r.ptr l.ptr ctx.ptr m.ptr (some a) ca cb ha hb hab
      hp hx
  refine ⟨_, hev, ?_, ?_, rfl, rfl, rfl, ?_⟩
  · refine (Path.repr_fill _ _).2 ⟨?_, hb', ?_, ha', ?_, ?_⟩
    · refine Path.repr_rehang hCn hctx ?_ ?_
      · rintro g up rfl
        change h' g.addr = _
        rw [hp' g.addr _ rfl hctx.1]
        exact congrArg some (Frame.relink_cell g a (some b) _ (fun hh => haC (by simp [hh])))
      · intro z hz hzp
        exact hfr z (fun e => haC (e ▸ hz)) (fun e => hbC (e ▸ hz)) hzp
          (fun e => (hC z hz).2.1 (ptr_mem_addrs e.symm))
    · refine repr_congr (fun z hz => ?_) hl
      exact hfr z (fun e => haL (e ▸ hz)) (fun e => hbL (e ▸ hz))
        (fun e => (hC z (Path.parent_mem_addrs e.symm)).1 hz)
        (fun e => (hL z hz).1 (ptr_mem_addrs e.symm))
    · refine repr_reparent hMn hm ?_ ?_
      · intro x nx hx1 hx2
        exact hx' x nx hx1 hx2
      · intro z hz hzm
        exact hfr z (fun e => haM (e ▸ hz)) (fun e => hbM (e ▸ hz))
          (fun e => (hC z (Path.parent_mem_addrs e.symm)).2.1 hz) hzm
    · refine repr_congr (fun z hz => ?_) hr
      exact hfr z (fun e => haR (e ▸ hz)) (fun e => hbR (e ▸ hz))
        (fun e => (hC z (Path.parent_mem_addrs e.symm)).2.2 hz)
        (fun e => (hM z (ptr_mem_addrs e.symm)) hz)
  · simp only at hroot ⊢
    rw [hroot, Path.ptr_fill, Path.ptr_fill]
    exact Path.root_replace haC
  · intro z hz
    simp only [Path.mem_addrs_fill, addrs_node, List.mem_append, List.mem_cons, not_or] at hz
    obtain ⟨hzC, ⟨-, hzb, hzm⟩, hza, -⟩ := hz
    exact hfr z hza hzb (fun e => hzC (Path.parent_mem_addrs e.symm))
      (fun e => hzm (ptr_mem_addrs e.symm))


end SetReview

namespace SetReview

variable {α : Type}

/-! ## Chaining steps, reading and recolouring nodes -/

namespace Set

theorem Step.toOwn {s1 s2 : Set α} {A : List Nat} {t : Tree α} (h : s1.Step s2 A t)
    (hn : t.addrs.Nodup) : s2.Own t :=
  ⟨h.repr, h.root, hn⟩

theorem Step.here {s : Set α} {t : Tree α} (h : s.Own t) (A : List Nat) : s.Step s A t :=
  ⟨h.repr, h.root, rfl, rfl, rfl, fun _ _ => rfl⟩

theorem Step.chain {s1 s2 s3 : Set α} {A B : List Nat} {t2 t3 : Tree α}
    (h12 : s1.Step s2 A t2) (h23 : s2.Step s3 B t3) (hBA : ∀ z, z ∈ B → z ∈ A) :
    s1.Step s3 A t3 :=
  ⟨h23.repr, h23.root, h23.fresh.trans h12.fresh, h23.begin_eq.trans h12.begin_eq,
    h23.size_eq.trans h12.size_eq,
    fun z hz => (h23.frame z (fun hb => hz (hBA z hb))).trans (h12.frame z hz)⟩

/-- Reading the node at the root of the subtree at a position. -/
theorem node_focus {s : Set α} {ctx : Path α} {a : Nat} {c : Color} {l : Tree α} {v : α}
    {r : Tree α} (hO : s.Own (ctx.fill (Tree.node a c l v r))) :
    s.node (some a) = some ⟨v, l.ptr, r.ptr, ctx.ptr, c⟩ :=
  ((Path.repr_fill _ _).1 hO.repr).2.1

/-- Reading the colour through the pointer to a subtree. -/
theorem color_focus {s : Set α} {ctx : Path α} {t : Tree α} (hO : s.Own (ctx.fill t)) :
    s.color t.ptr = some t.color := by
  cases t with
  | nil => rfl
  | node a c l v r =>
    have := node_focus hO
    simp only [Set.node] at this
    simp only [Set.color, Tree.ptr_node, this, Option.map_some', Tree.color_node]

/-- The function `brother` returns the pointer to the sibling subtree. -/
theorem brother_focus {s : Set α} {f : Frame α} {up : Path α} {a : Nat} {c : Color}
    {l : Tree α} {v : α} {r : Tree α} (hO : s.Own (Path.fill (f :: up) (Tree.node a c l v r))) :
    s.brother (some a) = some f.sibling.ptr := by
  have hn := node_focus hO
  have hp := ((Path.repr_fill _ _).1 hO.repr).1.1
  have hD := Path.nodup_fill.1 hO.nodup
  have ha : a ∉ f.sibling.addrs := by
    intro hm
    have h1 : a ∈ Path.addrs (f :: up) := by simp [hm]
    have h2 : a ∈ (Tree.node a c l v r).addrs := by simp
    exact (List.disjoint_of_nodup_append hD) h1 h2
  have hne : f.sibling.ptr ≠ some a := fun e => ha (Tree.ptr_mem_addrs e)
  simp only [Set.node] at hn
  cases f with
  | left b cb vb rb =>
    simp only [Frame.addr, Frame.cell, Tree.ptr_node] at hp
    simp only [Set.brother, Set.node, hn, hp, Path.ptr_cons, Frame.addr, bind, Option.bind,
      if_true, pure, Frame.sibling]
  | right b cb lb vb =>
    simp only [Frame.addr, Frame.cell, Tree.ptr_node] at hp
    simp only [Frame.sibling] at hne
    simp only [Set.brother, Set.node, hn, hp, Path.ptr_cons, Frame.addr, bind, Option.bind,
      pure, Frame.sibling, Ne.symm hne, if_false]

/-- Overwriting the value and colour of the node at a position. -/
theorem write_sim (s : Set α) (ctx : Path α) (a : Nat) (c : Color) (l : Tree α) (v : α)
    (r : Tree α) (g : Node α → Node α) (c' : Color) (v' : α)
    (hg : g ⟨v, l.ptr, r.ptr, ctx.ptr, c⟩ = ⟨v', l.ptr, r.ptr, ctx.ptr, c'⟩)
    (hO : s.Own (ctx.fill (Tree.node a c l v r))) :
    ∃ s', s.write (some a) g = some s' ∧
      s.Step s' (ctx.fill (Tree.node a c l v r)).addrs (ctx.fill (Tree.node a c' l v' r)) := by
  obtain ⟨h, f, rt, bg, n⟩ := s
  obtain ⟨hR, hroot, hN⟩ := hO
  obtain ⟨hctx, ha, hl, hr⟩ := (Path.repr_fill _ _).1 hR
  have hD := Path.nodup_fill.1 hN
  simp only [Tree.addrs_node] at hD
  have hC : a ∉ ctx.addrs := fun hm => (List.disjoint_of_nodup_append hD) hm (by simp)
  have hT := (List.nodup_append.1 hD).2.1
  simp only [List.nodup_append, List.nodup_cons, List.disjoint_cons_right] at hT
  obtain ⟨-, ⟨har, -⟩, hal, -⟩ := hT
  simp only at ha hroot
  refine ⟨⟨Function.update h a (some (g ⟨v, l.ptr, r.ptr, ctx.ptr, c⟩)), f, rt, bg, n⟩, ?_, ?_,
    ?_, rfl, rfl, rfl, ?_⟩
  · simp only [Set.write, ha]
  · refine (Path.repr_fill _ _).2 ⟨?_, ?_, ?_, ?_⟩
    · exact Path.repr_agree (fun z hz =>
        Function.update_noteq (fun e : z = a => hC (e ▸ hz)) _ _) hctx
    · simp only [Function.update_same, hg]
    · exact Tree.repr_congr (fun z hz =>
        Function.update_noteq (fun e : z = a => hal (e ▸ hz)) _ _) hl
    · exact Tree.repr_congr (fun z hz =>
        Function.update_noteq (fun e : z = a => har (e ▸ hz)) _ _) hr
  · simp only [hroot, Path.ptr_fill, Tree.ptr_node]
  · intro z hz
    simp only [Path.mem_addrs_fill, Tree.addrs_node, List.mem_append, List.mem_cons, not_or]
      at hz
    exact Function.update_noteq hz.2.2.1 _ _

/-- The assignment `color(n) = c` recolours the root of the subtree `n` points to. -/
theorem color_assign_sim (s : Set α) (ctx : Path α) (t : Tree α) (c : Color)
    (hO : s.Own (ctx.fill t)) :
    ∃ s', s.color_assign t.ptr c = some s' ∧
      s.Step s' (ctx.fill t).addrs (ctx.fill (t.setColor c)) := by
  cases t with
  | nil => exact ⟨s, rfl, Step.here hO _⟩
  | node a c0 l v r => exact write_sim s ctx a c0 l v r _ c v rfl hO

end Set

end SetReview

namespace SetReview

variable {α : Type}

/-! ## Insertion fix-up -/

namespace Frame

@[simp] theorem ptr_plug (f : Frame α) (t : Tree α) : (f.plug t).ptr = some f.addr := by
  cases f <;> rfl

@[simp] theorem color_plug (f : Frame α) (t : Tree α) : (f.plug t).color = f.color := by
  cases f <;> rfl

@[simp] theorem setColor_plug (f : Frame α) (t : Tree α) (c : Color) :
    (f.plug t).setColor c = (f.setColor c).plug t := by
  cases f <;> rfl

@[simp] theorem addr_setColor (f : Frame α) (c : Color) : (f.setColor c).addr = f.addr := by
  cases f <;> rfl

@[simp] theorem color_setColor (f : Frame α) (c : Color) : (f.setColor c).color = c := by
  cases f <;> rfl

@[simp] theorem sibling_setColor (f : Frame α) (c : Color) :
    (f.setColor c).sibling = f.sibling := by
  cases f <;> rfl

@[simp] theorem addr_setSibling (f : Frame α) (t : Tree α) :
    (f.setSibling t).addr = f.addr := by
  cases f <;> rfl

@[simp] theorem sibling_setSibling (f : Frame α) (t : Tree α) :
    (f.setSibling t).sibling = t := by
  cases f <;> rfl

@[simp] theorem color_setSibling (f : Frame α) (t : Tree α) :
    (f.setSibling t).color = f.color := by
  cases f <;> rfl

@[simp] theorem setSibling_sibling (f : Frame α) : f.setSibling f.sibling = f := by
  cases f <;> rfl

@[simp] theorem plug_flip (f : Frame α) (t : Tree α) :
    (f.flip t).plug f.sibling = f.plug t := by
  cases f <;> rfl

@[simp] theorem sibling_flip (f : Frame α) (t : Tree α) : (f.flip t).sibling = t := by
  cases f <;> rfl

@[simp] theorem flip_flip (f : Frame α) (t : Tree α) (u : Tree α) :
    ((f.flip t).setSibling t).flip u = f.setSibling u := by
  cases f <;> rfl

theorem plug_setSibling_flip (f : Frame α) (t u : Tree α) :
    (f.flip t).plug u = (f.setSibling u).plug t := by
  cases f <;> rfl

end Frame

@[simp] theorem Tree.cells_setColor (t : Tree α) (c : Color) :
    (t.setColor c).cells = t.cells := by
  cases t <;> rfl

@[simp] theorem Tree.ptr_setColor (t : Tree α) (c : Color) : (t.setColor c).ptr = t.ptr := by
  cases t <;> rfl

namespace Set

/-- Reading the colour of the parent of a position. -/
theorem color_parent {s : Set α} {f : Frame α} {up : Path α} {t : Tree α}
    (hO : s.Own (Path.fill (f :: up) t)) : s.color (some f.addr) = some f.color := by
  have := @color_focus _ s up (f.plug t) hO
  simpa using this

/-- Reading the node record of the parent of a position. -/
theorem node_parent {s : Set α} {f : Frame α} {up : Path α} {t : Tree α}
    (hO : s.Own (Path.fill (f :: up) t)) :
    s.node (some f.addr) = some (f.cell t.ptr up.ptr) :=
  ((Path.repr_fill _ _).1 hO.repr).1.1

/-- Reading the colour of the sibling of a position. -/
theorem color_sibling {s : Set α} {f : Frame α} {up : Path α} {t : Tree α}
    (hO : s.Own (Path.fill (f :: up) t)) : s.color f.sibling.ptr = some f.sibling.color := by
  have h2 : s.Own (Path.fill (f.flip t :: up) f.sibling) := by
    simpa [Path.fill] using hO
  exact color_focus h2

/-- Recolouring the parent of a position. -/
theorem color_assign_parent (s : Set α) (f : Frame α) (up : Path α) (t : Tree α) (c : Color)
    (hO : s.Own (Path.fill (f :: up) t)) :
    ∃ s', s.color_assign (some f.addr) c = some s' ∧
      s.Step s' (Path.fill (f :: up) t).addrs (Path.fill (f.setColor c :: up) t) := by
  have := color_assign_sim s up (f.plug t) c hO
  simpa using this

/-- Recolouring the sibling of a position. -/
theorem color_assign_sibling (s : Set α) (f : Frame α) (up : Path α) (t : Tree α) (c : Color)
    (hO : s.Own (Path.fill (f :: up) t)) :
    ∃ s', s.color_assign f.sibling.ptr c = some s' ∧
      s.Step s' (Path.fill (f :: up) t).addrs
        (Path.fill (f.setSibling (f.sibling.setColor c) :: up) t) := by
  have h2 : s.Own (Path.fill (f.flip t :: up) f.sibling) := by
    simpa [Path.fill] using hO
  have := color_assign_sim s (f.flip t :: up) f.sibling c h2
  simpa [Path.fill, Frame.plug_setSibling_flip] using this

end Set

end SetReview

namespace SetReview

variable {α : Type}

namespace Set

theorem Sim.addrs {s1 s2 : Set α} {t1 t2 : Tree α} (h : s1.Sim s2 t1 t2) :
    t2.addrs = t1.addrs := by
  rw [Tree.addrs, Tree.addrs, h.cells]

theorem Sim.own {s1 s2 : Set α} {t1 t2 : Tree α} (h : s1.Sim s2 t1 t2) (hO : s1.Own t1) :
    s2.Own t2 :=
  h.step.toOwn (h.addrs ▸ hO.nodup)

theorem Sim.refl {s : Set α} {t : Tree α} (h : s.Own t) : s.Sim s t t :=
  ⟨Step.here h _, rfl⟩

theorem Sim.trans {s1 s2 s3 : Set α} {t1 t2 t3 : Tree α} (h12 : s1.Sim s2 t1 t2)
    (h23 : s2.Sim s3 t2 t3) : s1.Sim s3 t1 t3 :=
  ⟨h12.step.chain h23.step (fun _ hz => h12.addrs ▸ hz), h23.cells.trans h12.cells⟩

theorem Sim.of_step {s1 s2 : Set α} {t1 t2 : Tree α} (h : s1.Step s2 t1.addrs t2)
    (hc : t2.cells = t1.cells) : s1.Sim s2 t1 t2 := ⟨h, hc⟩

/-- Left rotation, with the order of the nodes kept. -/
theorem rotate_left_ok (s : Set α) (ctx : Path α) (a : Nat) (ca : Color) (l : Tree α)
    (va : α) (b : Nat) (cb : Color) (m : Tree α) (vb : α) (r : Tree α)
    (hO : s.Own (ctx.fill (Tree.node a ca l va (Tree.node b cb m vb r)))) :
    ∃ s', s.rotate_left (some a) = some s' ∧
      s.Sim s' (ctx.fill (Tree.node a ca l va (Tree.node b cb m vb r)))
        (ctx.fill (Tree.node b cb (Tree.node a ca l va m) vb r)) := by
  obtain ⟨s', h1, h2⟩ := rotate_left_sim s ctx a ca l va b cb m vb r hO
  exact ⟨s', h1, h2, by simp [Path.cells_fill]⟩

/-- Right rotation, with the order of the nodes kept. -/
theorem rotate_right_ok (s : Set α) (ctx : Path α) (a : Nat) (ca : Color) (l : Tree α)
    (va : α) (b : Nat) (cb : Color) (m : Tree α) (vb : α) (r : Tree α)
    (hO : s.Own (ctx.fill (Tree.node a ca (Tree.node b cb l vb m) va r))) :
    ∃ s', s.rotate_right (some a) = some s' ∧
      s.Sim s' (ctx.fill (Tree.node a ca (Tree.node b cb l vb m) va r))
        (ctx.fill (Tree.node b cb l vb (Tree.node a ca m va r))) := by
  obtain ⟨s', h1, h2⟩ := rotate_right_sim s ctx a ca l va b cb m vb r hO
  exact ⟨s', h1, h2, by simp [Path.cells_fill]⟩

/-- Recolouring the node at a position. -/
theorem recolor_ok (s : Set α) (ctx : Path α) (a : Nat) (c : Color) (l : Tree α) (v : α)
    (r : Tree α) (c' : Color) (hO : s.Own (ctx.fill (Tree.node a c l v r))) :
    ∃ s', s.color_assign (some a) c' = some s' ∧
      s.Sim s' (ctx.fill (Tree.node a c l v r)) (ctx.fill (Tree.node a c' l v r)) := by
  obtain ⟨s', h1, h2⟩ := color_assign_sim s ctx (Tree.node a c l v r) c' hO
  exact ⟨s', h1, h2, by simp [Path.cells_fill]⟩

/-- Recolouring the root of the subtree at a position, if there is one. -/
theorem recolor_opt_ok (s : Set α) (ctx : Path α) (t : Tree α) (c' : Color)
    (hO : s.Own (ctx.fill t)) :
    ∃ s', s.color_assign t.ptr c' = some s' ∧
      s.Sim s' (ctx.fill t) (ctx.fill (t.setColor c')) := by
  obtain ⟨s', h1, h2⟩ := color_assign_sim s ctx t c' hO
  exact ⟨s', h1, h2, by simp [Path.cells_fill]⟩

end Set

end SetReview

namespace SetReview

variable {α : Type}

namespace Set

/-- The sibling of a position is not the node at the position. -/
theorem sibling_ptr_ne {s : Set α} {f : Frame α} {up : Path α} {t : Tree α} {a : Nat}
    (hO : s.Own (Path.fill (f :: up) t)) (ht : t.ptr = some a) : f.sibling.ptr ≠ some a := by
  intro e
  have hD := Path.nodup_fill.1 hO.nodup
  have h1 : a ∈ Path.addrs (f :: up) := by simp [Tree.ptr_mem_addrs e]
  exact (List.disjoint_of_nodup_append hD) h1 (Tree.ptr_mem_addrs ht)

/-- Lines 210-218, parent and node both left children. -/
theorem insert_rotate_LL (s : Set α) (up : Path α) (ga : Nat) (gc : Color) (gv : α)
    (u : Tree α) (pa : Nat) (pc : Color) (pv : α) (pr : Tree α) (a : Nat) (c : Color)
    (l : Tree α) (v : α) (r : Tree α)
    (hO : s.Own (Path.fill (Frame.left pa pc pv pr :: Frame.left ga gc gv u :: up)
      (Tree.node a c l v r))) :
    ∃ s', s.insert_rebalance_rotate (some a) (some pa) (some ga) = some s' ∧
      s.Sim s' (Path.fill (Frame.left pa pc pv pr :: Frame.left ga gc gv u :: up)
          (Tree.node a c l v r))
        (Path.fill up (Tree.node pa Color.black (Tree.node a c l v r) pv
          (Tree.node ga Color.red pr gv u))) := by
  have hnp := node_parent hO
  have hng := @node_parent _ s (Frame.left ga gc gv u) up _ hO
  have hne := sibling_ptr_ne hO rfl
  obtain ⟨s1, e1, m1⟩ := recolor_ok s up ga gc _ gv u Color.red hO
  obtain ⟨s2, e2, m2⟩ := recolor_ok s1 (Frame.left ga Color.red gv u :: up) pa pc _ pv pr
    Color.black (m1.own hO)
  obtain ⟨s3, e3, m3⟩ := rotate_right_ok s2 up ga Color.red _ gv pa Color.black pr pv u
    (m2.own (m1.own hO))
  refine ⟨s3, ?_, (m1.trans m2).trans m3⟩
  simp only [Frame.sibling] at hne
  simp only [Frame.addr, Frame.cell, Tree.ptr_node, Frame.plug, Path.ptr_cons] at hnp hng
  simp only [Set.insert_rebalance_rotate, hnp, hng, bind, Option.bind, pure, if_true, hne,
    if_false, e1, e2, e3]

/-- Lines 210-218, parent a left child and node a right child. -/
theorem insert_rotate_LR (s : Set α) (up : Path α) (ga : Nat) (gc : Color) (gv : α)
    (u : Tree α) (pa : Nat) (pc : Color) (pl : Tree α) (pv : α) (a : Nat) (c : Color)
    (l : Tree α) (v : α) (r : Tree α)
    (hO : s.Own (Path.fill (Frame.right pa pc pl pv :: Frame.left ga gc gv u :: up)
      (Tree.node a c l v r))) :
    ∃ s', s.insert_rebalance_rotate (some a) (some pa) (some ga) = some s' ∧
      s.Sim s' (Path.fill (Frame.right pa pc pl pv :: Frame.left ga gc gv u :: up)
          (Tree.node a c l v r))
        (Path.fill up (Tree.node a Color.black (Tree.node pa pc pl pv l) v
          (Tree.node ga Color.red r gv u))) := by
  have hnp := node_parent hO
  have hng := @node_parent _ s (Frame.left ga gc gv u) up _ hO
  obtain ⟨s1, e1, m1⟩ := rotate_left_ok s (Frame.left ga gc gv u :: up) pa pc pl pv a c l v r hO
  have o1 := m1.own hO
  have hng1 := @node_parent _ s1 (Frame.left ga gc gv u) up _ o1
  have hna1 := @node_focus _ s1 (Frame.left ga gc gv u :: up) a c _ v r o1
  obtain ⟨s2, e2, m2⟩ := recolor_ok s1 up ga gc _ gv u Color.red o1
  obtain ⟨s3, e3, m3⟩ := recolor_ok s2 (Frame.left ga Color.red gv u :: up) a c _ v r
    Color.black (m2.own o1)
  obtain ⟨s4, e4, m4⟩ := rotate_right_ok s3 up ga Color.red _ gv a Color.black r v u
    (m3.own (m2.own o1))
  refine ⟨s4, ?_, ((m1.trans m2).trans m3).trans m4⟩
  simp only [Frame.addr, Frame.cell, Tree.ptr_node, Frame.plug, Path.ptr_cons] at hnp hng hng1
  simp only [Set.insert_rebalance_rotate, hnp, hng, hng1, hna1, bind, Option.bind, pure,
    if_true, e1, e2, e3, e4]

/-- Lines 219-228, parent and node both right children. -/
theorem insert_rotate_RR (s : Set α) (up : Path α) (ga : Nat) (gc : Color) (u : Tree α)
    (gv : α) (pa : Nat) (pc : Color) (pl : Tree α) (pv : α) (a : Nat) (c : Color)
    (l : Tree α) (v : α) (r : Tree α)
    (hO : s.Own (Path.fill (Frame.right pa pc pl pv :: Frame.right ga gc u gv :: up)
      (Tree.node a c l v r))) :
    ∃ s', s.insert_rebalance_rotate (some a) (some pa) (some ga) = some s' ∧
      s.Sim s' (Path.fill (Frame.right pa pc pl pv :: Frame.right ga gc u gv :: up)
          (Tree.node a c l v r))
        (Path.fill up (Tree.node pa Color.black (Tree.node ga Color.red u gv pl) pv
          (Tree.node a c l v r))) := by
  have hnp := node_parent hO
  have hng := @node_parent _ s (Frame.right ga gc u gv) up _ hO
  have hne := sibling_ptr_ne hO rfl
  have hne2 := @sibling_ptr_ne _ s (Frame.right ga gc u gv) up _ pa hO rfl
  obtain ⟨s1, e1, m1⟩ := recolor_ok s up ga gc u gv _ Color.red hO
  obtain ⟨s2, e2, m2⟩ := recolor_ok s1 (Frame.right ga Color.red u gv :: up) pa pc pl pv _
    Color.black (m1.own hO)
  obtain ⟨s3, e3, m3⟩ := rotate_left_ok s2 up ga Color.red u gv pa Color.black pl pv _
    (m2.own (m1.own hO))
  refine ⟨s3, ?_, (m1.trans m2).trans m3⟩
  simp only [Frame.sibling] at hne hne2
  simp only [Frame.addr, Frame.cell, Tree.ptr_node, Frame.plug, Path.ptr_cons] at hnp hng
  simp only [Set.insert_rebalance_rotate, hnp, hng, bind, Option.bind, pure, hne, hne2,
    if_false, e1, e2, e3]

/-- Lines 219-228, parent a right child and node a left child. -/
theorem insert_rotate_RL (s : Set α) (up : Path α) (ga : Nat) (gc : Color) (u : Tree α)
    (gv : α) (pa : Nat) (pc : Color) (pv : α) (pr : Tree α) (a : Nat) (c : Color)
    (l : Tree α) (v : α) (r : Tree α)
    (hO : s.Own (Path.fill (Frame.left pa pc pv pr :: Frame.right ga gc u gv :: up)
      (Tree.node a c l v r))) :
    ∃ s', s.insert_rebalance_rotate (some a) (some pa) (some ga) = some s' ∧
      s.Sim s' (Path.fill (Frame.left pa pc pv pr :: Frame.right ga gc u gv :: up)
          (Tree.node a c l v r))
        (Path.fill up (Tree.node a Color.black (Tree.node ga Color.red u gv l) v
          (Tree.node pa pc r pv pr))) := by
  have hnp := node_parent hO
  have hng := @node_parent _ s (Frame.right ga gc u gv) up _ hO
  have hne2 := @sibling_ptr_ne _ s (Frame.right ga gc u gv) up _ pa hO rfl
  obtain ⟨s1, e1, m1⟩ := rotate_right_ok s (Frame.right ga gc u gv :: up) pa pc l pv a c r v pr
    hO
  have o1 := m1.own hO
  have hng1 := @node_parent _ s1 (Frame.right ga gc u gv) up _ o1
  have hna1 := @node_focus _ s1 (Frame.right ga gc u gv :: up) a c l v _ o1
  obtain ⟨s2, e2, m2⟩ := recolor_ok s1 up ga gc u gv _ Color.red o1
  obtain ⟨s3, e3, m3⟩ := recolor_ok s2 (Frame.right ga Color.red u gv :: up) a c l v _
    Color.black (m2.own o1)
  obtain ⟨s4, e4, m4⟩ := rotate_left_ok s3 up ga Color.red u gv a Color.black l v _
    (m3.own (m2.own o1))
  refine ⟨s4, ?_, ((m1.trans m2).trans m3).trans m4⟩
  simp only [Frame.sibling] at hne2
  simp only [Frame.addr, Frame.cell, Tree.ptr_node, Frame.plug, Path.ptr_cons] at hnp hng hng1
  simp only [Set.insert_rebalance_rotate, hnp, hng, hng1, hna1, bind, Option.bind, pure,
    if_true, hne2, if_false, e1, e2, e3, e4]

end Set

end SetReview

namespace SetReview

variable {α : Type}

@[simp] theorem Frame.parent_cell (f : Frame α) (x y : Ptr) : (f.cell x y).parent = y := by
  cases f <;> rfl

theorem insFix_nil (ctx : Path α) : insFix ctx (Tree.nil : Tree α) = none := by
  rcases ctx with _ | ⟨f, _ | ⟨g, up⟩⟩ <;> rfl

namespace Set

/-- The function `brother` applied to the root of any nonempty subtree. -/
theorem brother_ptr {s : Set α} {f : Frame α} {up : Path α} {t : Tree α} {a : Nat}
    (hO : s.Own (Path.fill (f :: up) t)) (ht : t.ptr = some a) :
    s.brother (some a) = some f.sibling.ptr := by
  cases t with
  | nil => simp at ht
  | node b c l v r =>
    simp only [Tree.ptr_node, Option.some.injEq] at ht
    subst ht
    exact brother_focus hO

/-- Recolouring the parent of a position keeps the order of the nodes. -/
theorem recolor_parent_ok (s : Set α) (f : Frame α) (up : Path α) (t : Tree α) (c : Color)
    (hO : s.Own (Path.fill (f :: up) t)) :
    ∃ s', s.color_assign (some f.addr) c = some s' ∧
      s.Sim s' (Path.fill (f :: up) t) (Path.fill (f.setColor c :: up) t) := by
  have := recolor_opt_ok s up (f.plug t) c hO
  simpa using this

/-- Recolouring the sibling of a position keeps the order of the nodes. -/
theorem recolor_sibling_ok (s : Set α) (f : Frame α) (up : Path α) (t : Tree α) (c : Color)
    (hO : s.Own (Path.fill (f :: up) t)) :
    ∃ s', s.color_assign f.sibling.ptr c = some s' ∧
      s.Sim s' (Path.fill (f :: up) t)
        (Path.fill (f.setSibling (f.sibling.setColor c) :: up) t) := by
  obtain ⟨s', h1, h2⟩ := color_assign_sibling s f up t c hO
  refine ⟨s', h1, h2, ?_⟩
  cases f <;> simp [Path.cells_fill, Frame.plug, Frame.setSibling, Frame.sibling]

/-- The function `insert_rebalance` computes `insFix`. -/
theorem insert_rebalance_sim : ∀ (k : Nat) (ctx : Path α) (t : Tree α) (s : Set α)
    (T : Tree α), s.Own (ctx.fill t) → insFix ctx t = some T → ctx.length < k →
    ∃ s', s.insert_rebalance k t.ptr = some s' ∧ s.Sim s' (ctx.fill t) T
  | 0, _, _, _, _, _, _, hk => absurd hk (Nat.not_lt_zero _)
  | k + 1, ctx, Tree.nil, s, T, _, hF, _ => by
    rw [insFix_nil] at hF
    cases hF
  | k + 1, [], Tree.node a c l v r, s, T, hO, hF, _ => by
    simp only [insFix, Option.some.injEq] at hF
    subst hF
    have hnv := node_focus hO
    obtain ⟨s1, e1, m1⟩ := recolor_ok s [] a c l v r Color.black hO
    refine ⟨s1, ?_, m1⟩
    simp only [Set.color_assign] at e1
    simp only [Set.insert_rebalance, Tree.ptr_node, hnv, bind, Option.bind, Path.ptr_empty, e1]
  | k + 1, [f], Tree.node a c l v r, s, T, hO, hF, _ => by
    have hnv := node_focus hO
    have hcp := color_parent hO
    by_cases hb : f.color = Color.black
    · simp only [insFix, hb, if_true, Option.some.injEq] at hF
      subst hF
      refine ⟨s, ?_, Sim.refl hO⟩
      simp only [Set.insert_rebalance, Tree.ptr_node, hnv, bind, Option.bind, Path.ptr_cons,
        hcp, hb, if_true, pure]
    · simp only [insFix, hb, if_false] at hF
      cases hF
  | k + 1, f :: g :: up, Tree.node a c l v r, s, T, hO, hF, hk => by
    have hnv := node_focus hO
    have hcp := color_parent hO
    by_cases hb : f.color = Color.black
    · simp only [insFix, hb, if_true, Option.some.injEq] at hF
      subst hF
      refine ⟨s, ?_, Sim.refl hO⟩
      simp only [Set.insert_rebalance, Tree.ptr_node, hnv, bind, Option.bind, Path.ptr_cons,
        hcp, hb, if_true, pure]
    · have hnp := node_parent hO
      have hbr := @brother_ptr _ s g up (f.plug (Tree.node a c l v r)) f.addr hO (by simp)
      have hcu := @color_sibling _ s g up (f.plug (Tree.node a c l v r)) hO
      by_cases hu : g.sibling.color = Color.red
      · simp only [insFix, hb, if_false, hu, if_true] at hF
        obtain ⟨s1, e1, m1⟩ := recolor_parent_ok s f (g :: up) _ Color.black hO
        have o1 := m1.own hO
        obtain ⟨s2, e2, m2⟩ := recolor_sibling_ok s1 g up
          ((f.setColor Color.black).plug (Tree.node a c l v r)) Color.black o1
        have o2 := m2.own o1
        obtain ⟨s3, e3, m3⟩ := recolor_parent_ok s2 (g.setSibling (g.sibling.setColor Color.black))
          up ((f.setColor Color.black).plug (Tree.node a c l v r)) Color.red o2
        have o3 := m3.own o2
        obtain ⟨s4, e4, m4⟩ := insert_rebalance_sim k up _ s3 T o3 hF
          (by simp only [List.length_cons] at hk; omega)
        refine ⟨s4, ?_, ((m1.trans m2).trans m3).trans m4⟩
        simp only [Frame.ptr_plug, Frame.addr_setColor, Frame.addr_setSibling] at e3 e4
        simp only [Set.insert_rebalance, Tree.ptr_node, hnv, bind, Option.bind, Path.ptr_cons,
          hcp, hb, if_false, hnp, Frame.parent_cell, hbr, hcu, hu, if_true, e1, e2, e3, e4]
      · simp only [insFix, hb, if_false, hu] at hF
        cases f with
        | left pa pc pv pr =>
          cases g with
          | left ga gc gv u =>
            simp only [Option.some.injEq] at hF
            subst hF
            obtain ⟨s1, e1, m1⟩ := insert_rotate_LL s up ga gc gv u pa pc pv pr a c l v r hO
            refine ⟨s1, ?_, m1⟩
            simp only [Frame.addr, Frame.color, Frame.sibling] at hnv hcp hb hnp hbr hcu hu e1
            simp only [Set.insert_rebalance, Tree.ptr_node, hnv, bind, Option.bind,
              Path.ptr_cons, hcp, hb, if_false, hnp, Frame.parent_cell, hbr, hcu, hu, e1,
              Frame.addr]
          | right ga gc u gv =>
            simp only [Option.some.injEq] at hF
            subst hF
            obtain ⟨s1, e1, m1⟩ := insert_rotate_RL s up ga gc u gv pa pc pv pr a c l v r hO
            refine ⟨s1, ?_, m1⟩
            simp only [Frame.addr, Frame.color, Frame.sibling] at hnv hcp hb hnp hbr hcu hu e1
            simp only [Set.insert_rebalance, Tree.ptr_node, hnv, bind, Option.bind,
              Path.ptr_cons, hcp, hb, if_false, hnp, Frame.parent_cell, hbr, hcu, hu, e1,
              Frame.addr]
        | right pa pc pl pv =>
          cases g with
          | left ga gc gv u =>
            simp only [Option.some.injEq] at hF
            subst hF
            obtain ⟨s1, e1, m1⟩ := insert_rotate_LR s up ga gc gv u pa pc pl pv a c l v r hO
            refine ⟨s1, ?_, m1⟩
            simp only [Frame.addr, Frame.color, Frame.sibling] at hnv hcp hb hnp hbr hcu hu e1
            simp only [Set.insert_rebalance, Tree.ptr_node, hnv, bind, Option.bind,
              Path.ptr_cons, hcp, hb, if_false, hnp, Frame.parent_cell, hbr, hcu, hu, e1,
              Frame.addr]
          | right ga gc u gv =>
            simp only [Option.some.injEq] at hF
            subst hF
            obtain ⟨s1, e1, m1⟩ := insert_rotate_RR s up ga gc u gv pa pc pl pv a c l v r hO
            refine ⟨s1, ?_, m1⟩
            simp only [Frame.addr, Frame.color, Frame.sibling] at hnv hcp hb hnp hbr hcu hu e1
            simp only [Set.insert_rebalance, Tree.ptr_node, hnv, bind, Option.bind,
              Path.ptr_cons, hcp, hb, if_false, hnp, Frame.parent_cell, hbr, hcu, hu, e1,
              Frame.addr]

end Set

end SetReview

namespace SetReview

variable {α : Type}

/-! ## Insertion -/

namespace Set

/-- Reading through the place that holds the pointer to a position. -/
theorem slot_get_focus {s : Set α} {ctx : Path α} {t : Tree α} (hO : s.Own (ctx.fill t)) :
    s.slot_get ctx.slot = some t.ptr := by
  cases ctx with
  | nil => simp only [Path.slot, Set.slot_get, hO.root, Path.fill_nil]
  | cons f up =>
    have h := node_parent hO
    simp only [Set.node] at h
    cases f with
    | left a c v r =>
      simp only [Frame.addr] at h
      simp only [Path.slot, Frame.slot, Set.slot_get, h, Option.map_some', Frame.cell]
    | right a c l v =>
      simp only [Frame.addr] at h
      simp only [Path.slot, Frame.slot, Set.slot_get, h, Option.map_some', Frame.cell]

/-- Storing a freshly allocated red leaf at a null position (lines 423-424). -/
theorem link_sim (s : Set α) (ctx : Path α) (x : α) (hO : s.Own (ctx.fill Tree.nil))
    (hb : ∀ z ∈ (ctx.fill (Tree.nil : Tree α)).addrs, z < s.fresh) :
    ∃ s', ({ s with _size := s._size + 1 }.alloc
          ⟨x, none, none, ctx.ptr, Color.red⟩).2.slot_set ctx.slot (some s.fresh) = some s' ∧
      s'.Own (ctx.fill (Tree.node s.fresh Color.red Tree.nil x Tree.nil)) ∧
      s'.fresh = s.fresh + 1 ∧ s'._begin = s._begin ∧ s'._size = s._size + 1 ∧
      ∀ z, z ∉ (ctx.fill (Tree.nil : Tree α)).addrs → z ≠ s.fresh → s'.heap z = s.heap z := by
  obtain ⟨h, f, rt, bg, n⟩ := s
  obtain ⟨hR, hroot, hN⟩ := hO
  obtain ⟨hctx, -⟩ := (Path.repr_fill _ _).1 hR
  have hD := Path.nodup_fill.1 hN
  simp only [Tree.addrs_nil, List.append_nil] at hD
  have hfC : f ∉ ctx.addrs := fun hm =>
    Nat.lt_irrefl f (hb f (Path.mem_addrs_fill.2 (Or.inl hm)))
  simp only at hctx hroot hb hfC
  cases ctx with
  | nil =>
    refine ⟨⟨Function.update h f (some ⟨x, none, none, none, Color.red⟩), f + 1, some f, bg,
      n + 1⟩, rfl, ⟨?_, rfl, ?_⟩, rfl, rfl, rfl, ?_⟩
    · simp only [Path.fill_nil, Tree.repr_node, Function.update_same, Tree.ptr_nil,
        Tree.repr_nil, and_self]
    · simp
    · intro z _ hz
      exact Function.update_noteq hz _ _
  | cons g up =>
    have hg := hctx.1
    have hgf : g.addr ≠ f := fun e => hfC (by simp [e])
    have hg' : Function.update h f (some ⟨x, none, none, some g.addr, Color.red⟩) g.addr =
        some (g.cell none (Path.ptr up)) := by
      rw [Function.update_noteq hgf]
      exact hg
    let h2 := Function.update (Function.update h f (some ⟨x, none, none, some g.addr, Color.red⟩))
        g.addr (some (g.cell (some f) (Path.ptr up)))
    have hf2 : h2 f = some ⟨x, none, none, some g.addr, Color.red⟩ := by
      simp only [h2, Function.update_noteq (Ne.symm hgf), Function.update_same]
    refine ⟨⟨h2, f + 1, rt, bg, n + 1⟩, ?_, ⟨?_, ?_, ?_⟩, rfl, rfl, rfl, ?_⟩
    · cases g with
      | left a c v r =>
        simp only [Frame.addr, Frame.cell, Tree.ptr_nil] at hg'
        simp only [Set.alloc, Path.ptr_cons, Frame.addr, Path.slot, Frame.slot, Set.slot_set,
          Set.write, hg', h2, Frame.cell]
      | right a c l v =>
        simp only [Frame.addr, Frame.cell, Tree.ptr_nil] at hg'
        simp only [Set.alloc, Path.ptr_cons, Frame.addr, Path.slot, Frame.slot, Set.slot_set,
          Set.write, hg', h2, Frame.cell]
    · refine (Path.repr_fill _ _).2 ⟨?_, ?_⟩
      · refine Path.repr_rehang hD hctx ?_ ?_
        · rintro g2 up2 e
          cases e
          simp only [h2, Function.update_same, Tree.ptr_node]
        · intro z hz hzp
          simp only [Path.ptr_cons, ne_eq, Option.some.injEq] at hzp
          simp only [h2, Function.update_noteq hzp,
            Function.update_noteq (fun e : z = f => hfC (e ▸ hz))]
      · simp only [Tree.repr_node, hf2, Tree.ptr_nil, Path.ptr_cons, Tree.repr_nil, and_self]
    · simp only [hroot, Path.ptr_fill, Path.root_cons]
    · rw [Path.nodup_fill]
      simp only [Tree.addrs_node, Tree.addrs_nil, List.nil_append]
      rw [List.nodup_append]
      refine ⟨hD, by simp, ?_⟩
      simp only [List.disjoint_singleton]
      exact hfC
    · intro z hz hzf
      have hzg : z ≠ g.addr := fun e => hz (Path.mem_addrs_fill.2 (Or.inl (by simp [e])))
      simp only [h2, Function.update_noteq hzg, Function.update_noteq hzf]

end Set

end SetReview

namespace SetReview

variable {α : Type}

/-- Distinct addresses below a bound are at most as many as the bound. -/
theorem length_le_of_nodup_lt {L : List Nat} {n : Nat} (hn : L.Nodup) (hb : ∀ z ∈ L, z < n) :
    L.length ≤ n := by
  have h1 : L.toFinset ⊆ Finset.range n := by
    intro z hz
    simp only [List.mem_toFinset] at hz
    simp only [Finset.mem_range]
    exact hb z hz
  have h2 := Finset.card_le_card h1
  rw [List.toFinset_card_of_nodup hn, Finset.card_range] at h2
  exact h2

namespace Tree

theorem length_cells (t : Tree α) : t.cells.length = t.size := by
  induction t with
  | nil => rfl
  | node a c l v r ihl ihr => simp [size, ihl, ihr]; omega

theorem length_addrs (t : Tree α) : t.addrs.length = t.size := by
  simp [addrs, length_cells]

theorem height_le_size (t : Tree α) : t.height ≤ t.size := by
  induction t with
  | nil => exact Nat.le_refl _
  | node a c l v r ihl ihr => simp only [height, size]; omega

/-- Every node of a represented tree is stored in memory, with its value, and its child
pointers lead into the tree. -/
theorem repr_mem {h : Nat → Option (Node α)} : ∀ {t : Tree α} {par : Ptr} {b : Nat},
    Repr h par t → b ∈ t.addrs →
    ∃ n, h b = some n ∧ (b, n.value) ∈ t.cells ∧ (∀ z, n.left = some z → z ∈ t.addrs) ∧
      (∀ z, n.right = some z → z ∈ t.addrs)
  | nil, _, _, _, hb => by simp at hb
  | node a c l v r, par, b, hr, hb => by
    simp only [addrs_node, List.mem_append, List.mem_cons] at hb
    rcases hb with hb | hb | hb
    · obtain ⟨n, h1, h2, h3, h4⟩ := repr_mem hr.2.1 hb
      exact ⟨n, h1, by simp [h2], fun z hz => by simp [h3 z hz], fun z hz => by simp [h4 z hz]⟩
    · subst hb
      refine ⟨_, hr.1, by simp, fun z hz => ?_, fun z hz => ?_⟩
      · simp [ptr_mem_addrs hz]
      · simp [ptr_mem_addrs hz]
    · obtain ⟨n, h1, h2, h3, h4⟩ := repr_mem hr.2.2 hb
      exact ⟨n, h1, by simp [h2], fun z hz => by simp [h3 z hz], fun z hz => by simp [h4 z hz]⟩

end Tree

namespace Set

/-- The fuel of a well-formed state exceeds the height of its tree. -/
theorem height_lt_fuel {s : Set α} {t : Tree α} (hn : t.addrs.Nodup)
    (hb : ∀ z ∈ t.addrs, z < s.fresh) : t.height < s.fuel := by
  have h1 := length_le_of_nodup_lt hn hb
  rw [Tree.length_addrs] at h1
  have h2 := t.height_le_size
  simp only [Set.fuel]
  omega

/-- Reading through a place of the tree gives null or a node of the tree. -/
theorem slot_get_live {s : Set α} {t : Tree α} (hO : s.Own t) (sl : Slot)
    (hs : ∀ p, sl = Slot.left p ∨ sl = Slot.right p → p ∈ t.addrs) :
    ∃ c, s.slot_get sl = some c ∧ ∀ z, c = some z → z ∈ t.addrs := by
  cases sl with
  | root => exact ⟨s._root, rfl, fun z hz => Tree.ptr_mem_addrs (hO.root ▸ hz)⟩
  | left p =>
    obtain ⟨n, h1, -, h3, -⟩ := Tree.repr_mem hO.repr (hs p (Or.inl rfl))
    exact ⟨n.left, by simp only [Set.slot_get, h1, Option.map_some'], h3⟩
  | right p =>
    obtain ⟨n, h1, -, -, h4⟩ := Tree.repr_mem hO.repr (hs p (Or.inr rfl))
    exact ⟨n.right, by simp only [Set.slot_get, h1, Option.map_some'], h4⟩

theorem slot_cons_left (a : Nat) (c : Color) (v : α) (r : Tree α) (p : Path α) :
    Path.slot (Frame.left a c v r :: p) = Slot.left a := rfl

theorem slot_cons_right (a : Nat) (c : Color) (l : Tree α) (v : α) (p : Path α) :
    Path.slot (Frame.right a c l v :: p) = Slot.right a := rfl

section

variable [LT α] [DecidableRel (fun a b : α => a < b)]

/-- The descent of `insert` computes `insPath`. -/
theorem insert_loop_sim (x : α) : ∀ (k : Nat) (ctx : Path α) (t : Tree α) (s : Set α),
    s.Own (ctx.fill t) → t.height < k →
    s.insert_loop k x ctx.ptr ctx.slot =
      some ((insPath x ctx t).map (fun p => (p.ptr, p.slot)))
  | 0, _, _, _, _, hk => absurd hk (Nat.not_lt_zero _)
  | k + 1, ctx, Tree.nil, s, hO, _ => by
    have h1 := slot_get_focus hO
    simp only [Set.insert_loop, h1, Tree.ptr_nil, bind, Option.bind, pure, insPath,
      Option.map_some']
  | k + 1, ctx, Tree.node a c l v r, s, hO, hk => by
    have h1 := slot_get_focus hO
    have h2 := node_focus hO
    simp only [Tree.height] at hk
    have ihl := insert_loop_sim x k (Frame.left a c v r :: ctx) l s hO (by omega)
    have ihr := insert_loop_sim x k (Frame.right a c l v :: ctx) r s hO (by omega)
    rw [Path.ptr_cons, slot_cons_left] at ihl
    rw [Path.ptr_cons, slot_cons_right] at ihr
    simp only [Frame.addr] at ihl ihr
    simp only [Set.insert_loop, h1, Tree.ptr_node, bind, Option.bind, h2, insPath]
    by_cases hlt : x < v
    · simp only [hlt, if_true, ihl]
    · by_cases hgt : v < x
      · simp only [hlt, if_false, hgt, if_true, ihr]
      · simp only [hlt, if_false, hgt, pure, Option.map_none']

end

end Set

end SetReview

namespace SetReview

variable {α : Type}

namespace Path

theorem rootBlack_tail {f : Frame α} {up : Path α} (h : RootBlack (f :: up)) :
    RootBlack up := by
  cases up with
  | nil => trivial
  | cons g up => exact h

/-- A black root of the filled tree is a black root of the path. -/
theorem rootBlack_of_fill : ∀ (p : Path α) (t : Tree α), p ≠ [] →
    (p.fill t).color = Color.black → RootBlack p
  | [], _, h, _ => absurd rfl h
  | [f], t, _, hc => by
    simpa [RootBlack] using hc
  | f :: g :: up, t, _, hc => rootBlack_of_fill (g :: up) (f.plug t) (by simp) hc

theorem length_le_height : ∀ (p : Path α) (t : Tree α), p.length + t.height ≤ (p.fill t).height
  | [], _ => by simp
  | f :: up, t => by
    have h := length_le_height up (f.plug t)
    have h2 : t.height + 1 ≤ (f.plug t).height := by
      cases f <;> simp only [Frame.plug, Tree.height] <;> omega
    simp only [List.length_cons, fill_cons]
    omega

end Path

/-- The insertion fix-up meets no null pointer when the root is black. -/
theorem insFix_some : ∀ (p : Path α) (t : Tree α), t.ptr ≠ none → p.RootBlack →
    ∃ T, insFix p t = some T
  | _, Tree.nil, h, _ => absurd rfl h
  | [], Tree.node a c l v r, _, _ => ⟨_, rfl⟩
  | [f], Tree.node a c l v r, _, h => by
    simp only [Path.RootBlack] at h
    exact Option.isSome_iff_exists.1 (by simp only [insFix, h, if_true, Option.isSome_some])
  | f :: g :: up, Tree.node a c l v r, _, h => by
    by_cases hb : f.color = Color.black
    · exact Option.isSome_iff_exists.1 (by simp only [insFix, hb, if_true, Option.isSome_some])
    · by_cases hu : g.sibling.color = Color.red
      · obtain ⟨T, hT⟩ := insFix_some up
          (((g.setSibling (g.sibling.setColor Color.black)).setColor Color.red).plug
            ((f.setColor Color.black).plug (Tree.node a c l v r))) (by simp)
          (Path.rootBlack_tail (Path.rootBlack_tail h))
        exact ⟨T, by simp only [insFix, hb, if_false, hu, if_true, hT]⟩
      · cases f <;> cases g <;>
          exact Option.isSome_iff_exists.1
            (by simp only [insFix, hb, if_false, hu, Option.isSome_some])

section

variable [LT α] [DecidableRel (fun a b : α => a < b)]

/-- The path found by the descent leads to a null position of the same tree. -/
theorem insPath_fill (x : α) : ∀ (t : Tree α) (p q : Path α),
    insPath x p t = some q → q.fill Tree.nil = p.fill t
  | Tree.nil, p, q, h => by
    simp only [insPath, Option.some.injEq] at h
    rw [h]
  | Tree.node a c l v r, p, q, h => by
    simp only [insPath] at h
    by_cases hlt : x < v
    · simp only [hlt, if_true] at h
      exact insPath_fill x l _ q h
    · by_cases hgt : v < x
      · simp only [hlt, if_false, hgt, if_true] at h
        exact insPath_fill x r _ q h
      · simp only [hlt, if_false, hgt] at h
        cases h

end

end SetReview

namespace SetReview

variable {α : Type}

namespace Set

theorem Shape.owns {s : Set α} {t : Tree α} (h : s.Shape t) : s.Own t :=
  ⟨h.repr, h.root, h.nodup⟩

variable [LT α] [DecidableRel (fun a b : α => a < b)]

/-- What `insert` does on a well-formed set with a black root: nothing when the descent
meets an equivalent value; otherwise it links a red leaf at the position found by the
descent, runs the fix-up, and sets `_begin` to the content of the place `cur` when
`_begin` is null or the moved-from value compares less than the value at `_begin`. -/
theorem insert_spec (moved : α → α) (s : Set α) (T : Tree α) (x : α) (hS : s.Shape T)
    (h1 : T.RB1) :
    match insPath x [] T with
    | none => s.insert moved x = some s
    | some p => ∃ s3 T' c,
        insFix p (Tree.node s.fresh Color.red Tree.nil x Tree.nil) = some T' ∧ s3.Own T' ∧
        s3._begin = s._begin ∧ s3._size = s._size + 1 ∧ s3.fresh = s.fresh + 1 ∧
        (∀ z, z ∉ T.addrs → z ≠ s.fresh → s3.heap z = s.heap z) ∧
        s3.slot_get p.slot = some c ∧ (∀ z, c = some z → z ∈ T'.addrs) ∧
        ∃ b : Bool, (b = true ↔ (s._begin = none ∨
            ∃ z n, s._begin = some z ∧ s3.heap z = some n ∧ moved x < n.value)) ∧
          s.insert moved x = some (if b then { s3 with _begin := c } else s3) := by
  have hloop : s.insert_loop s.fuel x none Slot.root =
      some ((insPath x [] T).map (fun p => (p.ptr, p.slot))) :=
    insert_loop_sim x s.fuel [] T s hS.owns (height_lt_fuel hS.nodup hS.bound)
  cases hp : insPath x [] T with
  | none =>
    simp only [hp, Option.map_none'] at hloop
    simp only [Set.insert, hloop, bind, Option.bind, pure]
  | some p =>
    simp only [hp, Option.map_some'] at hloop
    have hfill := insPath_fill x T [] p hp
    simp only [Path.fill_nil] at hfill
    have hO0 : s.Own (p.fill Tree.nil) := hfill ▸ hS.owns
    obtain ⟨s1, e1, o1, f1, b1, z1, fr1⟩ := link_sim s p x hO0 (hfill ▸ hS.bound)
    have hsg := slot_get_focus o1
    have hRB : p.RootBlack := by
      cases p with
      | nil => trivial
      | cons f up => exact Path.rootBlack_of_fill _ Tree.nil (by simp) (hfill ▸ h1)
    obtain ⟨T', hT'⟩ := insFix_some p (Tree.node s.fresh Color.red Tree.nil x Tree.nil)
      (by simp) hRB
    have hlen : p.length < s1.fuel := by
      have h2 := Path.length_le_height p (Tree.nil : Tree α)
      rw [hfill] at h2
      have h3 := height_lt_fuel hS.nodup hS.bound
      simp only [Set.fuel, f1] at h3 ⊢
      omega
    obtain ⟨s3, e3, m3⟩ := insert_rebalance_sim s1.fuel p _ s1 T' o1 hT' hlen
    have o3 := m3.own o1
    have hmem : ∀ z, z ∈ T'.addrs ↔ z ∈ T.addrs ∨ z = s.fresh := by
      intro z
      rw [m3.addrs, Path.mem_addrs_fill, ← hfill, Path.mem_addrs_fill]
      simp
    obtain ⟨c, hc, hcl⟩ := slot_get_live o3 p.slot (by
      intro q hq
      have hq2 : p.ptr = some q := by
        cases p with
        | nil => rcases hq with hq | hq <;> cases hq
        | cons f up =>
          cases f <;> rcases hq with hq | hq <;> cases hq <;> rfl
      rw [m3.addrs]
      exact Path.mem_addrs_fill.2 (Or.inl (Path.parent_mem_addrs hq2)))
    have hbg : s3._begin = s._begin := m3.step.begin_eq.trans b1
    have hfr : ∀ z, z ∉ T.addrs → z ≠ s.fresh → s3.heap z = s.heap z := by
      intro z hz hzf
      rw [m3.step.frame z (by
        rw [Path.mem_addrs_fill, ← hfill] at *
        simp only [Path.mem_addrs_fill, Tree.addrs_nil, List.not_mem_nil, or_false,
          Tree.addrs_node, List.nil_append, List.mem_singleton] at hz ⊢
        exact fun h => h.elim hz hzf)]
      exact fr1 z (hfill ▸ hz) hzf
    refine ⟨s3, T', c, hT', o3, hbg, m3.step.size_eq.trans z1, m3.step.fresh.trans f1, hfr, hc,
      hcl, ?_⟩
    simp only [Set.alloc] at e1
    simp only [Tree.ptr_node] at hsg e3
    cases hb0 : s._begin with
    | none =>
      refine ⟨true, by simp, ?_⟩
      rw [hb0] at hbg
      simp only [Set.insert, hloop, bind, Option.bind, pure, Set.alloc,
        e1, hsg, e3, hbg, hc, if_true]
    | some z =>
      rw [hb0] at hbg
      obtain ⟨n, hn1, -⟩ := Tree.repr_mem o3.repr ((hmem z).2 (Or.inl (hS.begin_live z hb0)))
      refine ⟨decide (moved x < n.value), ?_, ?_⟩
      · simp only [decide_eq_true_eq, reduceCtorEq, Option.some.injEq, false_or]
        constructor
        · exact fun h => ⟨z, n, rfl, hn1, h⟩
        · rintro ⟨z2, n2, rfl, h2, h3⟩
          rw [hn1] at h2
          cases h2
          exact h3
      · simp only [Set.insert, hloop, bind, Option.bind, pure, Set.alloc,
          e1, hsg, e3, hbg, Set.node, hn1, hc]
        by_cases hd : moved x < n.value
        · simp only [hd, decide_True, if_true, hc]
        · simp only [hd, decide_False, Bool.false_eq_true, if_false]

end Set

end SetReview

namespace SetReview

variable {α : Type}

/-! ## Red-black invariants of the insertion fix-up -/

theorem Color.eq_black_of_ne_red {c : Color} (h : c ≠ Color.red) : c = Color.black := by
  cases c
  · rfl
  · exact absurd rfl h

theorem Color.eq_red_of_ne_black {c : Color} (h : c ≠ Color.black) : c = Color.red := by
  cases c
  · exact absurd rfl h
  · rfl

namespace Tree

@[simp] theorem bh_nil : (nil : Tree α).bh = 0 := rfl

@[simp] theorem bh_node (a : Nat) (c : Color) (l : Tree α) (v : α) (r : Tree α) :
    (node a c l v r).bh = l.bh + (if c = Color.black then 1 else 0) := rfl

@[simp] theorem RB2_nil : (nil : Tree α).RB2 = True := rfl

@[simp] theorem RB2_node (a : Nat) (c : Color) (l : Tree α) (v : α) (r : Tree α) :
    (node a c l v r).RB2 =
      ((c = Color.red → l.color = Color.black ∧ r.color = Color.black) ∧ l.RB2 ∧ r.RB2) := rfl

@[simp] theorem RB3_nil : (nil : Tree α).RB3 = True := rfl

@[simp] theorem RB3_node (a : Nat) (c : Color) (l : Tree α) (v : α) (r : Tree α) :
    (node a c l v r).RB3 = (l.bh = r.bh ∧ l.RB3 ∧ r.RB3) := rfl

theorem RB2_setColor_black {t : Tree α} (h : t.RB2) : (t.setColor Color.black).RB2 := by
  cases t with
  | nil => trivial
  | node a c l v r =>
    simp only [RB2_node] at h
    simp only [setColor, RB2_node, reduceCtorEq, false_implies, true_and]
    exact h.2

theorem RB3_setColor {t : Tree α} (c : Color) (h : t.RB3) : (t.setColor c).RB3 := by
  cases t with
  | nil => trivial
  | node a c l v r => exact h

theorem bh_setColor_black {t : Tree α} (h : t.color = Color.red) :
    (t.setColor Color.black).bh = t.bh + 1 := by
  cases t with
  | nil => cases h
  | node a c l v r =>
    simp only [color_node] at h
    simp [setColor, h]

@[simp] theorem color_setColor_node (a : Nat) (c : Color) (l : Tree α) (v : α) (r : Tree α)
    (c' : Color) : ((node a c l v r).setColor c').color = c' := rfl

end Tree

namespace Path

@[simp] theorem RB3_empty (n : Nat) : RB3 ([] : Path α) n = True := rfl

@[simp] theorem RB3_cons (f : Frame α) (up : Path α) (n : Nat) :
    RB3 (f :: up) n = (f.sibling.bh = n ∧ f.sibling.RB3 ∧
      RB3 up (n + (if f.color = Color.black then 1 else 0))) := rfl

@[simp] theorem RB2_empty : RB2 ([] : Path α) = True := rfl

@[simp] theorem RB2_cons (f : Frame α) (up : Path α) :
    RB2 (f :: up) = (f.sibling.RB2 ∧ (f.color = Color.red → f.sibling.color = Color.black ∧
      Path.color up = Color.black) ∧ RB2 up) := rfl

@[simp] theorem color_empty : color ([] : Path α) = Color.black := rfl

@[simp] theorem color_cons (f : Frame α) (up : Path α) : color (f :: up) = f.color := rfl

theorem bh_plug (f : Frame α) (t : Tree α) (h : f.sibling.bh = t.bh) :
    (f.plug t).bh = t.bh + (if f.color = Color.black then 1 else 0) := by
  cases f with
  | left a c v r => rfl
  | right a c l v =>
    simp only [Frame.sibling] at h
    simp only [Frame.plug, Tree.bh_node, Frame.color, h]

/-- RB-3 of a filled path splits into the subtree and the path. -/
theorem RB3_fill : ∀ (p : Path α) (t : Tree α), (p.fill t).RB3 ↔ t.RB3 ∧ p.RB3 t.bh
  | [], t => by simp
  | f :: up, t => by
    rw [fill_cons, RB3_fill up, RB3_cons]
    constructor
    · rintro ⟨h1, h2⟩
      have h3 : f.sibling.bh = t.bh ∧ t.RB3 ∧ f.sibling.RB3 := by
        cases f with
        | left a c v r => exact ⟨h1.1.symm, h1.2.1, h1.2.2⟩
        | right a c l v => exact ⟨h1.1, h1.2.2, h1.2.1⟩
      rw [bh_plug f t h3.1] at h2
      exact ⟨h3.2.1, h3.1, h3.2.2, h2⟩
    · rintro ⟨h1, h2, h3, h4⟩
      rw [bh_plug f t h2]
      refine ⟨?_, h4⟩
      cases f with
      | left a c v r => exact ⟨h2.symm, h1, h3⟩
      | right a c l v => exact ⟨h2, h3, h1⟩

/-- The black height of a filled path, given the black height at the position. -/
theorem bh_fill_congr : ∀ (p : Path α) (t t' : Tree α), p.RB3 t.bh → t'.bh = t.bh →
    (p.fill t').bh = (p.fill t).bh
  | [], t, t', _, h => h
  | f :: up, t, t', hp, h => by
    simp only [RB3_cons] at hp
    refine bh_fill_congr up (f.plug t) (f.plug t') ?_ ?_
    · rw [bh_plug f t hp.1]
      exact hp.2.2
    · rw [bh_plug f t hp.1, bh_plug f t' (hp.1.trans h.symm), h]

/-- RB-2 of a filled path splits into the subtree, the path, and the edge between them. -/
theorem RB2_fill : ∀ (p : Path α) (t : Tree α),
    (p.fill t).RB2 ↔ t.RB2 ∧ p.RB2 ∧ (p.color = Color.red → t.color = Color.black)
  | [], t => by simp
  | f :: up, t => by
    rw [fill_cons, RB2_fill up, RB2_cons, color_cons, Frame.color_plug]
    cases f with
    | left a c v r =>
      simp only [Frame.plug, Tree.RB2_node, Frame.sibling, Frame.color]
      constructor
      · rintro ⟨⟨h1, h2, h3⟩, h4, h5⟩
        exact ⟨h2, ⟨h3, fun e => ⟨(h1 e).2, Color.eq_black_of_ne_red
          (fun e2 => by rw [h5 e2] at e; cases e)⟩, h4⟩, fun e => (h1 e).1⟩
      · rintro ⟨h1, ⟨h2, h3, h4⟩, h5⟩
        exact ⟨⟨fun e => ⟨h5 e, (h3 e).1⟩, h1, h2⟩, h4, fun e => Color.eq_black_of_ne_red
          (fun e2 => by rw [(h3 e2).2] at e; cases e)⟩
    | right a c l v =>
      simp only [Frame.plug, Tree.RB2_node, Frame.sibling, Frame.color]
      constructor
      · rintro ⟨⟨h1, h2, h3⟩, h4, h5⟩
        exact ⟨h3, ⟨h2, fun e => ⟨(h1 e).1, Color.eq_black_of_ne_red
          (fun e2 => by rw [h5 e2] at e; cases e)⟩, h4⟩, fun e => (h1 e).2⟩
      · rintro ⟨h1, ⟨h2, h3, h4⟩, h5⟩
        exact ⟨⟨fun e => ⟨(h3 e).1, h5 e⟩, h2, h1⟩, h4, fun e => Color.eq_black_of_ne_red
          (fun e2 => by rw [(h3 e2).2] at e; cases e)⟩

/-- The colour of the root of a filled nonempty path with a black root. -/
theorem color_fill_of_rootBlack : ∀ (p : Path α) (t : Tree α), p ≠ [] → p.RootBlack →
    (p.fill t).color = Color.black
  | [], _, h, _ => absurd rfl h
  | [f], t, _, h => by
    simpa [RootBlack] using h
  | f :: g :: up, t, _, h => color_fill_of_rootBlack (g :: up) (f.plug t) (by simp) h

end Path

end SetReview

namespace SetReview

variable {α : Type}

@[simp] theorem Tree.color_setColor_black (t : Tree α) :
    (t.setColor Color.black).color = Color.black := by
  cases t <;> rfl

/-- The insertion fix-up restores the red-black invariants: the subtree at the position
is red-rooted and satisfies RB-2 and RB-3 inside, and the rest of the tree satisfies them
around the position. -/
theorem insFix_RB : ∀ (p : Path α) (t : Tree α) (T : Tree α),
    insFix p t = some T → t.color = Color.red → t.RB2 → t.RB3 → p.RB2 → p.RB3 t.bh →
    p.RootBlack → T.RB1 ∧ T.RB2 ∧ T.RB3
  | _, Tree.nil, _, _, hc, _, _, _, _, _ => by cases hc
  | [], Tree.node a c l v r, T, hF, _, h2, h3, _, _, _ => by
    simp only [insFix, Option.some.injEq] at hF
    subst hF
    simp only [Tree.RB2_node] at h2
    refine ⟨rfl, ?_, h3⟩
    simp only [Tree.RB2_node, reduceCtorEq, false_implies, true_and]
    exact h2.2
  | [f], Tree.node a c l v r, T, hF, hc, h2, h3, hp2, hp3, hrb => by
    simp only [Path.RootBlack] at hrb
    simp only [insFix, hrb, if_true, Option.some.injEq] at hF
    subst hF
    refine ⟨by simp [Tree.RB1, hrb], ?_, ?_⟩
    · exact (Path.RB2_fill [f] _).2 ⟨h2, hp2, fun e => by
        simp only [Path.color_cons, hrb] at e
        cases e⟩
    · exact (Path.RB3_fill [f] _).2 ⟨h3, hp3⟩
  | f :: g :: up, Tree.node a c l v r, T, hF, hc, h2, h3, hp2, hp3, hrb => by
    by_cases hb : f.color = Color.black
    · simp only [insFix, hb, if_true, Option.some.injEq] at hF
      subst hF
      refine ⟨Path.color_fill_of_rootBlack _ _ (by simp) hrb, ?_, ?_⟩
      · exact (Path.RB2_fill _ _).2 ⟨h2, hp2, fun e => by
          simp only [Path.color_cons, hb] at e
          cases e⟩
      · exact (Path.RB3_fill _ _).2 ⟨h3, hp3⟩
    · have hfr := Color.eq_red_of_ne_black hb
      simp only [Path.RB2_cons, Path.color_cons, hfr, true_implies] at hp2
      obtain ⟨hs2, ⟨hsb, hgb⟩, hg2, hgr, hup2⟩ := hp2
      simp only [Path.RB3_cons, hfr, hgb, reduceCtorEq, if_false, if_true, Nat.add_zero] at hp3
      obtain ⟨hsh, hs3, hgh, hg3, hup3⟩ := hp3
      have hrb2 : Path.RootBlack up := Path.rootBlack_tail (Path.rootBlack_tail hrb)
      have hroot : ∀ X : Tree α, X.color = Color.black → (Path.fill up X).RB1 := by
        intro X hX
        cases up with
        | nil => exact hX
        | cons e up2 => exact Path.color_fill_of_rootBlack _ _ (by simp) hrb2
      by_cases hu : g.sibling.color = Color.red
      · simp only [insFix, hb, if_false, hu, if_true] at hF
        refine insFix_RB up _ T hF (by simp) ?_ ?_ hup2 ?_ hrb2
        · cases f <;> cases g <;>
            simp_all [Frame.plug, Frame.setColor, Frame.setSibling, Frame.sibling,
              Tree.RB2_setColor_black]
        · cases f <;> cases g <;>
            simp_all [Frame.plug, Frame.setColor, Frame.setSibling, Frame.sibling,
              Tree.RB3_setColor, Tree.bh_setColor_black]
        · cases f <;> cases g <;>
            simp_all [Frame.plug, Frame.setColor, Frame.setSibling, Frame.sibling,
              Tree.RB3_setColor, Tree.bh_setColor_black, Frame.color]
      · have hub := Color.eq_black_of_ne_red hu
        simp only [insFix, hb, if_false, hu] at hF
        cases f <;> cases g <;>
        · simp only [Option.some.injEq] at hF
          subst hF
          refine ⟨hroot _ rfl, (Path.RB2_fill up _).2 ⟨?_, hup2, fun _ => rfl⟩,
            (Path.RB3_fill up _).2 ⟨?_, ?_⟩⟩ <;>
            simp_all [Frame.sibling, Frame.color]

end SetReview

namespace SetReview

variable {α : Type}

/-- The insertion fix-up keeps the nodes, their values and their order. -/
theorem insFix_cells : ∀ (p : Path α) (t : Tree α) (T : Tree α),
    insFix p t = some T → T.cells = (p.fill t).cells
  | p, Tree.nil, T, hF => by
    rw [insFix_nil] at hF
    cases hF
  | [], Tree.node a c l v r, T, hF => by
    simp only [insFix, Option.some.injEq] at hF
    subst hF
    rfl
  | [f], Tree.node a c l v r, T, hF => by
    by_cases hb : f.color = Color.black
    · simp only [insFix, hb, if_true, Option.some.injEq] at hF
      subst hF
      rfl
    · simp only [insFix, hb, if_false] at hF
      cases hF
  | f :: g :: up, Tree.node a c l v r, T, hF => by
    by_cases hb : f.color = Color.black
    · simp only [insFix, hb, if_true, Option.some.injEq] at hF
      subst hF
      rfl
    · by_cases hu : g.sibling.color = Color.red
      · simp only [insFix, hb, if_false, hu, if_true] at hF
        rw [insFix_cells up _ T hF]
        cases f <;> cases g <;>
          simp [Path.cells_fill, Frame.plug, Frame.setColor, Frame.setSibling, Frame.sibling]
      · simp only [insFix, hb, if_false, hu] at hF
        cases f <;> cases g <;>
        · simp only [Option.some.injEq] at hF
          subst hF
          simp [Path.cells_fill, Frame.plug]

section Order

variable [LT α]

/-- BST order is strict sortedness of the in-order traversal. -/
theorem Tree.BST_iff_sorted [IsTrans α (fun a b : α => a < b)] : ∀ (t : Tree α),
    t.BST ↔ t.vals.Pairwise (fun a b => a < b)
  | Tree.nil => by simp [Tree.BST]
  | Tree.node a c l v r => by
    simp only [Tree.BST, Tree.vals_node, List.pairwise_append, List.pairwise_cons,
      List.mem_cons, Tree.BST_iff_sorted l, Tree.BST_iff_sorted r]
    constructor
    · rintro ⟨h1, h2, h3, h4⟩
      refine ⟨h3, ⟨h2, h4⟩, ?_⟩
      rintro x hx y (rfl | hy)
      · exact h1 x hx
      · exact IsTrans.trans _ _ _ (h1 x hx) (h2 y hy)
    · rintro ⟨h1, ⟨h2, h3⟩, h4⟩
      exact ⟨fun x hx => h4 x hx v (Or.inl rfl), h2, h1, h3⟩

end Order

end SetReview

namespace SetReview

variable {α : Type}

section Order

variable [LT α]

theorem Tree.BST_node {a : Nat} {c : Color} {l : Tree α} {v : α} {r : Tree α} :
    (Tree.node a c l v r).BST ↔
      (∀ x ∈ l.vals, x < v) ∧ (∀ y ∈ r.vals, v < y) ∧ l.BST ∧ r.BST := Iff.rfl

variable [DecidableRel (fun a b : α => a < b)]

/-- The descent of `insert` stops where every earlier value is smaller and every later
value is greater. -/
theorem insPath_bounds [IsTrans α (fun a b : α => a < b)] (x : α) :
    ∀ (t : Tree α) (p q : Path α), insPath x p t = some q → t.BST →
      (∀ y ∈ p.before.map Prod.snd, y < x) → (∀ y ∈ p.after.map Prod.snd, x < y) →
      (∀ y ∈ q.before.map Prod.snd, y < x) ∧ (∀ y ∈ q.after.map Prod.snd, x < y)
  | Tree.nil, p, q, h, _, hb, ha => by
    simp only [insPath, Option.some.injEq] at h
    subst h
    exact ⟨hb, ha⟩
  | Tree.node a c l v r, p, q, h, ht, hb, ha => by
    simp only [insPath] at h
    obtain ⟨h1, h2, h3, h4⟩ := Tree.BST_node.1 ht
    by_cases hlt : x < v
    · simp only [hlt, if_true] at h
      refine insPath_bounds x l _ q h h3 ?_ ?_
      · simpa [Frame.before] using hb
      · intro y hy
        simp only [Path.after_cons, Frame.after, List.map_append, List.map_cons,
          List.mem_append, List.mem_cons, List.cons_append] at hy
        rcases hy with rfl | hy | hy
        · exact hlt
        · exact IsTrans.trans _ _ _ hlt (h2 y (by simpa [Tree.vals] using hy))
        · exact ha y hy
    · by_cases hgt : v < x
      · simp only [hlt, if_false, hgt, if_true] at h
        refine insPath_bounds x r _ q h h4 ?_ ?_
        · intro y hy
          simp only [Path.before_cons, Frame.before, List.map_append, List.map_cons,
            List.mem_append, List.mem_cons, List.map_nil, List.not_mem_nil, or_false] at hy
          rcases hy with hy | hy | rfl
          · exact hb y hy
          · exact IsTrans.trans _ _ _ (h1 y (by simpa [Tree.vals] using hy)) hgt
          · exact hgt
        · simpa [Frame.after] using ha
      · simp only [hlt, if_false, hgt] at h
        cases h

/-- When the descent of `insert` stops early, `find` returns a node with an equivalent
value. -/
theorem insPath_none (x : α) : ∀ (t : Tree α) (p : Path α), insPath x p t = none →
    ∃ a v, t.find x = some a ∧ (a, v) ∈ t.cells ∧ ¬ x < v ∧ ¬ v < x
  | Tree.nil, p, h => by simp [insPath] at h
  | Tree.node a c l v r, p, h => by
    simp only [insPath] at h
    by_cases hlt : x < v
    · simp only [hlt, if_true] at h
      obtain ⟨b, w, h1, h2, h3⟩ := insPath_none x l _ h
      exact ⟨b, w, by simp only [Tree.find, hlt, if_true, h1], by simp [h2], h3⟩
    · by_cases hgt : v < x
      · simp only [hlt, if_false, hgt, if_true] at h
        obtain ⟨b, w, h1, h2, h3⟩ := insPath_none x r _ h
        exact ⟨b, w, by simp only [Tree.find, hlt, if_false, hgt, if_true, h1], by simp [h2],
          h3⟩
      · exact ⟨a, v, by simp only [Tree.find, hlt, if_false, hgt], by simp, hlt, hgt⟩

/-- The answer of `find` is a node whose value is equivalent to the argument. -/
theorem Tree.find_some (x : α) : ∀ (t : Tree α) (a : Nat), t.find x = some a →
    ∃ v, (a, v) ∈ t.cells ∧ ¬ x < v ∧ ¬ v < x
  | Tree.nil, a, h => by simp [Tree.find] at h
  | Tree.node b c l v r, a, h => by
    simp only [Tree.find] at h
    by_cases hlt : x < v
    · simp only [hlt, if_true] at h
      obtain ⟨w, h1, h2⟩ := Tree.find_some x l a h
      exact ⟨w, by simp [h1], h2⟩
    · by_cases hgt : v < x
      · simp only [hlt, if_false, hgt, if_true] at h
        obtain ⟨w, h1, h2⟩ := Tree.find_some x r a h
        exact ⟨w, by simp [h1], h2⟩
      · simp only [hlt, if_false, hgt, Option.some.injEq] at h
        subst h
        exact ⟨v, by simp, hlt, hgt⟩

/-- In a search tree `find` answers null only if no value is equivalent to the
argument. -/
theorem Tree.find_none [IsTrans α (fun a b : α => a < b)] (x : α) : ∀ (t : Tree α),
    t.BST → t.find x = none → ∀ y ∈ t.vals, x < y ∨ y < x
  | Tree.nil, _, _, y, hy => by simp at hy
  | Tree.node b c l v r, ht, h, y, hy => by
    obtain ⟨h1, h2, h3, h4⟩ := Tree.BST_node.1 ht
    simp only [Tree.find] at h
    simp only [Tree.vals_node, List.mem_append, List.mem_cons] at hy
    by_cases hlt : x < v
    · simp only [hlt, if_true] at h
      rcases hy with hy | rfl | hy
      · exact Tree.find_none x l h3 h y hy
      · exact Or.inl hlt
      · exact Or.inl (IsTrans.trans _ _ _ hlt (h2 y hy))
    · by_cases hgt : v < x
      · simp only [hlt, if_false, hgt, if_true] at h
        rcases hy with hy | rfl | hy
        · exact Or.inr (IsTrans.trans _ _ _ (h1 y hy) hgt)
        · exact Or.inr hgt
        · exact Tree.find_none x r h4 h y hy
      · simp only [hlt, if_false, hgt] at h
        cases h

end Order

namespace Set

variable [LT α] [DecidableRel (fun a b : α => a < b)]

/-- The loop of `find` computes `Tree.find`. -/
theorem find_loop_sim (x : α) : ∀ (k : Nat) (ctx : Path α) (t : Tree α) (s : Set α),
    s.Own (ctx.fill t) → t.height < k → s.find_loop k x t.ptr = some (t.find x)
  | 0, _, _, _, _, hk => absurd hk (Nat.not_lt_zero _)
  | k + 1, ctx, Tree.nil, s, _, _ => rfl
  | k + 1, ctx, Tree.node a c l v r, s, hO, hk => by
    have h2 := node_focus hO
    simp only [Tree.height] at hk
    have ihl := find_loop_sim x k (Frame.left a c v r :: ctx) l s hO (by omega)
    have ihr := find_loop_sim x k (Frame.right a c l v :: ctx) r s hO (by omega)
    simp only [Set.find_loop, Tree.ptr_node, bind, Option.bind, h2, Tree.find]
    by_cases hlt : x < v
    · simp only [hlt, if_true, ihl]
    · by_cases hgt : v < x
      · simp only [hlt, if_false, hgt, if_true, ihr]
      · simp only [hlt, if_false, hgt, pure]

/-- The function `find` on a well-formed set. -/
theorem find_eq {s : Set α} {t : Tree α} (hS : s.Shape t) (x : α) :
    s.find x = some (t.find x) := by
  have h := find_loop_sim x s.fuel [] t s hS.owns (height_lt_fuel hS.nodup hS.bound)
  rw [← hS.root] at h
  exact h

end Set

end SetReview

namespace SetReview

variable {α : Type}

/-! ## Forward iteration -/

namespace Tree

theorem leftmost_node_nil (a : Nat) (c : Color) (v : α) (r : Tree α) :
    (node a c nil v r).leftmost = some a := rfl

theorem leftmost_node_node (a : Nat) (c : Color) (b : Nat) (cb : Color) (ll : Tree α) (vb : α)
    (lr : Tree α) (v : α) (r : Tree α) :
    (node a c (node b cb ll vb lr) v r).leftmost = (node b cb ll vb lr).leftmost := rfl

theorem leftmost_eq_none : ∀ {t : Tree α}, t.leftmost = none → t = nil
  | nil, _ => rfl
  | node a c nil v r, h => by cases h
  | node a c (node b cb ll vb lr) v r, h => by
    rw [leftmost_node_node] at h
    cases leftmost_eq_none h

/-- The leftmost node is the first node of the in-order traversal. -/
theorem leftmost_eq_head : ∀ (t : Tree α), t.leftmost = t.addrs.head?
  | nil => rfl
  | node a c nil v r => by simp [leftmost_node_nil]
  | node a c (node b cb ll vb lr) v r => by
    rw [leftmost_node_node, leftmost_eq_head (node b cb ll vb lr)]
    simp only [addrs_node, List.append_assoc, List.cons_append]
    cases ll.addrs <;> simp

end Tree

namespace Set

/-- The loop `while (v->left) v = v->left` ends at the leftmost node. -/
theorem descend_left_sim : ∀ (k : Nat) (ctx : Path α) (t : Tree α) (s : Set α),
    s.Own (ctx.fill t) → t.ptr ≠ none → t.height < k →
    s.descend_left k t.ptr = some t.leftmost
  | 0, _, _, _, _, _, hk => absurd hk (Nat.not_lt_zero _)
  | k + 1, ctx, Tree.nil, s, _, h, _ => absurd rfl h
  | k + 1, ctx, Tree.node a c Tree.nil v r, s, hO, _, _ => by
    have h2 := node_focus hO
    simp only [Set.descend_left, Tree.ptr_node, h2, bind, Option.bind, Tree.ptr_nil, pure,
      Tree.leftmost_node_nil]
  | k + 1, ctx, Tree.node a c (Tree.node b cb ll vb lr) v r, s, hO, _, hk => by
    have h2 := node_focus hO
    simp only [Tree.height] at hk
    have ih := descend_left_sim k (Frame.left a c v r :: ctx) (Tree.node b cb ll vb lr) s hO
      (by simp) (by simp only [Tree.height]; omega)
    simp only [Tree.ptr_node] at ih
    simp only [Set.descend_left, Tree.ptr_node, h2, bind, Option.bind, ih,
      Tree.leftmost_node_node]

/-- The upward loop of `next` ends at the nearest ancestor reached from the left. -/
theorem climb_right_sim : ∀ (k : Nat) (ctx : Path α) (t : Tree α) (s : Set α) (a : Nat),
    s.Own (ctx.fill t) → t.ptr = some a → ctx.length < k →
    s.climb_right k (some a) ctx.ptr = some ctx.nextUp
  | 0, _, _, _, _, _, _, hk => absurd hk (Nat.not_lt_zero _)
  | k + 1, [], t, s, a, _, _, _ => rfl
  | k + 1, Frame.left b cb vb rb :: up, t, s, a, hO, ht, _ => by
    have h1 := node_parent hO
    have h2 := sibling_ptr_ne hO ht
    simp only [Frame.addr, Frame.cell] at h1
    simp only [Frame.sibling] at h2
    simp only [Set.climb_right, Path.ptr_cons, Frame.addr, h1, bind, Option.bind, Ne.symm h2,
      if_false, pure, Path.nextUp]
  | k + 1, Frame.right b cb lb vb :: up, t, s, a, hO, ht, hk => by
    have h1 := node_parent hO
    simp only [Frame.addr, Frame.cell] at h1
    have ih := climb_right_sim k up ((Frame.right b cb lb vb).plug t) s b hO rfl
      (by simp only [List.length_cons] at hk; omega)
    simp only [Set.climb_right, Path.ptr_cons, Frame.addr, h1, bind, Option.bind, ht, if_true,
      ih, Path.nextUp]

/-- The function `next` steps to the in-order successor. -/
theorem next_sim {s : Set α} {T : Tree α} (hS : s.Shape T) (ctx : Path α) (a : Nat) (c : Color)
    (l : Tree α) (v : α) (r : Tree α) (hT : ctx.fill (Tree.node a c l v r) = T) :
    s.next (some a) = some (Path.first r (Frame.right a c l v :: ctx)) := by
  have hO : s.Own (ctx.fill (Tree.node a c l v r)) := hT ▸ hS.owns
  have hfuel := height_lt_fuel hS.nodup hS.bound
  have hlen := Path.length_le_height ctx (Tree.node a c l v r)
  rw [hT] at hlen
  simp only [Tree.height] at hlen
  have h2 := node_focus hO
  cases r with
  | nil =>
    have h3 := climb_right_sim s.fuel ctx _ s a hO rfl (by omega)
    simp only [Set.next, h2, bind, Option.bind, Tree.ptr_nil, h3, Path.first, Tree.leftmost,
      Path.nextUp]
  | node b cb rl vb rr =>
    have h3 := descend_left_sim s.fuel (Frame.right a c l v :: ctx) (Tree.node b cb rl vb rr) s
      hO (by simp) (by omega)
    simp only [Tree.ptr_node] at h3
    have h4 : ∃ z, (Tree.node b cb rl vb rr).leftmost = some z := by
      cases h : (Tree.node b cb rl vb rr).leftmost with
      | none => cases Tree.leftmost_eq_none h
      | some z => exact ⟨z, rfl⟩
    obtain ⟨z, hz⟩ := h4
    simp only [Set.next, h2, bind, Option.bind, Tree.ptr_node, h3, Path.first, hz]

end Set

end SetReview

namespace SetReview

variable {α : Type}

namespace Path

/-- The node that follows an exhausted subtree, with what comes after it. -/
theorem nextUp_cases : ∀ (ctx : Path α) (t : Tree α),
    (nextUp ctx = none ∧ ctx.after = []) ∨
    ∃ a c l v r ctx', fill ctx' (Tree.node a c l v r) = fill ctx t ∧ nextUp ctx = some a ∧
      ctx.after = (a, v) :: (r.cells ++ after (Frame.right a c l v :: ctx'))
  | [], _ => Or.inl ⟨rfl, rfl⟩
  | Frame.left a c v r :: up, t =>
    Or.inr ⟨a, c, t, v, r, up, rfl, rfl, by simp [Frame.after]⟩
  | Frame.right a c l v :: up, t => by
    rcases nextUp_cases up (Tree.node a c l v t) with h | ⟨a', c', l', v', r', ctx', h1, h2, h3⟩
    · exact Or.inl ⟨h.1, by simp [Frame.after, h.2]⟩
    · exact Or.inr ⟨a', c', l', v', r', ctx', h1, h2, by simp [Frame.after, h3]⟩

/-- The first node of what remains to be visited, with what comes after it. -/
theorem first_cases : ∀ (t : Tree α) (ctx : Path α),
    (first t ctx = none ∧ t.cells ++ ctx.after = []) ∨
    ∃ a c l v r ctx', fill ctx' (Tree.node a c l v r) = fill ctx t ∧ first t ctx = some a ∧
      t.cells ++ ctx.after = (a, v) :: (r.cells ++ after (Frame.right a c l v :: ctx'))
  | Tree.nil, ctx => by
    simpa [first, Tree.leftmost] using nextUp_cases ctx Tree.nil
  | Tree.node a c Tree.nil v r, ctx =>
    Or.inr ⟨a, c, Tree.nil, v, r, ctx, rfl, rfl, by simp [Frame.after]⟩
  | Tree.node a c (Tree.node b cb ll vb lr) v r, ctx => by
    rcases first_cases (Tree.node b cb ll vb lr) (Frame.left a c v r :: ctx) with
      h | ⟨a', c', l', v', r', ctx', h1, h2, h3⟩
    · simp at h
    · refine Or.inr ⟨a', c', l', v', r', ctx', h1, ?_, ?_⟩
      · simp only [first, Tree.leftmost_node_node] at h2 ⊢
        cases hl : (Tree.node b cb ll vb lr).leftmost with
        | none => cases Tree.leftmost_eq_none hl
        | some z =>
          rw [hl] at h2
          exact h2
      · rw [← h3]
        simp [Frame.after]

end Path

namespace Set

/-- Iteration with `next` from the first remaining node visits the remaining nodes in
order. -/
theorem iterate_sim {s : Set α} {T : Tree α}
    (hS : s.Shape T) : ∀ (k : Nat) (t : Tree α) (ctx : Path α), ctx.fill t = T →
    (t.cells ++ ctx.after).length < k →
    s.iterate k (Path.first t ctx) = some ((t.cells ++ ctx.after).map Prod.snd)
  | 0, _, _, _, hk => absurd hk (Nat.not_lt_zero _)
  | k + 1, t, ctx, hT, hk => by
    rcases Path.first_cases t ctx with h | ⟨a, c, l, v, r, ctx', h1, h2, h3⟩
    · rw [h.1, h.2]
      rfl
    · rw [hT] at h1
      have hO : s.Own (ctx'.fill (Tree.node a c l v r)) := h1 ▸ hS.owns
      have hn := node_focus hO
      have hx := next_sim hS ctx' a c l v r h1
      rw [h3] at hk ⊢
      have ih := iterate_sim hS k r (Frame.right a c l v :: ctx') h1
        (by simp only [List.length_cons] at hk; omega)
      simp only [h2, Set.iterate, hn, hx, ih, bind, Option.bind, pure, List.map_cons]

/-- Forward iteration from `begin()` yields the in-order traversal when `_begin` points
to the leftmost node. -/
theorem toList_eq {s : Set α} {T : Tree α}
    (hS : s.Shape T) (hb : s._begin = T.leftmost) : s.toList = some T.vals := by
  have h := iterate_sim hS s.fuel T [] rfl (by
    have h1 := length_le_of_nodup_lt hS.nodup hS.bound
    simp only [Tree.addrs, List.length_map] at h1
    simp only [Path.after_nil, List.append_nil, Set.fuel]
    omega)
  simp only [Path.after_nil, List.append_nil] at h
  have hf : Path.first T ([] : Path α) = T.leftmost := by
    simp only [Path.first, Path.nextUp]
    cases T.leftmost <;> rfl
  rw [hf] at h
  simp only [Set.toList, Set.begin, hb]
  exact h

end Set

end SetReview

namespace SetReview

variable {α : Type}

/-! ## Deletion fix-up: the three local steps -/

namespace Set

/-- The red-sibling step of `erase_rebalance` computes `eraseRed`. -/
theorem erase_rebalance_red_sim (s : Set α) (f : Frame α) (up : Path α) (t : Tree α) (a : Nat)
    (hO : s.Own (Path.fill (f :: up) t)) (ht : t.ptr = some a) :
    ∃ s' f1 up1, eraseRed f up = f1 :: up1 ∧
      s.erase_rebalance_red (some a) (some f.addr) f.sibling.ptr = some (s', f1.sibling.ptr) ∧
      s.Sim s' (Path.fill (f :: up) t) (Path.fill (f1 :: up1) t) := by
  have hcb := color_sibling hO
  by_cases hr : f.sibling.color = Color.red
  · cases f with
    | left p cp vp sib =>
      cases sib with
      | nil => cases hr
      | node b cb bl vb br =>
        simp only [Frame.sibling, Tree.color_node, Tree.ptr_node] at hr hcb
        subst hr
        have hne := sibling_ptr_ne hO ht
        obtain ⟨s1, e1, m1⟩ := recolor_sibling_ok s _ up t Color.black hO
        have o1 := m1.own hO
        obtain ⟨s2, e2, m2⟩ := recolor_parent_ok s1 _ up t Color.red o1
        have o2 := m2.own o1
        have hnp := node_parent o2
        obtain ⟨s3, e3, m3⟩ := rotate_left_ok s2 up p Color.red t vp b Color.black bl vb br o2
        have o3 : s3.Own (Path.fill (Frame.left p Color.red vp bl ::
            Frame.left b Color.black vb br :: up) t) := m3.own o2
        have hbr := brother_ptr o3 ht
        refine ⟨s3, _, _, rfl, ?_, (m1.trans m2).trans m3⟩
        simp only [Frame.sibling, Tree.ptr_node, Frame.addr, Frame.setSibling, Tree.setColor,
          Frame.setColor, Frame.cell] at e1 e2 hnp hne hbr
        simp only [Set.erase_rebalance_red, Frame.sibling, Tree.ptr_node, hcb, bind,
          Option.bind, if_true, e1, Frame.addr, e2, hnp, hne, if_false, e3, hbr, pure]
    | right p cp sib vp =>
      cases sib with
      | nil => cases hr
      | node b cb bl vb br =>
        simp only [Frame.sibling, Tree.color_node, Tree.ptr_node] at hr hcb
        subst hr
        obtain ⟨s1, e1, m1⟩ := recolor_sibling_ok s _ up t Color.black hO
        have o1 := m1.own hO
        obtain ⟨s2, e2, m2⟩ := recolor_parent_ok s1 _ up t Color.red o1
        have o2 := m2.own o1
        have hnp := node_parent o2
        obtain ⟨s3, e3, m3⟩ := rotate_right_ok s2 up p Color.red bl vp b Color.black br vb t o2
        have o3 : s3.Own (Path.fill (Frame.right p Color.red br vp ::
            Frame.right b Color.black bl vb :: up) t) := m3.own o2
        have hbr := brother_ptr o3 ht
        refine ⟨s3, _, _, rfl, ?_, (m1.trans m2).trans m3⟩
        simp only [Frame.sibling, Tree.ptr_node, Frame.addr, Frame.setSibling, Tree.setColor,
          Frame.setColor, Frame.cell] at e1 e2 hnp hbr
        simp only [Set.erase_rebalance_red, Frame.sibling, Tree.ptr_node, hcb, bind,
          Option.bind, if_true, e1, Frame.addr, e2, hnp, ht, e3, hbr, pure]
  · refine ⟨s, f, up, ?_, ?_, Sim.refl hO⟩
    · cases f with
      | left p cp vp sib =>
        cases sib with
        | nil => rfl
        | node b cb bl vb br =>
          cases cb with
          | black => rfl
          | red => exact absurd rfl hr
      | right p cp sib vp =>
        cases sib with
        | nil => rfl
        | node b cb bl vb br =>
          cases cb with
          | black => rfl
          | red => exact absurd rfl hr
    · simp only [Set.erase_rebalance_red, hcb, bind, Option.bind, hr, if_false, pure]

end Set

end SetReview

namespace SetReview

variable {α : Type}

namespace Set

/-- The inner rotation of `erase_rebalance` computes `eraseInner`. -/
theorem erase_rebalance_inner_sim (s : Set α) (f : Frame α) (up : Path α) (t : Tree α)
    (a : Nat) (hO : s.Own (Path.fill (f :: up) t)) (ht : t.ptr = some a) (f2 : Frame α)
    (hI : eraseInner f = some f2) :
    ∃ s', s.erase_rebalance_inner (some a) (some f.addr) f.sibling.ptr =
        some (s', f2.sibling.ptr) ∧
      s.Sim s' (Path.fill (f :: up) t) (Path.fill (f2 :: up) t) := by
  have hnp := node_parent hO
  have hne := sibling_ptr_ne hO ht
  cases f with
  | left p cp vp sib =>
    cases sib with
    | nil => cases hI
    | node b cb bl vb br =>
      have hOb : s.Own (Path.fill (Frame.right p cp t vp :: up) (Tree.node b cb bl vb br)) := hO
      have hnb := node_focus hOb
      have hcl := @color_focus _ s (Frame.left b cb vb br :: Frame.right p cp t vp :: up) bl hO
      have hcr := @color_focus _ s (Frame.right b cb bl vb :: Frame.right p cp t vp :: up) br hO
      simp only [Frame.sibling, Tree.ptr_node, Frame.addr, Frame.cell, ht] at hnp hne ⊢
      by_cases hbr : br.color = Color.black
      · simp only [eraseInner, hbr, if_true] at hI
        cases bl with
        | nil => cases hI
        | node c cc cl vc cr =>
          simp only [Option.some.injEq] at hI
          subst hI
          obtain ⟨s1, e1, m1⟩ := recolor_ok s _ b cb _ vb br Color.red hOb
          have o1 := m1.own hOb
          obtain ⟨s2, e2, m2⟩ := recolor_ok s1 (Frame.left b Color.red vb br ::
            Frame.right p cp t vp :: up) c cc cl vc cr Color.black o1
          have o2 := m2.own o1
          obtain ⟨s3, e3, m3⟩ := rotate_right_ok s2 (Frame.right p cp t vp :: up) b Color.red
            cl vb c Color.black cr vc br o2
          have o3 : s3.Own (Path.fill (Frame.left p cp vp
              (Tree.node c Color.black cl vc (Tree.node b Color.red cr vb br)) :: up) t) :=
            m3.own o2
          have hbro := brother_ptr o3 ht
          refine ⟨s3, ?_, (m1.trans m2).trans m3⟩
          simp only [Frame.sibling, Tree.ptr_node] at hbro hcl
          simp only [Set.erase_rebalance_inner, hnp, hnb, bind, Option.bind, hcl, hcr, hbr,
            and_self, if_true, e1, Tree.ptr_node, e2, e3, hbro, pure, Frame.sibling]
      · simp only [eraseInner, hbr, if_false, Option.some.injEq] at hI
        subst hI
        refine ⟨s, ?_, Sim.refl hO⟩
        simp only [Set.erase_rebalance_inner, hnp, hnb, bind, Option.bind, hcl, hcr, hbr,
          and_false, if_false, Ne.symm hne, false_and, pure, Frame.sibling, Tree.ptr_node]
  | right p cp sib vp =>
    cases sib with
    | nil => cases hI
    | node b cb bl vb br =>
      have hOb : s.Own (Path.fill (Frame.left p cp vp t :: up) (Tree.node b cb bl vb br)) := hO
      have hnb := node_focus hOb
      have hcl := @color_focus _ s (Frame.left b cb vb br :: Frame.left p cp vp t :: up) bl hO
      have hcr := @color_focus _ s (Frame.right b cb bl vb :: Frame.left p cp vp t :: up) br hO
      simp only [Frame.sibling, Tree.ptr_node, Frame.addr, Frame.cell, ht] at hnp hne ⊢
      by_cases hbl : bl.color = Color.black
      · simp only [eraseInner, hbl, if_true] at hI
        cases br with
        | nil => cases hI
        | node c cc cl vc cr =>
          simp only [Option.some.injEq] at hI
          subst hI
          obtain ⟨s1, e1, m1⟩ := recolor_ok s _ b cb bl vb _ Color.red hOb
          have o1 := m1.own hOb
          obtain ⟨s2, e2, m2⟩ := recolor_ok s1 (Frame.right b Color.red bl vb ::
            Frame.left p cp vp t :: up) c cc cl vc cr Color.black o1
          have o2 := m2.own o1
          obtain ⟨s3, e3, m3⟩ := rotate_left_ok s2 (Frame.left p cp vp t :: up) b Color.red
            bl vb c Color.black cl vc cr o2
          have o3 : s3.Own (Path.fill (Frame.right p cp
              (Tree.node c Color.black (Tree.node b Color.red bl vb cl) vc cr) vp :: up) t) :=
            m3.own o2
          have hbro := brother_ptr o3 ht
          refine ⟨s3, ?_, (m1.trans m2).trans m3⟩
          simp only [Frame.sibling, Tree.ptr_node] at hbro hcr
          simp only [Set.erase_rebalance_inner, hnp, hnb, bind, Option.bind, hcl, hcr, hbl,
            and_self, if_true, e1, Tree.ptr_node, e2, e3, hbro, pure, Frame.sibling,
            Ne.symm hne, false_and, if_false, true_and]
      · simp only [eraseInner, hbl, if_false, Option.some.injEq] at hI
        subst hI
        refine ⟨s, ?_, Sim.refl hO⟩
        simp only [Set.erase_rebalance_inner, hnp, hnb, bind, Option.bind, hcl, hcr, hbl,
          and_false, if_false, Ne.symm hne, false_and, pure, Frame.sibling, Tree.ptr_node]

/-- The final rotation of `erase_rebalance` computes `eraseOuter`. -/
theorem erase_rebalance_outer_sim (s : Set α) (f : Frame α) (up : Path α) (t : Tree α)
    (a : Nat) (hO : s.Own (Path.fill (f :: up) t)) (ht : t.ptr = some a) (q : Path α)
    (hQ : eraseOuter f up = some q) :
    ∃ s', s.erase_rebalance_outer (some a) (some f.addr) f.sibling.ptr = some s' ∧
      s.Sim s' (Path.fill (f :: up) t) (Path.fill q t) := by
  have hcp := color_parent hO
  have hne := sibling_ptr_ne hO ht
  cases f with
  | left p cp vp sib =>
    cases sib with
    | nil => cases hQ
    | node b cb bl vb br =>
      simp only [eraseOuter, Option.some.injEq] at hQ
      subst hQ
      obtain ⟨s1, e1, m1⟩ := recolor_sibling_ok s _ up t cp hO
      have o1 := m1.own hO
      obtain ⟨s2, e2, m2⟩ := recolor_parent_ok s1 _ up t Color.black o1
      have o2 := m2.own o1
      have hnp := node_parent o2
      have o2b : s2.Own (Path.fill (Frame.right p Color.black t vp :: up)
          (Tree.node b cp bl vb br)) := o2
      have hnb := node_focus o2b
      obtain ⟨s3, e3, m3⟩ := recolor_opt_ok s2 (Frame.right b cp bl vb ::
        Frame.right p Color.black t vp :: up) br Color.black o2
      have o3 := m3.own o2
      obtain ⟨s4, e4, m4⟩ := rotate_left_ok s3 up p Color.black t vp b cp bl vb
        (br.setColor Color.black) o3
      refine ⟨s4, ?_, ((m1.trans m2).trans m3).trans m4⟩
      simp only [Frame.sibling, Tree.ptr_node, Frame.addr, Frame.setSibling, Tree.setColor,
        Frame.setColor, Frame.cell, Frame.color, ht] at e1 e2 hnp hne hcp
      simp only [Set.erase_rebalance_outer, Frame.sibling, Tree.ptr_node, Frame.addr, hcp, bind,
        Option.bind, e1, e2, hnp, hnb, if_true, e3, e4]
  | right p cp sib vp =>
    cases sib with
    | nil => cases hQ
    | node b cb bl vb br =>
      simp only [eraseOuter, Option.some.injEq] at hQ
      subst hQ
      obtain ⟨s1, e1, m1⟩ := recolor_sibling_ok s _ up t cp hO
      have o1 := m1.own hO
      obtain ⟨s2, e2, m2⟩ := recolor_parent_ok s1 _ up t Color.black o1
      have o2 := m2.own o1
      have hnp := node_parent o2
      have o2b : s2.Own (Path.fill (Frame.left p Color.black vp t :: up)
          (Tree.node b cp bl vb br)) := o2
      have hnb := node_focus o2b
      obtain ⟨s3, e3, m3⟩ := recolor_opt_ok s2 (Frame.left b cp vb br ::
        Frame.left p Color.black vp t :: up) bl Color.black o2
      have o3 := m3.own o2
      obtain ⟨s4, e4, m4⟩ := rotate_right_ok s3 up p Color.black (bl.setColor Color.black) vp
        b cp br vb t o3
      refine ⟨s4, ?_, ((m1.trans m2).trans m3).trans m4⟩
      simp only [Frame.sibling, Tree.ptr_node, Frame.addr, Frame.setSibling, Tree.setColor,
        Frame.setColor, Frame.cell, Frame.color, ht] at e1 e2 hnp hne hcp
      simp only [Set.erase_rebalance_outer, Frame.sibling, Tree.ptr_node, Frame.addr, hcp, bind,
        Option.bind, e1, e2, hnp, hnb, Ne.symm hne, if_false, e3, e4]

end Set

end SetReview

namespace SetReview

variable {α : Type}

theorem eraseRed_of_not_red {f : Frame α} {up : Path α} (h : f.sibling.color ≠ Color.red) :
    eraseRed f up = f :: up := by
  cases f with
  | left p cp vp sib =>
    cases sib with
    | nil => rfl
    | node b cb bl vb br =>
      cases cb with
      | black => rfl
      | red => exact absurd rfl h
  | right p cp sib vp =>
    cases sib with
    | nil => rfl
    | node b cb bl vb br =>
      cases cb with
      | black => rfl
      | red => exact absurd rfl h

theorem eraseRed_ne_nil (f : Frame α) (up : Path α) : ∃ f1 up1, eraseRed f up = f1 :: up1 := by
  by_cases h : f.sibling.color = Color.red
  · cases f with
    | left p cp vp sib =>
      cases sib with
      | nil => cases h
      | node b cb bl vb br =>
        simp only [Frame.sibling, Tree.color_node] at h
        subst h
        exact ⟨_, _, rfl⟩
    | right p cp sib vp =>
      cases sib with
      | nil => cases h
      | node b cb bl vb br =>
        simp only [Frame.sibling, Tree.color_node] at h
        subst h
        exact ⟨_, _, rfl⟩
  · exact ⟨f, up, eraseRed_of_not_red h⟩

/-- The two ways in which `delFix` succeeds below a parent. -/
theorem delFix_cons {f : Frame α} {up q : Path α} (h : delFix (f :: up) = some q) :
    ∃ f1 up1, eraseRed f up = f1 :: up1 ∧
      (eraseLocal f1 up1 = some (some q) ∨
        (eraseLocal f1 up1 = some none ∧ up1 = up ∧
          ∃ up2 b cb bl vb br, f1.sibling = Tree.node b cb bl vb br ∧ delFix up = some up2 ∧
            q = f1.setSibling (Tree.node b Color.red bl vb br) :: up2)) := by
  by_cases hr : f.sibling.color = Color.red
  · obtain ⟨f1, up1, e⟩ := eraseRed_ne_nil f up
    refine ⟨f1, up1, e, Or.inl ?_⟩
    simp only [delFix, hr, if_true, e] at h
    cases hl : eraseLocal f1 up1 with
    | none => simp only [hl] at h; cases h
    | some o =>
      cases o with
      | none => simp only [hl] at h; cases h
      | some q2 =>
        simp only [hl, Option.some.injEq] at h
        rw [h]
  · refine ⟨f, up, eraseRed_of_not_red hr, ?_⟩
    simp only [delFix, hr, if_false] at h
    cases hl : eraseLocal f up with
    | none => simp only [hl] at h; cases h
    | some o =>
      cases o with
      | some q2 =>
        simp only [hl, Option.some.injEq] at h
        rw [h]
        exact Or.inl rfl
      | none =>
        simp only [hl] at h
        refine Or.inr ⟨rfl, rfl, ?_⟩
        cases hd : delFix up with
        | none => simp only [hd] at h; cases h
        | some up2 =>
          simp only [hd] at h
          cases hs : f.sibling with
          | nil => simp only [hs] at h; cases h
          | node b cb bl vb br =>
            simp only [hs, Option.some.injEq] at h
            exact ⟨up2, b, cb, bl, vb, br, rfl, rfl, h.symm⟩

theorem Tree.setColor_self : ∀ (t : Tree α), t.setColor t.color = t
  | Tree.nil => rfl
  | Tree.node _ _ _ _ _ => rfl

end SetReview

namespace SetReview

variable {α : Type}

theorem eraseRed_addr {f f1 : Frame α} {up up1 : Path α} (h : eraseRed f up = f1 :: up1) :
    f1.addr = f.addr := by
  by_cases hr : f.sibling.color = Color.red
  · cases f with
    | left p cp vp sib =>
      cases sib with
      | nil => cases hr
      | node b cb bl vb br =>
        simp only [Frame.sibling, Tree.color_node] at hr
        subst hr
        simp only [eraseRed, List.cons.injEq] at h
        rw [← h.1]
        rfl
    | right p cp sib vp =>
      cases sib with
      | nil => cases hr
      | node b cb bl vb br =>
        simp only [Frame.sibling, Tree.color_node] at hr
        subst hr
        simp only [eraseRed, List.cons.injEq] at h
        rw [← h.1]
        rfl
  · rw [eraseRed_of_not_red hr] at h
    simp only [List.cons.injEq] at h
    rw [h.1]

namespace Set

/-- Reading the node record of the sibling of a position. -/
theorem node_sibling {s : Set α} {f : Frame α} {up : Path α} {t : Tree α} {b : Nat}
    {cb : Color} {bl : Tree α} {vb : α} {br : Tree α} (hO : s.Own (Path.fill (f :: up) t))
    (hs : f.sibling = Tree.node b cb bl vb br) :
    s.node (some b) = some ⟨vb, bl.ptr, br.ptr, some f.addr, cb⟩ := by
  have h2 : s.Own (Path.fill (f.flip t :: up) f.sibling) := by
    simpa [Path.fill] using hO
  rw [hs] at h2
  have h3 := node_focus h2
  cases f <;> exact h3

/-- Reading the colours of the children of the sibling of a position. -/
theorem color_nephews {s : Set α} {f : Frame α} {up : Path α} {t : Tree α} {b : Nat}
    {cb : Color} {bl : Tree α} {vb : α} {br : Tree α} (hO : s.Own (Path.fill (f :: up) t))
    (hs : f.sibling = Tree.node b cb bl vb br) :
    s.color bl.ptr = some bl.color ∧ s.color br.ptr = some br.color := by
  have h2 : s.Own (Path.fill (f.flip t :: up) f.sibling) := by
    simpa [Path.fill] using hO
  rw [hs] at h2
  exact ⟨@color_focus _ s (Frame.left b cb vb br :: f.flip t :: up) bl h2,
    @color_focus _ s (Frame.right b cb bl vb :: f.flip t :: up) br h2⟩

/-- The function `erase_rebalance` on a black node computes `delFix`. -/
theorem erase_rebalance_sim : ∀ (k : Nat) (ctx : Path α) (t : Tree α) (s : Set α) (a : Nat)
    (q : Path α), s.Own (ctx.fill t) → t.ptr = some a → t.color = Color.black →
    delFix ctx = some q → ctx.length < k →
    ∃ s', s.erase_rebalance k (some a) = some s' ∧ s.Sim s' (ctx.fill t) (q.fill t)
  | 0, _, _, _, _, _, _, _, _, _, hk => absurd hk (Nat.not_lt_zero _)
  | k + 1, _, Tree.nil, _, _, _, _, ht, _, _, _ => by cases ht
  | k + 1, [], Tree.node a' c l v r, s, a, q, hO, ht, hc, hq, _ => by
    simp only [delFix, Option.some.injEq] at hq
    subst hq
    simp only [Tree.ptr_node, Option.some.injEq] at ht
    subst ht
    simp only [Tree.color_node] at hc
    subst hc
    have hnv := node_focus hO
    have hcv := color_focus hO
    obtain ⟨s1, e1, m1⟩ := recolor_ok s [] a' Color.black l v r Color.black hO
    refine ⟨s1, ?_, m1⟩
    simp only [Tree.ptr_node, Tree.color_node] at hcv
    simp only [Set.erase_rebalance, hnv, hcv, bind, Option.bind, Path.ptr_empty, true_or,
      if_true, e1]
  | k + 1, f :: up, Tree.node a' c l v r, s, a, q, hO, ht, hc, hq, hk => by
    simp only [Tree.ptr_node, Option.some.injEq] at ht
    subst ht
    simp only [Tree.color_node] at hc
    subst hc
    have hnv := node_focus hO
    have hcv := color_focus hO
    have hbr := brother_ptr hO rfl
    simp only [Tree.ptr_node, Tree.color_node] at hcv
    obtain ⟨f1, up1, hred, hcase⟩ := delFix_cons hq
    obtain ⟨s1, f1', up1', hred', e1, m1⟩ :=
      erase_rebalance_red_sim s f up (Tree.node a' Color.black l v r) a' hO rfl
    rw [hred] at hred'
    simp only [List.cons.injEq] at hred'
    obtain ⟨rfl, rfl⟩ := hred'
    have o1 := m1.own hO
    have haddr := eraseRed_addr hred
    have hcp := color_parent o1
    rw [haddr] at hcp
    rcases hcase with hA | ⟨hB, hup, up2, b, cb, bl, vb, br, hsib, hd, hqe⟩
    · simp only [eraseLocal] at hA
      cases hsib : f1.sibling with
      | nil => simp only [hsib] at hA; cases hA
      | node b cb bl vb br =>
        simp only [hsib] at hA
        have hnb := node_sibling o1 hsib
        obtain ⟨hcl, hcr⟩ := color_nephews o1 hsib
        rw [hsib] at e1
        simp only [Tree.ptr_node] at e1
        by_cases hbb : bl.color = Color.black ∧ br.color = Color.black
        · by_cases hfc : f1.color = Color.black
          · simp only [hbb, and_self, if_true, hfc] at hA
            cases hA
          · simp only [hbb, and_self, if_true, hfc, if_false, Option.some.injEq] at hA
            subst hA
            obtain ⟨s2, e2, m2⟩ := recolor_parent_ok s1 f1 up1 _ Color.black o1
            have o2 := m2.own o1
            obtain ⟨s3, e3, m3⟩ := recolor_sibling_ok s2 (f1.setColor Color.black) up1 _
              Color.red o2
            refine ⟨s3, ?_, ?_⟩
            · simp only [Frame.sibling_setColor, hsib, Tree.ptr_node, haddr,
                Frame.addr_setColor] at e2 e3
              simp only [Set.erase_rebalance, hnv, hcv, bind, Option.bind, Path.ptr_cons,
                reduceCtorEq, or_self, if_false, hbr, e1, hnb, hcl, hcr, hbb, and_self,
                if_true, hcp, hfc, e2, e3]
            · have hm := (m1.trans m2).trans m3
              simp only [Frame.sibling_setColor, hsib, Tree.setColor] at hm
              have e : (f1.setColor Color.black).setSibling (Tree.node b Color.red bl vb br) =
                  (f1.setSibling (Tree.node b Color.red bl vb br)).setColor Color.black := by
                cases f1 <;> rfl
              rw [e] at hm
              exact hm
        · simp only [hbb, if_false] at hA
          cases hI : eraseInner f1 with
          | none => simp only [hI] at hA; cases hA
          | some f2 =>
            simp only [hI, Option.map_eq_some', Option.some.injEq] at hA
            obtain ⟨q2, hQ, rfl⟩ := hA
            obtain ⟨s2, e2, m2⟩ := erase_rebalance_inner_sim s1 f1 up1 _ a' o1 rfl f2 hI
            have o2 := m2.own o1
            obtain ⟨s3, e3, m3⟩ := erase_rebalance_outer_sim s2 f2 up1 _ a' o2 rfl q2 hQ
            have haddr2 : f2.addr = f1.addr := by
              cases f1 with
              | left p cp vp sib =>
                simp only [Frame.sibling] at hsib
                subst hsib
                simp only [eraseInner] at hI
                split at hI
                · cases bl with
                  | nil => cases hI
                  | node c cc cl vc cr =>
                    simp only [Option.some.injEq] at hI
                    rw [← hI]
                    rfl
                · simp only [Option.some.injEq] at hI
                  rw [← hI]
              | right p cp sib vp =>
                simp only [Frame.sibling] at hsib
                subst hsib
                simp only [eraseInner] at hI
                split at hI
                · cases br with
                  | nil => cases hI
                  | node c cc cl vc cr =>
                    simp only [Option.some.injEq] at hI
                    rw [← hI]
                    rfl
                · simp only [Option.some.injEq] at hI
                  rw [← hI]
            refine ⟨s3, ?_, (m1.trans m2).trans m3⟩
            rw [hsib] at e2
            simp only [Tree.ptr_node, haddr, haddr2] at e2 e3
            simp only [Set.erase_rebalance, hnv, hcv, bind, Option.bind, Path.ptr_cons,
              reduceCtorEq, or_self, if_false, hbr, e1, hnb, hcl, hcr, hbb, e2, e3]
    · subst hup
      subst hqe
      have hnb := node_sibling o1 hsib
      obtain ⟨hcl, hcr⟩ := color_nephews o1 hsib
      rw [hsib] at e1
      simp only [Tree.ptr_node] at e1
      simp only [eraseLocal, hsib] at hB
      by_cases hbb : bl.color = Color.black ∧ br.color = Color.black
      · by_cases hfc : f1.color = Color.black
        · obtain ⟨s2, e2, m2⟩ := recolor_sibling_ok s1 f1 up1 _ Color.red o1
          have o2 := m2.own o1
          simp only [hsib, Tree.setColor, Tree.ptr_node] at e2 m2 o2
          obtain ⟨s3, e3, m3⟩ := erase_rebalance_sim k up1
            ((f1.setSibling (Tree.node b Color.red bl vb br)).plug
              (Tree.node a' Color.black l v r)) s2 f1.addr up2 o2 (by simp)
            (by simp [hfc]) hd (by simp only [List.length_cons] at hk; omega)
          refine ⟨s3, ?_, (m1.trans m2).trans m3⟩
          rw [haddr] at e3
          simp only [Set.erase_rebalance, hnv, hcv, bind, Option.bind, Path.ptr_cons,
            reduceCtorEq, or_self, if_false, hbr, e1, hnb, hcl, hcr, hbb, and_self,
            if_true, hcp, hfc, e2, e3]
        · simp only [hbb, and_self, if_true, hfc, if_false] at hB
          cases hB
      · simp only [hbb, if_false] at hB
        cases hI : eraseInner f1 with
        | none => simp only [hI] at hB; cases hB
        | some f2 =>
          simp only [hI, Option.map_eq_some'] at hB
          obtain ⟨q2, -, hq2⟩ := hB
          cases hq2

end Set

end SetReview

namespace SetReview

variable {α : Type}

/-! ## Unlinking a node -/

namespace Set

/-- Assigning through the place that holds the pointer to a position. -/
theorem slot_set_ok (s : Set α) (ctx : Path α) (x y : Ptr) (hP : Path.Repr s.heap ctx x)
    (hroot : s._root = ctx.root x) (hn : ctx.addrs.Nodup) :
    ∃ s1, s.slot_set ctx.slot y = some s1 ∧ Path.Repr s1.heap ctx y ∧
      s1._root = ctx.root y ∧ s1.fresh = s.fresh ∧ s1._begin = s._begin ∧
      s1._size = s._size ∧ ∀ z, z ∉ ctx.addrs → s1.heap z = s.heap z := by
  obtain ⟨h, f, rt, bg, n⟩ := s
  simp only at hP hroot
  cases ctx with
  | nil =>
    exact ⟨⟨h, f, y, bg, n⟩, rfl, trivial, rfl, rfl, rfl, rfl, fun _ _ => rfl⟩
  | cons g up =>
    have hg := hP.1
    refine ⟨⟨Function.update h g.addr (some (g.cell y (Path.ptr up))), f, rt, bg, n⟩,
      ?_, ?_, ?_, rfl, rfl, rfl, ?_⟩
    · cases g with
      | left a c v r =>
        simp only [Frame.addr, Frame.cell] at hg
        simp only [Path.slot, Frame.slot, Set.slot_set, Set.write, hg, Frame.addr, Frame.cell]
      | right a c l v =>
        simp only [Frame.addr, Frame.cell] at hg
        simp only [Path.slot, Frame.slot, Set.slot_set, Set.write, hg, Frame.addr, Frame.cell]
    · refine Path.repr_rehang hn hP ?_ ?_
      · rintro g2 up2 e
        cases e
        simp only [Function.update_same]
      · intro z _ hzp
        simp only [Path.ptr_cons, ne_eq, Option.some.injEq] at hzp
        simp only [Function.update_noteq hzp]
    · simp only [hroot, Path.root_cons]
    · intro z hz
      have hzg : z ≠ g.addr := fun e => hz (by simp [e])
      simp only [Function.update_noteq hzg]

/-- Assigning the parent field of the root of a subtree. -/
theorem reparent_ok (s : Set α) (a : Nat) (c : Color) (l : Tree α) (v : α) (r : Tree α)
    (par par' : Ptr) (hT : Tree.Repr s.heap par (Tree.node a c l v r))
    (hn : (Tree.node a c l v r).addrs.Nodup) :
    ∃ s2, s.write (some a) (fun n => { n with parent := par' }) = some s2 ∧
      Tree.Repr s2.heap par' (Tree.node a c l v r) ∧ s2._root = s._root ∧
      s2.fresh = s.fresh ∧ s2._begin = s._begin ∧ s2._size = s._size ∧
      ∀ z, z ≠ a → s2.heap z = s.heap z := by
  obtain ⟨h, f, rt, bg, n⟩ := s
  simp only at hT
  have ha := hT.1
  refine ⟨⟨Function.update h a (some ⟨v, l.ptr, r.ptr, par', c⟩), f, rt, bg, n⟩, ?_, ?_,
    rfl, rfl, rfl, rfl, ?_⟩
  · simp only [Set.write, ha]
  · refine Tree.repr_reparent hn hT ?_ ?_
    · intro b m hb hm
      simp only [Tree.ptr_node, Option.some.injEq] at hb
      subst hb
      rw [ha] at hm
      simp only [Option.some.injEq] at hm
      subst hm
      simp only [Function.update_same]
    · intro z _ hz
      simp only [Tree.ptr_node, ne_eq, Option.some.injEq] at hz
      simp only [Function.update_noteq hz]
  · intro z hz
    simp only [Function.update_noteq hz]

/-- Lines 293-295 and 298-299 of `replace_with_child`: the child `c` of the node `u`
takes the place of `u`. -/
theorem splice_sim (s : Set α) (ctx : Path α) (u : Nat) (cu : Color) (l : Tree α) (y : α)
    (r : Tree α) (c : Tree α) (hO : s.Own (ctx.fill (Tree.node u cu l y r)))
    (hc : c = l ∨ c = r) :
    ∃ s1 s2, s.slot_set ctx.slot c.ptr = some s1 ∧
      (c.ptr = none → s2 = s1) ∧
      (c.ptr ≠ none → s1.write c.ptr (fun n => { n with parent := ctx.ptr }) = some s2) ∧
      s.Step s2 (ctx.fill (Tree.node u cu l y r)).addrs (ctx.fill c) ∧
      s2.heap u = s.heap u ∧ (ctx.fill c).addrs.Nodup ∧ u ∉ (ctx.fill c).addrs := by
  obtain ⟨hR, hroot, hN⟩ := hO
  obtain ⟨hP, hT⟩ := (Path.repr_fill _ _).1 hR
  have hD := Path.nodup_fill.1 hN
  simp only [Tree.addrs_node] at hD
  obtain ⟨hD1, hD2, hD3⟩ := List.nodup_append.1 hD
  obtain ⟨hDl, hDr, hDlr⟩ := List.nodup_append.1 hD2
  have huC : u ∉ ctx.addrs := fun hm => hD3 hm (by simp)
  have hcsub : ∀ z ∈ c.addrs, z ∈ l.addrs ∨ z ∈ r.addrs := by
    rcases hc with rfl | rfl
    · exact fun z hz => Or.inl hz
    · exact fun z hz => Or.inr hz
  have hcC : ∀ z ∈ c.addrs, z ∉ ctx.addrs := by
    intro z hz hm
    rcases hcsub z hz with h | h
    · exact hD3 hm (by simp [h])
    · exact hD3 hm (by simp [h])
  have hcu : u ∉ c.addrs := by
    intro hm
    rcases hcsub u hm with h | h
    · exact hDlr h (by simp)
    · exact (List.nodup_cons.1 hDr).1 h
  have hcN : c.addrs.Nodup := by
    rcases hc with rfl | rfl
    · exact hDl
    · exact (List.nodup_cons.1 hDr).2
  have hcR : Tree.Repr s.heap (some u) c := by
    rcases hc with rfl | rfl
    · exact hT.2.1
    · exact hT.2.2
  have hN2 : (ctx.fill c).addrs.Nodup := by
    rw [Path.nodup_fill, List.nodup_append]
    exact ⟨hD1, hcN, fun z hz hz2 => hcC z hz2 hz⟩
  have hsub : ∀ z, z ∈ ctx.addrs ∨ z ∈ c.addrs →
      z ∈ (ctx.fill (Tree.node u cu l y r)).addrs := by
    intro z hz
    rw [Path.mem_addrs_fill]
    rcases hz with h | h
    · exact Or.inl h
    · rcases hcsub z h with h2 | h2
      · exact Or.inr (by simp [h2])
      · exact Or.inr (by simp [h2])
  have hu2 : u ∉ (ctx.fill c).addrs := by
    rw [Path.mem_addrs_fill]
    exact fun h => h.elim huC hcu
  rw [Path.ptr_fill] at hroot
  obtain ⟨s1, e1, p1, r1, f1, b1, n1, m1⟩ :=
    slot_set_ok s ctx (some u) c.ptr hP hroot hD1
  have hcR1 : Tree.Repr s1.heap (some u) c :=
    Tree.repr_congr (fun z hz => m1 z (hcC z hz)) hcR
  cases c with
  | nil =>
    refine ⟨s1, s1, e1, fun _ => rfl, fun h => absurd rfl h, ⟨?_, ?_, f1, b1, n1, ?_⟩,
      m1 u huC, hN2, hu2⟩
    · exact (Path.repr_fill _ _).2 ⟨p1, trivial⟩
    · rw [r1, Path.ptr_fill]
    · intro z hz
      exact m1 z (fun h => hz (hsub z (Or.inl h)))
  | node a cc cl v cr =>
    obtain ⟨s2, e2, t2, r2, f2, b2, n2, m2⟩ :=
      reparent_ok s1 a cc cl v cr (some u) ctx.ptr hcR1 hcN
    have haC : a ∉ ctx.addrs := hcC a (by simp)
    have hau : u ≠ a := fun e => hcu (by simp [e])
    refine ⟨s1, s2, e1, fun h => (by cases h), fun _ => e2, ⟨?_, ?_, ?_, ?_, ?_, ?_⟩, ?_, hN2, hu2⟩
    · refine (Path.repr_fill _ _).2 ⟨?_, t2⟩
      exact Path.repr_agree (fun z hz => m2 z (fun e => haC (e ▸ hz))) p1
    · rw [r2, r1, Path.ptr_fill]
    · rw [f2, f1]
    · rw [b2, b1]
    · rw [n2, n1]
    · intro z hz
      have hza : z ≠ a := fun e => hz (hsub z (Or.inr (by simp [e])))
      rw [m2 z hza]
      exact m1 z (fun h => hz (hsub z (Or.inl h)))
    · rw [m2 u hau]
      exact m1 u huC

end Set

end SetReview

namespace SetReview

variable {α : Type}

/-! ## The rebalancing after a removal keeps the order of the nodes -/

theorem eraseRed_same (f : Frame α) (up : Path α) : Path.Same (eraseRed f up) (f :: up) := by
  unfold eraseRed
  split <;>
    simp [Path.Same, Path.slot, Frame.slot, Frame.before, Frame.after]

theorem eraseInner_same {f f2 : Frame α} (h : eraseInner f = some f2) (up : Path α) :
    Path.Same (f2 :: up) (f :: up) := by
  unfold eraseInner at h
  split at h
  · cases h
  · cases h
  · split at h
    · split at h
      · cases h
      · simp only [Option.some.injEq] at h
        subst h
        simp [Path.Same, Path.slot, Frame.slot, Frame.before, Frame.after]
    · simp only [Option.some.injEq] at h
      subst h
      exact ⟨rfl, rfl, rfl⟩
  · split at h
    · split at h
      · cases h
      · simp only [Option.some.injEq] at h
        subst h
        simp [Path.Same, Path.slot, Frame.slot, Frame.before, Frame.after]
    · simp only [Option.some.injEq] at h
      subst h
      exact ⟨rfl, rfl, rfl⟩

theorem Tree.cells_setColor_eq (t : Tree α) (c : Color) : (t.setColor c).cells = t.cells := by
  cases t <;> rfl

theorem eraseOuter_same {f : Frame α} {up q : Path α} (h : eraseOuter f up = some q) :
    Path.Same q (f :: up) := by
  unfold eraseOuter at h
  split at h
  · cases h
  · cases h
  · simp only [Option.some.injEq] at h
    subst h
    simp [Path.Same, Path.slot, Frame.slot, Frame.before, Frame.after,
      Tree.cells_setColor_eq]
  · simp only [Option.some.injEq] at h
    subst h
    simp [Path.Same, Path.slot, Frame.slot, Frame.before, Frame.after,
      Tree.cells_setColor_eq]

theorem Path.Same.comp {p q r : Path α} (h1 : Path.Same p q) (h2 : Path.Same q r) :
    Path.Same p r :=
  ⟨h1.1.trans h2.1, h1.2.1.trans h2.2.1, h1.2.2.trans h2.2.2⟩

theorem setSibling_recolor_same {f : Frame α} {b : Nat} {cb : Color} {bl : Tree α} {vb : α}
    {br : Tree α} (hs : f.sibling = Tree.node b cb bl vb br) (c : Color) {up up2 : Path α}
    (h : Path.Same up2 up) :
    Path.Same (f.setSibling (Tree.node b c bl vb br) :: up2) (f :: up) := by
  obtain ⟨-, h2, h3⟩ := h
  cases f with
  | left p cp vp sib =>
    simp only [Frame.sibling] at hs
    subst hs
    simp [Path.Same, Path.slot, Frame.slot, Frame.before, Frame.after, Frame.setSibling, h2, h3]
  | right p cp sib vp =>
    simp only [Frame.sibling] at hs
    subst hs
    simp [Path.Same, Path.slot, Frame.slot, Frame.before, Frame.after, Frame.setSibling, h2, h3]

theorem eraseLocal_same {f : Frame α} {up q : Path α} (h : eraseLocal f up = some (some q)) :
    Path.Same q (f :: up) := by
  simp only [eraseLocal] at h
  cases hsib : f.sibling with
  | nil => simp only [hsib] at h; cases h
  | node b cb bl vb br =>
    simp only [hsib] at h
    split at h
    · split at h
      · cases h
      · simp only [Option.some.injEq] at h
        subst h
        have := @setSibling_recolor_same _ f b cb bl vb br hsib Color.red up up ⟨rfl, rfl, rfl⟩
        refine Path.Same.comp ?_ this
        cases f <;> exact ⟨rfl, rfl, rfl⟩
    · cases hI : eraseInner f with
      | none => simp only [hI] at h; cases h
      | some f2 =>
        simp only [hI, Option.map_eq_some', Option.some.injEq] at h
        obtain ⟨q2, hQ, rfl⟩ := h
        exact (eraseOuter_same hQ).comp (eraseInner_same hI up)

/-- The rebalancing keeps the place of the position and the nodes before and after it. -/
theorem delFix_same : ∀ (ctx q : Path α), delFix ctx = some q → Path.Same q ctx
  | [], q, h => by
    simp only [delFix, Option.some.injEq] at h
    subst h
    exact ⟨rfl, rfl, rfl⟩
  | f :: up, q, h => by
    obtain ⟨f1, up1, hred, hcase⟩ := delFix_cons h
    have h1 := eraseRed_same f up
    rw [hred] at h1
    rcases hcase with hA | ⟨-, hup, up2, b, cb, bl, vb, br, hsib, hd, hq⟩
    · exact (eraseLocal_same hA).comp h1
    · subst hup hq
      exact (setSibling_recolor_same hsib Color.red (delFix_same _ up2 hd)).comp h1

theorem Path.Same.cells {q p : Path α} (h : Path.Same q p) (t : Tree α) :
    (q.fill t).cells = (p.fill t).cells := by
  rw [Path.cells_fill, Path.cells_fill, h.2.1, h.2.2]

end SetReview

namespace SetReview

variable {α : Type}

namespace Set

theorem child_ptr (u : Nat) (cu : Color) (l : Tree α) (y : α) (r : Tree α) :
    (if l.ptr ≠ none then l.ptr else r.ptr) = (Tree.node u cu l y r).child.ptr := by
  cases l <;> rfl

theorem child_cases (u : Nat) (cu : Color) (l : Tree α) (y : α) (r : Tree α) :
    (Tree.node u cu l y r).child = l ∨ (Tree.node u cu l y r).child = r := by
  cases l
  · exact Or.inr rfl
  · exact Or.inl rfl

/-- The function `replace_with_child` with its reads and the reference `p_ptr` resolved. -/
theorem replace_with_child_eq {s : Set α} {ctx : Path α} {u : Nat} {cu : Color} {l : Tree α}
    {y : α} {r : Tree α} (hO : s.Own (ctx.fill (Tree.node u cu l y r))) :
    s.replace_with_child (some u) =
      if cu = Color.red then
        (s.slot_set ctx.slot (Tree.node u cu l y r).child.ptr).bind (fun s1 =>
          match (Tree.node u cu l y r).child.ptr with
          | none => some s1
          | some _ => s1.write (Tree.node u cu l y r).child.ptr
              (fun n => { n with parent := ctx.ptr }))
      else
        match (Tree.node u cu l y r).child.ptr with
        | some _ =>
          (s.slot_set ctx.slot (Tree.node u cu l y r).child.ptr).bind (fun s1 =>
            (s1.write (Tree.node u cu l y r).child.ptr
              (fun n => { n with parent := ctx.ptr })).bind (fun s2 =>
                s2.erase_rebalance s2.fuel (Tree.node u cu l y r).child.ptr))
        | none => (s.erase_rebalance s.fuel (some u)).bind (fun s1 =>
            s1.slot_set ctx.slot none) := by
  have hnv := node_focus hO
  have hcv := color_focus hO
  simp only [Tree.ptr_node, Tree.color_node] at hcv
  rw [← child_ptr u cu l y r]
  cases ctx with
  | nil =>
    simp only [Set.replace_with_child, hnv, hcv, bind, Option.bind, pure, Path.ptr_empty,
      Path.slot]
    try rfl
  | cons f up =>
    have hp := node_parent hO
    have hne := sibling_ptr_ne hO rfl
    cases f with
    | left p cp vp sib =>
      simp only [Frame.addr, Frame.cell, Tree.ptr_node] at hp
      simp only [Set.replace_with_child, hnv, hcv, bind, Option.bind, pure, Path.ptr_cons,
        Frame.addr, hp, if_true, Path.slot, Frame.slot]
      try rfl
    | right p cp sib vp =>
      simp only [Frame.addr, Frame.cell, Tree.ptr_node] at hp
      simp only [Frame.sibling] at hne
      simp only [Set.replace_with_child, hnv, hcv, bind, Option.bind, pure, Path.ptr_cons,
        Frame.addr, hp, Ne.symm hne, if_false, Path.slot, Frame.slot]
      try rfl

/-- The function `erase_rebalance` on any node computes `Path.rebalance`. -/
theorem rebalance_sim (k : Nat) (s : Set α) (ctx : Path α) (t : Tree α) (a : Nat)
    (T' : Tree α) (hO : s.Own (ctx.fill t)) (ht : t.ptr = some a)
    (hT : ctx.rebalance t = some T') (hk : ctx.length < k) :
    ∃ s', s.erase_rebalance k (some a) = some s' ∧ s.Sim s' (ctx.fill t) T' := by
  by_cases hc : t.color = Color.red
  · simp only [Path.rebalance, hc, if_true, Option.some.injEq] at hT
    subst hT
    cases t with
    | nil => cases ht
    | node a' c l v r =>
      simp only [Tree.ptr_node, Option.some.injEq] at ht
      subst ht
      simp only [Tree.color_node] at hc
      subst hc
      have hnv := node_focus hO
      have hcv := color_focus hO
      simp only [Tree.ptr_node, Tree.color_node] at hcv
      obtain ⟨s1, e1, m1⟩ := recolor_ok s ctx a' Color.red l v r Color.black hO
      refine ⟨s1, ?_, m1⟩
      obtain ⟨k, rfl⟩ : ∃ j, k = j + 1 := ⟨k - 1, by omega⟩
      simp only [Set.erase_rebalance, hnv, hcv, bind, Option.bind, or_true, if_true, e1]
  · simp only [Path.rebalance, hc, if_false, Option.map_eq_some'] at hT
    obtain ⟨q, hq, rfl⟩ := hT
    exact erase_rebalance_sim k ctx t s a q hO ht (Color.eq_black_of_ne_red hc) hq hk

/-- The function `replace_with_child` computes `Path.splice`; the node stays allocated. -/
theorem replace_with_child_sim (s : Set α) (ctx : Path α) (u : Nat) (cu : Color)
    (l : Tree α) (y : α) (r : Tree α) (T' : Tree α)
    (hO : s.Own (ctx.fill (Tree.node u cu l y r)))
    (hT : ctx.splice (Tree.node u cu l y r) = some T') (hk : ctx.length < s.fuel) :
    ∃ s', s.replace_with_child (some u) = some s' ∧
      s.Step s' (ctx.fill (Tree.node u cu l y r)).addrs T' ∧ ∃ n, s'.heap u = some n := by
  rw [replace_with_child_eq hO]
  have hlive : ∃ n, s.heap u = some n := ⟨_, node_focus hO⟩
  by_cases hc : cu = Color.red
  · subst hc
    simp only [Path.splice, if_true, Option.some.injEq] at hT
    subst hT
    obtain ⟨s1, s2, e1, e2, e3, m, hu, -, -⟩ :=
      splice_sim s ctx u Color.red l y r _ hO (child_cases u Color.red l y r)
    refine ⟨s2, ?_, m, hu ▸ hlive⟩
    simp only [if_true, e1, Option.bind]
    cases hp : (Tree.node u Color.red l y r).child.ptr with
    | none => rw [e2 hp]
    | some z =>
      rw [hp] at e3
      exact e3 (by simp)
  · simp only [Path.splice, hc, if_false] at hT
    simp only [hc, if_false]
    cases hch : (Tree.node u cu l y r).child with
    | nil =>
      simp only [hch, Option.map_eq_some'] at hT
      obtain ⟨q, hq, rfl⟩ := hT
      obtain ⟨s1, e1, m1⟩ := erase_rebalance_sim s.fuel ctx _ s u q hO rfl
        (Color.eq_black_of_ne_red hc) hq hk
      have o1 := m1.own hO
      have hl : l = Tree.nil := by
        cases l with
        | nil => rfl
        | node _ _ _ _ _ => cases hch
      obtain ⟨s2, s3, e2, e3, -, m2, hu, -, -⟩ :=
        splice_sim s1 q u cu l y r Tree.nil o1 (Or.inl hl.symm)
      have e3 := e3 rfl
      rw [(delFix_same _ _ hq).1, Tree.ptr_nil, ← e3] at e2
      refine ⟨s3, ?_, ?_, ?_⟩
      · simp only [Tree.ptr_nil, e1, Option.bind, e2]
      · exact m1.step.chain m2 (fun z hz => by rw [← m1.addrs]; exact hz)
      · rw [hu]
        exact ⟨_, node_focus o1⟩
    | node b cb bl vb br =>
      simp only [hch] at hT
      obtain ⟨s1, s2, e1, -, e3, m, hu, hn, hu2⟩ :=
        splice_sim s ctx u cu l y r _ hO (child_cases u cu l y r)
      rw [hch] at e1 e3 m hn hu2
      have e3 := e3 (by simp)
      have o2 := m.toOwn hn
      obtain ⟨s3, e4, m3⟩ := rebalance_sim s2.fuel s2 ctx _ b T' o2 rfl hT
        (by simp only [Set.fuel, m.fresh]; exact hk)
      refine ⟨s3, ?_, ?_, ?_⟩
      · simp only [Tree.ptr_node] at e1 e3
        simp only [Tree.ptr_node, e1, Option.bind, e3, e4]
      · refine m.chain m3.step (fun z hz => ?_)
        rw [Path.mem_addrs_fill] at hz ⊢
        rcases hz with h | h
        · exact Or.inl h
        · refine Or.inr ?_
          rcases child_cases u cu l y r with e | e
          · rw [hch] at e
            subst e
            rw [Tree.addrs_node]
            exact List.mem_append_left _ h
          · rw [hch] at e
            subst e
            rw [Tree.addrs_node]
            exact List.mem_append_right _ (List.mem_cons_of_mem _ h)
      · rw [m3.step.frame u hu2, hu]
        exact hlive

end Set

end SetReview

namespace SetReview

variable {α : Type}

/-! ## The node removed by `erase` -/

namespace Path

theorem fill_append : ∀ (p q : Path α) (t : Tree α), fill (p ++ q) t = fill q (fill p t)
  | [], _, _ => rfl
  | f :: p, q, t => fill_append p q (f.plug t)

theorem before_append : ∀ (p q : Path α), before (p ++ q) = before q ++ before p
  | [], q => by simp
  | f :: p, q => by simp [before_append p q]

theorem after_append : ∀ (p q : Path α), after (p ++ q) = after p ++ after q
  | [], q => by simp
  | f :: p, q => by simp [after_append p q]

/-- The colour of the root of a filled path only depends on the colour at the position. -/
theorem color_fill_congr : ∀ (p : Path α) (t t' : Tree α), t'.color = t.color →
    (p.fill t').color = (p.fill t).color
  | [], _, _, h => h
  | f :: p, t, t', _ => color_fill_congr p (f.plug t) (f.plug t') (by cases f <;> rfl)

/-- The red-black invariants of a tree only depend on the colour, the black height and
the invariants of the subtree at a position. -/
theorem RB_fill_congr (p : Path α) (t t' : Tree α) (hc : t'.color = t.color)
    (hb : t'.bh = t.bh) (h2 : t.RB2 → t'.RB2) (h3 : t.RB3 → t'.RB3) :
    (p.fill t').color = (p.fill t).color ∧ ((p.fill t).RB2 → (p.fill t').RB2) ∧
      ((p.fill t).RB3 → (p.fill t').RB3) := by
  refine ⟨color_fill_congr p t t' hc, ?_, ?_⟩
  · rw [RB2_fill, RB2_fill, hc]
    exact fun h => ⟨h2 h.1, h.2⟩
  · rw [RB3_fill, RB3_fill, hb]
    exact fun h => ⟨h3 h.1, h.2⟩

end Path

theorem maxPath_acc : ∀ (t : Tree α) (p : Path α),
    maxPath p t = (maxPath [] t).map (fun r => (r.1 ++ p, r.2))
  | Tree.nil, _ => rfl
  | Tree.node a c l v Tree.nil, p => rfl
  | Tree.node a c l v (Tree.node b cb rl vb rr), p => by
    rw [maxPath, maxPath_acc (Tree.node b cb rl vb rr) (Frame.right a c l v :: p), maxPath,
      maxPath_acc (Tree.node b cb rl vb rr) [Frame.right a c l v]]
    simp [Option.map_map, Function.comp_def]

/-- The rightmost node of a subtree: its position inside the subtree and its content. -/
theorem maxPath_some : ∀ (t : Tree α), t.ptr ≠ none →
    ∃ pm u cu ul y, maxPath [] t = some (pm, Tree.node u cu ul y Tree.nil) ∧
      Path.fill pm (Tree.node u cu ul y Tree.nil) = t ∧ Path.after pm = [] ∧
      t.rightmost = some u
  | Tree.nil, h => absurd rfl h
  | Tree.node a c l v Tree.nil, _ => ⟨[], a, c, l, v, rfl, rfl, rfl, rfl⟩
  | Tree.node a c l v (Tree.node b cb rl vb rr), _ => by
    obtain ⟨pm, u, cu, ul, y, h1, h2, h3, h4⟩ := maxPath_some (Tree.node b cb rl vb rr) (by simp)
    refine ⟨pm ++ [Frame.right a c l v], u, cu, ul, y, ?_, ?_, ?_, ?_⟩
    · rw [maxPath, maxPath_acc, h1]
      rfl
    · rw [Path.fill_append, h2]
      rfl
    · rw [Path.after_append, h3]
      rfl
    · rw [← h4]
      rfl

section Lookup

variable [LT α] [DecidableRel (fun a b : α => a < b)]

theorem findPath_none (x : α) : ∀ (t : Tree α) (p : Path α), findPath x p t = none →
    t.find x = none
  | Tree.nil, _, _ => rfl
  | Tree.node a c l v r, p, h => by
    simp only [findPath] at h
    simp only [Tree.find]
    by_cases hlt : x < v
    · simp only [hlt, if_true] at h ⊢
      exact findPath_none x l _ h
    · by_cases hgt : v < x
      · simp only [hlt, if_false, hgt, if_true] at h ⊢
        exact findPath_none x r _ h
      · simp only [hlt, if_false, hgt] at h
        cases h

theorem findPath_some (x : α) : ∀ (t : Tree α) (p q : Path α) (n : Tree α),
    findPath x p t = some (q, n) → q.fill n = p.fill t ∧
      ∃ v c l xv r, n = Tree.node v c l xv r ∧ t.find x = some v ∧ ¬ x < xv ∧ ¬ xv < x
  | Tree.nil, _, _, _, h => by cases h
  | Tree.node a c l v r, p, q, n, h => by
    simp only [findPath] at h
    simp only [Tree.find]
    by_cases hlt : x < v
    · simp only [hlt, if_true] at h ⊢
      exact findPath_some x l _ q n h
    · by_cases hgt : v < x
      · simp only [hlt, if_false, hgt, if_true] at h ⊢
        exact findPath_some x r _ q n h
      · simp only [hlt, if_false, hgt, Option.some.injEq, Prod.mk.injEq] at h ⊢
        obtain ⟨rfl, rfl⟩ := h
        exact ⟨rfl, a, c, l, v, r, rfl, rfl, hlt, hgt⟩

end Lookup

end SetReview

namespace SetReview

variable {α : Type}

theorem Tree.ptr_eq_none {t : Tree α} (h : t.ptr = none) : t = Tree.nil := by
  cases t with
  | nil => rfl
  | node _ _ _ _ _ => cases h

section Lookup

variable [LT α] [DecidableRel (fun a b : α => a < b)]

/-- The node that `erase` unlinks: it has at most one child, it holds the value found
after the exchange, and the exchange keeps the nodes, their colours and the order of the
other values. -/
theorem erasePos_spec (x : α) (T : Tree α) (v : Nat) (hf : T.find x = some v) :
    ∃ ctx u cu ul xv ur, erasePos x T = some (ctx, Tree.node u cu ul xv ur) ∧
      (ul = Tree.nil ∨ ur = Tree.nil) ∧ ¬ x < xv ∧ ¬ xv < x ∧
      (Path.fill ctx (Tree.node u cu ul xv ur)).addrs = T.addrs ∧
      (∃ X Z, T.vals = X ++ xv :: Z ∧
        (Path.before ctx ++ ul.cells ++ ur.cells ++ Path.after ctx).map Prod.snd = X ++ Z) ∧
      (Path.fill ctx (Tree.node u cu ul xv ur)).color = T.color ∧
      (T.RB2 → (Path.fill ctx (Tree.node u cu ul xv ur)).RB2) ∧
      (T.RB3 → (Path.fill ctx (Tree.node u cu ul xv ur)).RB3) := by
  cases hfp : findPath x [] T with
  | none => rw [findPath_none x T [] hfp] at hf; cases hf
  | some res =>
    obtain ⟨pv, n⟩ := res
    obtain ⟨hfill, v', c, l, xv, r, rfl, -, hlt, hgt⟩ := findPath_some x T [] pv n hfp
    simp only [Path.fill_nil] at hfill
    subst hfill
    by_cases hboth : l.ptr ≠ none ∧ r.ptr ≠ none
    · obtain ⟨pm, u, cu, ul, y, h1, h2, h3, -⟩ := maxPath_some l hboth.1
      refine ⟨pm ++ Frame.left v' c y r :: pv, u, cu, ul, xv, Tree.nil, ?_, Or.inr rfl, hlt, hgt,
        ?_, ⟨(Path.before pv ++ Path.before pm ++ ul.cells).map Prod.snd ++ [y],
          (r.cells ++ Path.after pv).map Prod.snd, ?_, ?_⟩, ?_⟩
      · simp only [erasePos, hfp, h1]
        rw [if_pos hboth]
      · rw [← h2]
        simp [Path.addrs_fill, Path.before_append, Path.after_append, Frame.before,
          Frame.after, h3, Path.cells_fill, Tree.addrs]
      · rw [← h2]
        simp [Path.vals_fill, Path.cells_fill, Tree.vals, h3]
      · simp [Path.before_append, Path.after_append, Frame.before, Frame.after, h3]
      · have e1 := Path.RB_fill_congr pv (Tree.node v' c l xv r) (Tree.node v' c l y r) rfl rfl
          id id
        have e2 := Path.RB_fill_congr (pm ++ Frame.left v' c y r :: pv)
          (Tree.node u cu ul y Tree.nil) (Tree.node u cu ul xv Tree.nil) rfl rfl id id
        have e3 : Path.fill (pm ++ Frame.left v' c y r :: pv) (Tree.node u cu ul y Tree.nil) =
            Path.fill pv (Tree.node v' c l y r) := by
          rw [Path.fill_append, h2]
          rfl
        rw [e3] at e2
        exact ⟨e2.1.trans e1.1, fun h => e2.2.1 (e1.2.1 h), fun h => e2.2.2 (e1.2.2 h)⟩
    · refine ⟨pv, v', c, l, xv, r, ?_, ?_, hlt, hgt, rfl,
        ⟨(Path.before pv ++ l.cells).map Prod.snd, (r.cells ++ Path.after pv).map Prod.snd,
          ?_, ?_⟩, rfl, id, id⟩
      · simp only [erasePos, hfp]
        rw [if_neg hboth]
      · by_cases hl : l.ptr = none
        · exact Or.inl (Tree.ptr_eq_none hl)
        · by_cases hr : r.ptr = none
          · exact Or.inr (Tree.ptr_eq_none hr)
          · exact absurd ⟨hl, hr⟩ hboth
      · simp [Path.cells_fill, Tree.vals]
      · simp

end Lookup

end SetReview

namespace SetReview

variable {α : Type}

/-- The nodes of the tree after `replace_with_child`, in order. -/
theorem splice_cells (ctx : Path α) (t T' : Tree α) (h : ctx.splice t = some T') :
    T'.cells = Path.before ctx ++ t.child.cells ++ Path.after ctx := by
  cases t with
  | nil => cases h
  | node a c l v r =>
    simp only [Path.splice] at h
    by_cases hc : c = Color.red
    · subst hc
      simp only [if_true, Option.some.injEq] at h
      rw [← h, Path.cells_fill]
    · simp only [hc, if_false] at h
      cases hch : (Tree.node a c l v r).child with
      | nil =>
        simp only [hch, Option.map_eq_some'] at h
        obtain ⟨q, hq, rfl⟩ := h
        rw [(delFix_same _ _ hq).cells, Path.cells_fill]
      | node b cb bl vb br =>
        simp only [hch, Path.rebalance] at h
        by_cases hb : cb = Color.red
        · simp only [Tree.color_node, hb, if_true, Option.some.injEq] at h
          rw [← h, Path.cells_fill]
          rfl
        · simp only [Tree.color_node, hb, if_false, Option.map_eq_some'] at h
          obtain ⟨q, hq, rfl⟩ := h
          rw [(delFix_same _ _ hq).cells, Path.cells_fill]

namespace Set

/-- The loop `while (u->right) u = u->right` ends at the rightmost node. -/
theorem descend_right_sim : ∀ (k : Nat) (ctx : Path α) (t : Tree α) (s : Set α),
    s.Own (ctx.fill t) → t.ptr ≠ none → t.height < k →
    s.descend_right k t.ptr = some t.rightmost
  | 0, _, _, _, _, _, hk => absurd hk (Nat.not_lt_zero _)
  | k + 1, ctx, Tree.nil, s, _, h, _ => absurd rfl h
  | k + 1, ctx, Tree.node a c l v Tree.nil, s, hO, _, _ => by
    have h2 := node_focus hO
    simp only [Set.descend_right, Tree.ptr_node, h2, bind, Option.bind, Tree.ptr_nil, pure]
    rfl
  | k + 1, ctx, Tree.node a c l v (Tree.node b cb rl vb rr), s, hO, _, hk => by
    have h2 := node_focus hO
    simp only [Tree.height] at hk
    have ih := descend_right_sim k (Frame.right a c l v :: ctx) (Tree.node b cb rl vb rr) s hO
      (by simp) (by simp only [Tree.height]; omega)
    simp only [Tree.ptr_node] at ih
    simp only [Set.descend_right, Tree.ptr_node, h2, bind, Option.bind, ih]
    rfl

section Lookup

variable [LT α] [DecidableRel (fun a b : α => a < b)]

/-- Lines 437-444 of `erase`: the choice of the node to unlink and the exchange of the
values. -/
theorem erase_exchange_sim {s : Set α} {T : Tree α} (hO : s.Own T) (hk : T.height < s.fuel)
    (x : α) (v : Nat) (hf : T.find x = some v) (ctx : Path α) (tu : Tree α)
    (hpos : erasePos x T = some (ctx, tu)) :
    ∃ u nv nu s1 s2, tu.ptr = some u ∧ s.node (some v) = some nv ∧
      (if nv.left ≠ none ∧ nv.right ≠ none then s.descend_right s.fuel nv.left
        else pure (some v) : Option Ptr) = some (some u) ∧
      s.node (some u) = some nu ∧
      s.write (some v) (fun n => { n with value := nu.value }) = some s1 ∧
      s1.write (some u) (fun n => { n with value := nv.value }) = some s2 ∧
      s.Step s2 T.addrs (ctx.fill tu) := by
  cases hfp : findPath x [] T with
  | none => rw [findPath_none x T [] hfp] at hf; cases hf
  | some res =>
    obtain ⟨pv, n⟩ := res
    obtain ⟨hfill, v', c, l, xv, r, rfl, hf2, -, -⟩ := findPath_some x T [] pv n hfp
    simp only [Path.fill_nil] at hfill
    subst hfill
    rw [hf] at hf2
    simp only [Option.some.injEq] at hf2
    subst hf2
    have hnv := node_focus hO
    by_cases hboth : l.ptr ≠ none ∧ r.ptr ≠ none
    · obtain ⟨pm, u, cu, ul, y, h1, h2, h3, h4⟩ := maxPath_some l hboth.1
      simp only [erasePos, hfp, h1] at hpos
      rw [if_pos hboth] at hpos
      simp only [Option.some.injEq, Prod.mk.injEq] at hpos
      obtain ⟨rfl, rfl⟩ := hpos
      have hd := descend_right_sim s.fuel (Frame.left v c xv r :: pv) l s hO hboth.1
        (by
          have := Path.length_le_height (Frame.left v c xv r :: pv) l
          simp only [Path.fill_cons, Frame.plug] at this
          omega)
      rw [h4] at hd
      have e0 : Path.fill (pm ++ Frame.left v c xv r :: pv) (Tree.node u cu ul y Tree.nil) =
          Path.fill pv (Tree.node v c l xv r) := by
        rw [Path.fill_append, h2]
        rfl
      have hnu := @node_focus _ s (pm ++ Frame.left v c xv r :: pv) u cu ul y Tree.nil
        (e0 ▸ hO)
      obtain ⟨s1, e1, m1⟩ := write_sim s pv v c l xv r (fun n => { n with value := y }) c y
        rfl hO
      have ha1 : (Path.fill pv (Tree.node v c l y r)).addrs =
          (Path.fill pv (Tree.node v c l xv r)).addrs := by
        simp [Path.addrs_fill]
      have o1 := m1.toOwn (ha1 ▸ hO.nodup)
      have e2 : Path.fill (pm ++ Frame.left v c y r :: pv) (Tree.node u cu ul y Tree.nil) =
          Path.fill pv (Tree.node v c l y r) := by
        rw [Path.fill_append, h2]
        rfl
      rw [← e2] at o1
      obtain ⟨s2, e3, m2⟩ := write_sim s1 (pm ++ Frame.left v c y r :: pv) u cu ul y Tree.nil
        (fun n => { n with value := xv }) cu xv rfl o1
      refine ⟨u, _, _, s1, s2, rfl, hnv, ?_, hnu, e1, e3, ?_⟩
      · rw [if_pos hboth]
        exact hd
      · refine m1.chain m2 (fun z hz => ?_)
        rw [e2, ha1] at hz
        exact hz
    · simp only [erasePos, hfp] at hpos
      rw [if_neg hboth] at hpos
      simp only [Option.some.injEq, Prod.mk.injEq] at hpos
      obtain ⟨rfl, rfl⟩ := hpos
      obtain ⟨s1, e1, m1⟩ := write_sim s pv v c l xv r (fun n => { n with value := xv }) c xv
        rfl hO
      have o1 := m1.toOwn hO.nodup
      obtain ⟨s2, e2, m2⟩ := write_sim s1 pv v c l xv r (fun n => { n with value := xv }) c xv
        rfl o1
      refine ⟨v, _, _, s1, s2, rfl, hnv, ?_, hnv, e1, e2, m1.chain m2 (fun z hz => hz)⟩
      rw [if_neg hboth]
      rfl

end Lookup

end Set

end SetReview

namespace SetReview

variable {α : Type}

/-- Removing one entry from a list without repetitions. -/
theorem nodup_remove {P Q : List Nat} {u : Nat} (h : (P ++ u :: Q).Nodup) :
    (P ++ Q).Nodup ∧ u ∉ P ++ Q ∧ ∀ z, z ∈ P ++ Q ↔ (z ∈ P ++ u :: Q ∧ z ≠ u) := by
  rw [List.nodup_middle, List.nodup_cons] at h
  refine ⟨h.2, h.1, fun z => ?_⟩
  simp only [List.mem_append, List.mem_cons] at h ⊢
  constructor
  · intro hz
    refine ⟨by tauto, ?_⟩
    rintro rfl
    exact h.1 hz
  · rintro ⟨hz, hne⟩
    tauto

theorem Tree.child_cells {u : Nat} {cu : Color} {ul : Tree α} {xv : α} {ur : Tree α}
    (h : ul = Tree.nil ∨ ur = Tree.nil) :
    (Tree.node u cu ul xv ur).child.cells = ul.cells ++ ur.cells := by
  rcases h with rfl | rfl
  · rfl
  · cases ul
    · rfl
    · simp [Tree.child]

theorem Tree.leftmost_mem {t : Tree α} {a : Nat} (h : t.leftmost = some a) : a ∈ t.addrs := by
  rw [Tree.leftmost_eq_head] at h
  exact List.mem_of_mem_head? h

namespace Set

section Lookup

variable [LT α] [DecidableRel (fun a b : α => a < b)]

/-- The function `erase` on a value that is not found. -/
theorem erase_absent {s : Set α} {T : Tree α} (hS : s.Shape T) (x : α)
    (hf : T.find x = none) : s.erase x = some s := by
  simp only [Set.erase, find_eq hS x, hf, bind, Option.bind, Set.end, if_true, pure]

/-- The function `erase` on a value that is found: it computes `Path.splice` at the
position chosen by `erasePos`. -/
theorem erase_found {s : Set α} {T : Tree α} (hS : s.Shape T) (x : α) (v : Nat)
    (hf : T.find x = some v) (ctx : Path α) (u : Nat) (cu : Color) (ul : Tree α) (xv : α)
    (ur : Tree α) (T' : Tree α)
    (hpos : erasePos x T = some (ctx, Tree.node u cu ul xv ur))
    (hT : ctx.splice (Tree.node u cu ul xv ur) = some T') :
    ∃ s', s.erase x = some s' ∧ s'.Shape T' ∧ s'._size = s._size - 1 ∧ s'.fresh = s.fresh ∧
      s'._begin = (if s._begin = some u then T'.leftmost else s._begin) ∧
      T'.cells = Path.before ctx ++ ul.cells ++ ur.cells ++ Path.after ctx ∧
      T.addrs = (Path.before ctx ++ ul.cells).map Prod.fst ++
        u :: (ur.cells ++ Path.after ctx).map Prod.fst ∧ s'.heap u = none := by
  obtain ⟨ctx0, u0, cu0, ul0, xv0, ur0, h0, hchild, -, -, haddrs, -, -, -, -⟩ :=
    erasePos_spec x T v hf
  rw [hpos] at h0
  simp only [Option.some.injEq, Prod.mk.injEq, Tree.node.injEq] at h0
  obtain ⟨rfl, rfl, rfl, rfl, rfl, rfl⟩ := h0
  have hO0 : ({ s with _size := s._size - 1 } : Set α).Own T := ⟨hS.repr, hS.root, hS.nodup⟩
  have hk0 : T.height < ({ s with _size := s._size - 1 } : Set α).fuel :=
    @height_lt_fuel _ s T hS.nodup hS.bound
  obtain ⟨u', nv, nu, s1, s2, hu', e1, e2, e3, e4, e5, m12⟩ :=
    erase_exchange_sim hO0 hk0 x v hf ctx _ hpos
  simp only [Tree.ptr_node, Option.some.injEq] at hu'
  subst hu'
  have o2 := m12.toOwn (haddrs ▸ hS.nodup)
  have hb2 : ∀ z ∈ (Path.fill ctx (Tree.node u cu ul xv ur)).addrs, z < s2.fresh := by
    intro z hz
    rw [m12.fresh]
    exact hS.bound z (haddrs ▸ hz)
  have hlen : ctx.length < s2.fuel := by
    have h1 := Path.length_le_height ctx (Tree.node u cu ul xv ur)
    have h2 := height_lt_fuel o2.nodup hb2
    omega
  obtain ⟨s3, e6, m3, nlive, hlive⟩ := replace_with_child_sim s2 ctx u cu ul xv ur T' o2 hT hlen
  have hcells := splice_cells ctx _ T' hT
  rw [Tree.child_cells hchild, ← List.append_assoc] at hcells
  have hA : T.addrs = (Path.before ctx ++ ul.cells).map Prod.fst ++
      u :: (ur.cells ++ Path.after ctx).map Prod.fst := by
    rw [← haddrs]
    simp [Path.cells_fill, Tree.addrs]
  have hA' : T'.addrs = (Path.before ctx ++ ul.cells).map Prod.fst ++
      (ur.cells ++ Path.after ctx).map Prod.fst := by
    simp [Tree.addrs, hcells]
  have hN := hS.nodup
  rw [hA] at hN
  obtain ⟨hN', huT, hmem⟩ := nodup_remove hN
  rw [← hA'] at hN' huT
  have hsub : ∀ z ∈ T'.addrs, z ∈ T.addrs := by
    intro z hz
    rw [hA'] at hz
    rw [hA]
    exact ((hmem z).1 hz).1
  obtain ⟨s4, e7, hheap4, hroot4, hfresh4, hbegin4, hsize4⟩ : ∃ s4 : Set α,
      s3.delete (some u) = some s4 ∧ s4.heap = Function.update s3.heap u none ∧
      s4._root = s3._root ∧ s4.fresh = s3.fresh ∧ s4._begin = s3._begin ∧
      s4._size = s3._size :=
    ⟨{ s3 with heap := Function.update s3.heap u none }, by simp only [Set.delete, hlive],
      rfl, rfl, rfl, rfl, rfl⟩
  have hfresh : s4.fresh = s.fresh := by rw [hfresh4, m3.fresh, m12.fresh]
  have hbegin : s4._begin = s._begin := by rw [hbegin4, m3.begin_eq, m12.begin_eq]
  have hsize : s4._size = s._size - 1 := by rw [hsize4, m3.size_eq, m12.size_eq]
  have hroot : s4._root = T'.ptr := by rw [hroot4, m3.root]
  have hR4 : Tree.Repr s4.heap none T' := by
    rw [hheap4]
    exact (Tree.repr_update huT).2 m3.repr
  have hb4 : ∀ z ∈ T'.addrs, z < s4.fresh := by
    intro z hz
    rw [hfresh]
    exact hS.bound z (hsub z hz)
  have hfree : s4.heap u = none := by
    rw [hheap4]
    exact Function.update_same _ _ _
  by_cases hb : s._begin = some u
  · have hdl : ∀ a, s4._root = some a → s4.descend_left s4.fuel (some a) = some T'.leftmost := by
      intro a ha
      rw [hroot] at ha
      cases hT' : T' with
      | nil => rw [hT'] at ha; cases ha
      | node a' c l w r =>
        have o4 : s4.Own (Path.fill [] (Tree.node a' c l w r)) := by
          rw [Path.fill_nil, ← hT']
          exact ⟨hR4, hroot, hN'⟩
        rw [hT'] at ha
        rw [← ha]
        exact descend_left_sim s4.fuel [] (Tree.node a' c l w r) s4 o4 (by simp) (by
            rw [← hT']
            exact height_lt_fuel hN' hb4)
    have hnil : s4._root = none → T'.leftmost = none := by
      intro h
      rw [hroot] at h
      rw [Tree.ptr_eq_none h]
      rfl
    refine ⟨{ s4 with _begin := T'.leftmost },
      ?_, ⟨hR4, hroot, hN', hb4, ?_⟩, hsize, hfresh, ?_, hcells, hA, hfree⟩
    · rw [← hbegin] at hb
      simp only [pure] at e2
      simp only [Set.erase, find_eq hS x, hf, bind, Option.bind, Set.end, reduceCtorEq,
        if_false, e1, e2, e3, e4, e5, e6, e7, hb, if_true, pure]
      cases hr4 : s4._root with
      | none => simp only [hnil hr4]
      | some a => simp only [hdl a hr4]
    · intro a ha
      exact Tree.leftmost_mem ha
    · simp only [hb, if_true]
  · refine ⟨s4, ?_, ⟨hR4, hroot, hN', hb4, ?_⟩, hsize, hfresh, ?_, hcells, hA, hfree⟩
    · rw [← hbegin] at hb
      simp only [pure] at e2
      simp only [Set.erase, find_eq hS x, hf, bind, Option.bind, Set.end, reduceCtorEq,
        if_false, e1, e2, e3, e4, e5, e6, e7, hb, pure]
    · intro a ha
      have ha' : s._begin = some a := hbegin ▸ ha
      have hne : a ≠ u := fun e => hb (e ▸ ha')
      have h1 := hS.begin_live a ha'
      rw [hA] at h1
      rw [hA']
      exact (hmem a).2 ⟨h1, hne⟩
    · simp only [hb, if_false]
      exact hbegin

end Lookup

end Set

end SetReview

namespace SetReview

variable {α : Type}

/-! ## The rebalancing after a removal restores the red-black invariants -/

theorem Path.rootBlack_cons (f : Frame α) (up : Path α) :
    Path.RootBlack (f :: up) ↔ (up = [] → f.color = Color.black) ∧ Path.RootBlack up := by
  cases up <;> simp [Path.RootBlack]

theorem Tree.color_of_bh_zero {t : Tree α} (h : t.bh = 0) (hc : t.color = Color.black) :
    t = Tree.nil := by
  cases t with
  | nil => rfl
  | node a c l v r =>
    simp only [Tree.color_node] at hc
    subst hc
    simp at h

/-- The red-sibling step keeps the invariants and makes the sibling black. -/
theorem eraseRed_inv {f : Frame α} {up : Path α} {n : Nat} (hs : f.sibling.color = Color.red)
    (h : Path.Inv (f :: up) (n + 1)) :
    ∃ f1 up1, eraseRed f up = f1 :: up1 ∧ Path.Inv (f1 :: up1) (n + 1) ∧
      f1.sibling.color = Color.black ∧ f1.color = Color.red := by
  obtain ⟨h2, h3, hr⟩ := h
  cases f with
  | left p cp vp sib =>
    cases sib with
    | nil => cases hs
    | node b cb bl vb br =>
      simp only [Frame.sibling, Tree.color_node] at hs
      subst hs
      refine ⟨_, _, rfl, ?_, ?_, rfl⟩
      · cases cp with
        | red => simp_all [Path.Inv, Path.rootBlack_cons, Frame.sibling, Frame.color]
        | black =>
          simp_all [Path.Inv, Path.rootBlack_cons, Frame.sibling, Frame.color]
          omega
      · simp_all [Frame.sibling, Frame.color]
  | right p cp sib vp =>
    cases sib with
    | nil => cases hs
    | node b cb bl vb br =>
      simp only [Frame.sibling, Tree.color_node] at hs
      subst hs
      refine ⟨_, _, rfl, ?_, ?_, rfl⟩
      · cases cp with
        | red => simp_all [Path.Inv, Path.rootBlack_cons, Frame.sibling, Frame.color]
        | black =>
          simp_all [Path.Inv, Path.rootBlack_cons, Frame.sibling, Frame.color]
          omega
      · simp_all [Frame.sibling, Frame.color]

/-- The steps after the red-sibling step restore the invariants, unless the parent, the
sibling and its children are all black. -/
theorem eraseLocal_inv {f : Frame α} {up : Path α} {n : Nat}
    (hs : f.sibling.color = Color.black) (h : Path.Inv (f :: up) (n + 1)) :
    (∃ q, eraseLocal f up = some (some q) ∧ Path.Inv q n) ∨
    (eraseLocal f up = some none ∧ f.color = Color.black ∧
      ∃ b cb bl vb br, f.sibling = Tree.node b cb bl vb br ∧
        ∀ up2, Path.Inv up2 (n + 1) →
          Path.Inv (f.setSibling (Tree.node b Color.red bl vb br) :: up2) n) := by
  obtain ⟨h2, h3, hr⟩ := h
  cases f with
  | left p cp vp sib =>
    cases sib with
    | nil => simp [Frame.sibling] at h3
    | node b cb bl vb br =>
      simp only [Frame.sibling, Tree.color_node] at hs
      subst hs
      by_cases hbb : bl.color = Color.black ∧ br.color = Color.black
      · cases cp with
        | black =>
          refine Or.inr ⟨by simp [eraseLocal, Frame.sibling, Frame.color, hbb], rfl,
            b, _, bl, vb, br, rfl, ?_⟩
          intro up2 hu
          simp_all [Path.Inv, Path.rootBlack_cons, Frame.sibling, Frame.color,
            Frame.setSibling]
          omega
        | red =>
          refine Or.inl ⟨Frame.left p Color.black vp (Tree.node b Color.red bl vb br) :: up,
            by simp [eraseLocal, Frame.sibling, Frame.color, hbb, Frame.setSibling,
              Frame.setColor], ?_⟩
          simp_all [Path.Inv, Path.rootBlack_cons, Frame.sibling, Frame.color]
          omega
      · by_cases hbr : br.color = Color.black
        · cases bl with
          | nil => simp [hbr] at hbb
          | node c cc cl vc cr =>
            have hcc : cc = Color.red := Color.eq_red_of_ne_black (fun e => hbb ⟨e, hbr⟩)
            subst hcc
            refine Or.inl ⟨Frame.left p Color.black vp cl ::
              Frame.left c cp vc (Tree.node b Color.black cr vb br) :: up,
              by simp [eraseLocal, eraseInner, eraseOuter, Frame.sibling, Frame.color, hbr,
                Tree.setColor], ?_⟩
            cases cp <;>
              simp_all [Path.Inv, Path.rootBlack_cons, Frame.sibling, Frame.color] <;> omega
        · cases br with
          | nil => simp at hbr
          | node c cc cl vc cr =>
            have hcc : cc = Color.red := Color.eq_red_of_ne_black hbr
            subst hcc
            refine Or.inl ⟨Frame.left p Color.black vp bl ::
              Frame.left b cp vb (Tree.node c Color.black cl vc cr) :: up,
              by simp [eraseLocal, eraseInner, eraseOuter, Frame.sibling, Frame.color,
                Tree.setColor], ?_⟩
            cases cp <;>
              simp_all [Path.Inv, Path.rootBlack_cons, Frame.sibling, Frame.color] <;> omega
  | right p cp sib vp =>
    cases sib with
    | nil => simp [Frame.sibling] at h3
    | node b cb bl vb br =>
      simp only [Frame.sibling, Tree.color_node] at hs
      subst hs
      by_cases hbb : bl.color = Color.black ∧ br.color = Color.black
      · cases cp with
        | black =>
          refine Or.inr ⟨by simp [eraseLocal, Frame.sibling, Frame.color, hbb], rfl,
            b, _, bl, vb, br, rfl, ?_⟩
          intro up2 hu
          simp_all [Path.Inv, Path.rootBlack_cons, Frame.sibling, Frame.color,
            Frame.setSibling]
          omega
        | red =>
          refine Or.inl ⟨Frame.right p Color.black (Tree.node b Color.red bl vb br) vp :: up,
            by simp [eraseLocal, Frame.sibling, Frame.color, hbb, Frame.setSibling,
              Frame.setColor], ?_⟩
          simp_all [Path.Inv, Path.rootBlack_cons, Frame.sibling, Frame.color]
          omega
      · by_cases hbl : bl.color = Color.black
        · cases br with
          | nil => simp [hbl] at hbb
          | node c cc cl vc cr =>
            have hcc : cc = Color.red := Color.eq_red_of_ne_black (fun e => hbb ⟨hbl, e⟩)
            subst hcc
            refine Or.inl ⟨Frame.right p Color.black cr vp ::
              Frame.right c cp (Tree.node b Color.black bl vb cl) vc :: up,
              by simp [eraseLocal, eraseInner, eraseOuter, Frame.sibling, Frame.color, hbl,
                Tree.setColor], ?_⟩
            cases cp <;>
              simp_all [Path.Inv, Path.rootBlack_cons, Frame.sibling, Frame.color] <;> omega
        · cases bl with
          | nil => simp at hbl
          | node c cc cl vc cr =>
            have hcc : cc = Color.red := Color.eq_red_of_ne_black hbl
            subst hcc
            refine Or.inl ⟨Frame.right p Color.black br vp ::
              Frame.right b cp (Tree.node c Color.black cl vc cr) vb :: up,
              by simp [eraseLocal, eraseInner, eraseOuter, Frame.sibling, Frame.color,
                Tree.setColor], ?_⟩
            cases cp <;>
              simp_all [Path.Inv, Path.rootBlack_cons, Frame.sibling, Frame.color] <;> omega

/-- The rebalancing around a black node whose subtree lacks one black node restores the
invariants; in particular it never fails. -/
theorem delFix_inv : ∀ (ctx : Path α) (n : Nat), Path.Inv ctx (n + 1) →
    ∃ q, delFix ctx = some q ∧ Path.Inv q n
  | [], _, _ => ⟨[], rfl, trivial, trivial, trivial⟩
  | f :: up, n, h => by
    by_cases hs : f.sibling.color = Color.red
    · obtain ⟨f1, up1, e1, h1, hs1, hc1⟩ := eraseRed_inv hs h
      rcases eraseLocal_inv hs1 h1 with ⟨q, e2, hq⟩ | ⟨-, hc, -⟩
      · exact ⟨q, by simp only [delFix, hs, if_true, e1, e2], hq⟩
      · rw [hc1] at hc
        cases hc
    · have hs2 := Color.eq_black_of_ne_red hs
      rcases eraseLocal_inv hs2 h with ⟨q, e2, hq⟩ | ⟨e2, hc, b, cb, bl, vb, br, hsib, hq⟩
      · exact ⟨q, by simp only [delFix, hs, if_false, e2], hq⟩
      · have hup : Path.Inv up (n + 1 + 1) := by
          obtain ⟨h2, h3, hr⟩ := h
          simp only [Path.RB2_cons, Path.RB3_cons, hc, if_true] at h2 h3
          exact ⟨h2.2.2, h3.2.2, Path.rootBlack_tail hr⟩
        obtain ⟨up2, e3, h3⟩ := delFix_inv up (n + 1) hup
        have e4 : delFix (f :: up) =
            some (f.setSibling (Tree.node b Color.red bl vb br) :: up2) := by
          rw [delFix, if_neg hs]
          simp only [e2, e3, hsib]
        exact ⟨_, e4, hq up2 h3⟩

theorem Path.color_fill_black (p : Path α) (t : Tree α) (hp : p.RootBlack)
    (ht : t.color = Color.black) : (p.fill t).color = Color.black := by
  cases p with
  | nil => exact ht
  | cons f up => exact Path.color_fill_of_rootBlack _ _ (by simp) hp

theorem Path.rootBlack_of_RB1 (p : Path α) (t : Tree α) (h : (p.fill t).RB1) :
    p.RootBlack := by
  cases p with
  | nil => trivial
  | cons f up => exact Path.rootBlack_of_fill _ t (by simp) h

/-- Unlinking a node with at most one child keeps the red-black invariants; in particular
`replace_with_child` never fails on such a node. -/
theorem splice_RB (ctx : Path α) (a : Nat) (c : Color) (l : Tree α) (v : α) (r : Tree α)
    (hch : l = Tree.nil ∨ r = Tree.nil)
    (h1 : (ctx.fill (Tree.node a c l v r)).RB1) (h2 : (ctx.fill (Tree.node a c l v r)).RB2)
    (h3 : (ctx.fill (Tree.node a c l v r)).RB3) :
    ∃ T', ctx.splice (Tree.node a c l v r) = some T' ∧ T'.RB1 ∧ T'.RB2 ∧ T'.RB3 := by
  have hr := Path.rootBlack_of_RB1 _ _ h1
  obtain ⟨t2, p2, pc⟩ := (Path.RB2_fill _ _).1 h2
  obtain ⟨t3, p3⟩ := (Path.RB3_fill _ _).1 h3
  simp only [Tree.RB2_node, Tree.RB3_node, Tree.bh_node, Tree.color_node] at t2 t3 p3 pc
  cases c with
  | red =>
    have hl : l = Tree.nil := by
      rcases hch with h | h
      · exact h
      · rw [h] at t3
        exact Tree.color_of_bh_zero t3.1 (t2.1 rfl).1
    have hr2 : r = Tree.nil := by
      rw [hl] at t3
      exact Tree.color_of_bh_zero t3.1.symm (t2.1 rfl).2
    subst hl hr2
    refine ⟨_, rfl, ?_, ?_, ?_⟩
    · exact Path.color_fill_black _ _ hr rfl
    · exact (Path.RB2_fill _ _).2 ⟨trivial, p2, fun _ => rfl⟩
    · exact (Path.RB3_fill _ _).2 ⟨trivial, by simpa using p3⟩
  | black =>
    cases hch2 : (Tree.node a Color.black l v r).child with
    | nil =>
      have hl : l = Tree.nil := by
        cases l with
        | nil => rfl
        | node _ _ _ _ _ => cases hch2
      subst hl
      have hr2 : r = Tree.nil := hch2
      subst hr2
      obtain ⟨q, hq, q2, q3, qr⟩ := delFix_inv ctx 0 ⟨p2, by simpa using p3, hr⟩
      refine ⟨q.fill Tree.nil, ?_, ?_, ?_, ?_⟩
      · simp only [Path.splice, reduceCtorEq, if_false, hch2, hq, Option.map_some']
      · exact Path.color_fill_black _ _ qr rfl
      · exact (Path.RB2_fill _ _).2 ⟨trivial, q2, fun _ => rfl⟩
      · exact (Path.RB3_fill _ _).2 ⟨trivial, q3⟩
    | node b cb bl vb br =>
      have hb0 : (Tree.node b cb bl vb br).bh = 0 ∧ (Tree.node b cb bl vb br).RB2 ∧
          (Tree.node b cb bl vb br).RB3 ∧ l.bh = 0 := by
        rcases hch with h | h
        · subst h
          have e : r = Tree.node b cb bl vb br := hch2
          subst e
          exact ⟨t3.1.symm, t2.2.2, t3.2.2, rfl⟩
        · subst h
          cases l with
          | nil => cases hch2
          | node b' cb' bl' vb' br' =>
            have e : Tree.node b' cb' bl' vb' br' = Tree.node b cb bl vb br := hch2
            rw [e] at t2 t3
            exact ⟨t3.1, t2.2.1, t3.2.1, e ▸ t3.1⟩
      obtain ⟨c0, c2, c3, l0⟩ := hb0
      have hcb : cb = Color.red := by
        cases cb with
        | red => rfl
        | black => simp at c0
      subst hcb
      simp only [Tree.bh_node, reduceCtorEq, if_false, Nat.add_zero] at c0
      simp only [Tree.RB2_node, Tree.RB3_node] at c2 c3
      refine ⟨ctx.fill (Tree.node b Color.black bl vb br), ?_, ?_, ?_, ?_⟩
      · simp only [Path.splice, reduceCtorEq, if_false, hch2, Path.rebalance, Tree.color_node,
          if_true, Tree.setColor]
      · exact Path.color_fill_black _ _ hr rfl
      · exact (Path.RB2_fill _ _).2 ⟨by simp [c2.2], p2, fun _ => rfl⟩
      · refine (Path.RB3_fill _ _).2 ⟨by simp [c3], ?_⟩
        simpa [c0, l0] using p3

end SetReview

namespace SetReview

variable {α : Type}

/-! ## What `insert` does to a valid set -/

/-- In a list of nodes with distinct addresses an address determines the value. -/
theorem cells_value_unique : ∀ {l : List (Nat × α)}, (l.map Prod.fst).Nodup →
    ∀ {a : Nat} {b b' : α}, (a, b) ∈ l → (a, b') ∈ l → b = b'
  | [], _, _, _, _, h, _ => by cases h
  | (a0, b0) :: l, hn, a, b, b', h1, h2 => by
    simp only [List.map_cons, List.nodup_cons, List.mem_map, Prod.exists, exists_and_right,
      exists_eq_right, not_exists] at hn
    simp only [List.mem_cons, Prod.mk.injEq] at h1 h2
    rcases h1 with ⟨rfl, rfl⟩ | h1
    · rcases h2 with ⟨-, rfl⟩ | h2
      · rfl
      · exact absurd h2 (hn.1 b')
    · rcases h2 with ⟨rfl, rfl⟩ | h2
      · exact absurd h1 (hn.1 b)
      · exact cells_value_unique hn.2 h1 h2

theorem Tree.mem_addrs_of_mem_cells {t : Tree α} {a : Nat} {v : α} (h : (a, v) ∈ t.cells) :
    a ∈ t.addrs :=
  List.mem_map.2 ⟨(a, v), h, rfl⟩

namespace Set

section Order

variable [LT α] [DecidableRel (fun a b : α => a < b)]

/-- The function `insert` on a valid set: either an equivalent value is present and
nothing changes, or a node with the value is added at the place found by the descent,
the set stays valid, and `_begin` is reassigned from the place of the new node exactly
when the test of line 427 succeeds on the moved-from value. -/
theorem insert_full [IsTrans α (fun a b : α => a < b)] (moved : α → α) (s : Set α)
    (T : Tree α) (x : α) (hS : s.Shape T) (hb : T.BST) (h1 : T.RB1) (h2 : T.RB2)
    (h3 : T.RB3) :
    (∃ a v, T.find x = some a ∧ (a, v) ∈ T.cells ∧ ¬ x < v ∧ ¬ v < x ∧
      s.insert moved x = some s) ∨
    (∃ p s' T' c, insPath x [] T = some p ∧ s.insert moved x = some s' ∧ s'.Shape T' ∧
      T'.BST ∧ T'.RB1 ∧ T'.RB2 ∧ T'.RB3 ∧
      insFix p (Tree.node s.fresh Color.red Tree.nil x Tree.nil) = some T' ∧
      T.cells = Path.before p ++ Path.after p ∧
      T'.cells = Path.before p ++ (s.fresh, x) :: Path.after p ∧
      (∀ y ∈ (Path.before p).map Prod.snd, y < x) ∧
      (∀ y ∈ (Path.after p).map Prod.snd, x < y) ∧
      s'._size = s._size + 1 ∧ s'.fresh = s.fresh + 1 ∧ s'.slot_get (Path.slot p) = some c ∧
      ((s._begin = none ∨ ∃ z v, s._begin = some z ∧ (z, v) ∈ T.cells ∧ moved x < v) →
        s'._begin = c) ∧
      (¬ (s._begin = none ∨ ∃ z v, s._begin = some z ∧ (z, v) ∈ T.cells ∧ moved x < v) →
        s'._begin = s._begin)) := by
  have hspec := insert_spec moved s T x hS h1
  cases hp : insPath x [] T with
  | none =>
    rw [hp] at hspec
    obtain ⟨a, v, e1, e2, e3, e4⟩ := insPath_none x T [] hp
    exact Or.inl ⟨a, v, e1, e2, e3, e4, hspec⟩
  | some p =>
    rw [hp] at hspec
    obtain ⟨s3, T', c, hF, hO3, hbeg, hsz, hfr, -, hslot, hclive, b, hbiff, hins⟩ := hspec
    have hfill : Path.fill p Tree.nil = T := insPath_fill x T [] p hp
    have hc : T.cells = Path.before p ++ Path.after p := by
      rw [← hfill, Path.cells_fill]
      simp
    have hc' : T'.cells = Path.before p ++ (s.fresh, x) :: Path.after p := by
      rw [insFix_cells p _ T' hF, Path.cells_fill]
      simp
    obtain ⟨hlo, hhi⟩ := insPath_bounds x T [] p hp hb (by simp) (by simp)
    have hbst : T'.BST := by
      rw [Tree.BST_iff_sorted] at hb ⊢
      simp only [Tree.vals, hc, hc', List.map_append, List.map_cons, List.pairwise_append,
        List.pairwise_cons] at hb ⊢
      refine ⟨hb.1, ⟨hhi, hb.2.1⟩, ?_⟩
      intro y hy z hz
      simp only [List.mem_cons] at hz
      rcases hz with rfl | hz
      · exact hlo y hy
      · exact hb.2.2 y hy z hz
    rw [← hfill] at h1 h2 h3
    obtain ⟨-, p2, -⟩ := (Path.RB2_fill _ _).1 h2
    obtain ⟨-, p3⟩ := (Path.RB3_fill _ _).1 h3
    have hrb := insFix_RB p _ T' hF rfl (by simp) (by simp) p2 (by simpa using p3)
      (Path.rootBlack_of_RB1 p _ h1)
    have hsub : ∀ z, z ∈ T.addrs → z ∈ T'.addrs := by
      intro z hz
      simp only [Tree.addrs, hc, hc', List.map_append, List.map_cons, List.mem_append,
        List.mem_cons] at hz ⊢
      tauto
    have hbound : ∀ z ∈ T'.addrs, z < s3.fresh := by
      intro z hz
      rw [hfr]
      simp only [Tree.addrs, hc', List.map_append, List.map_cons, List.mem_append,
        List.mem_cons] at hz
      have hT : ∀ w, w ∈ T.addrs → w < s.fresh := hS.bound
      simp only [Tree.addrs, hc, List.map_append, List.mem_append] at hT
      rcases hz with hz | rfl | hz
      · exact Nat.lt_succ_of_lt (hT z (Or.inl hz))
      · exact Nat.lt_succ_self _
      · exact Nat.lt_succ_of_lt (hT z (Or.inr hz))
    have hiff : (s._begin = none ∨ ∃ z n, s._begin = some z ∧ s3.heap z = some n ∧
        moved x < n.value) ↔
        (s._begin = none ∨ ∃ z v, s._begin = some z ∧ (z, v) ∈ T.cells ∧ moved x < v) := by
      refine or_congr Iff.rfl ?_
      constructor
      · rintro ⟨z, n, hz, hn, hlt⟩
        refine ⟨z, n.value, hz, ?_, hlt⟩
        have hzT := hS.begin_live z hz
        obtain ⟨n', e1, e2, -, -⟩ := Tree.repr_mem hO3.repr (hsub z hzT)
        rw [hn] at e1
        simp only [Option.some.injEq] at e1
        subst e1
        have hne : z ≠ s.fresh := Nat.ne_of_lt (hS.bound z hzT)
        simp only [hc', List.mem_append, List.mem_cons, Prod.mk.injEq, hne, false_and,
          false_or] at e2
        simp only [hc, List.mem_append]
        exact e2
      · rintro ⟨z, v, hz, hv, hlt⟩
        have hzT := hS.begin_live z hz
        obtain ⟨n', e1, e2, -, -⟩ := Tree.repr_mem hO3.repr (hsub z hzT)
        have hv' : (z, v) ∈ T'.cells := by
          simp only [hc, hc', List.mem_append, List.mem_cons] at hv ⊢
          tauto
        have := cells_value_unique hO3.nodup e2 hv'
        exact ⟨z, n', hz, e1, this ▸ hlt⟩
    rw [hiff] at hbiff
    cases b with
    | true =>
      simp only [if_true] at hins
      have hcond := hbiff.1 rfl
      refine Or.inr ⟨p, _, T', c, rfl, hins, ⟨hO3.repr, hO3.root, hO3.nodup, hbound, hclive⟩,
        hbst, hrb.1, hrb.2.1, hrb.2.2, hF, hc, hc', hlo, hhi, hsz, hfr, hslot,
        fun _ => rfl, fun h => absurd hcond h⟩
    | false =>
      simp only [Bool.false_eq_true, if_false] at hins
      have hcond : ¬ (s._begin = none ∨ ∃ z v, s._begin = some z ∧ (z, v) ∈ T.cells ∧
          moved x < v) := fun h => Bool.noConfusion (hbiff.2 h)
      refine Or.inr ⟨p, _, T', c, rfl, hins, ⟨hO3.repr, hO3.root, hO3.nodup, hbound, ?_⟩,
        hbst, hrb.1, hrb.2.1, hrb.2.2, hF, hc, hc', hlo, hhi, hsz, hfr, hslot,
        fun h => absurd h hcond, fun _ => hbeg⟩
      intro a ha
      rw [hbeg] at ha
      exact hsub a (hS.begin_live a ha)

end Order

end Set

end SetReview

namespace SetReview

variable {α : Type}

/-! ## What `erase` does to a valid set -/

namespace Set

section Order

variable [LT α] [DecidableRel (fun a b : α => a < b)]

/-- The function `erase` on a valid set: either no equivalent value is present and
nothing changes, or one node is removed, the value found leaves the in-order sequence,
the set stays valid, and `_begin` is recomputed when it referenced the removed node. -/
theorem erase_full [IsTrans α (fun a b : α => a < b)] (s : Set α) (T : Tree α) (x : α)
    (hS : s.Shape T) (hb : T.BST) (h1 : T.RB1) (h2 : T.RB2) (h3 : T.RB3) :
    (T.find x = none ∧ (∀ y ∈ T.vals, x < y ∨ y < x) ∧ s.erase x = some s) ∨
    (∃ s' T' v u X xv Z P Q, T.find x = some v ∧ s.erase x = some s' ∧ s'.Shape T' ∧
      T'.BST ∧ T'.RB1 ∧ T'.RB2 ∧
      T'.RB3 ∧ T.vals = X ++ xv :: Z ∧ T'.vals = X ++ Z ∧ ¬ x < xv ∧ ¬ xv < x ∧
      T.addrs = P ++ u :: Q ∧ T'.addrs = P ++ Q ∧
      s'._size = s._size - 1 ∧ s'.fresh = s.fresh ∧
      s'._begin = (if s._begin = some u then T'.leftmost else s._begin)) := by
  cases hf : T.find x with
  | none => exact Or.inl ⟨rfl, Tree.find_none x T hb hf, erase_absent hS x hf⟩
  | some v =>
    obtain ⟨ctx, u, cu, ul, xv, ur, hpos, hch, hlt, hgt, -, ⟨X, Z, hv, hv'⟩, hcol, hrb2,
      hrb3⟩ := erasePos_spec x T v hf
    obtain ⟨T', hT, r1, r2, r3⟩ := splice_RB ctx u cu ul xv ur hch
      (by rw [Tree.RB1, hcol]; exact h1) (hrb2 h2) (hrb3 h3)
    obtain ⟨s', e, hS', hsz, hfr, hbg, hcells, hA, -⟩ :=
      erase_found hS x v hf ctx u cu ul xv ur T' hpos hT
    have hvals : T'.vals = X ++ Z := by
      rw [Tree.vals, hcells]
      exact hv'
    have hbst : T'.BST := by
      rw [Tree.BST_iff_sorted] at hb ⊢
      rw [hvals]
      rw [hv] at hb
      exact hb.sublist
        (List.Sublist.append_left (List.sublist_cons_self xv Z) X)
    refine Or.inr ⟨s', T', v, u, X, xv, Z, _, _, rfl, e, hS', hbst, r1, r2, r3, hv, hvals, hlt, hgt,
      hA, ?_, hsz, hfr, hbg⟩
    simp [Tree.addrs, hcells]

end Order

end Set

end SetReview

namespace SetReview

variable {α : Type}

/-! ## The function `clear` -/

namespace Set

/-- The recursive `clear(Node*)` deletes the nodes of a subtree and touches nothing else. -/
theorem clear_node_sim : ∀ (k : Nat) (t : Tree α) (s : Set α) (par : Ptr),
    Tree.Repr s.heap par t → t.addrs.Nodup → t.height < k →
    ∃ s', s.clear_node k t.ptr = some s' ∧ s'._root = s._root ∧ s'.fresh = s.fresh ∧
      s'._begin = s._begin ∧ s'._size = s._size ∧ (∀ z, z ∉ t.addrs → s'.heap z = s.heap z) ∧
      ∀ z, z ∈ t.addrs → s'.heap z = none
  | 0, _, _, _, _, _, hk => absurd hk (Nat.not_lt_zero _)
  | k + 1, Tree.nil, s, _, _, _, _ =>
    ⟨s, rfl, rfl, rfl, rfl, rfl, fun _ _ => rfl, fun z hz => by simp at hz⟩
  | k + 1, Tree.node a c l v r, s, par, hr, hn, hk => by
    simp only [Tree.repr_node] at hr
    simp only [Tree.addrs_node] at hn
    obtain ⟨hnl, hnr, hd⟩ := List.nodup_append.1 hn
    obtain ⟨har, hnr⟩ := List.nodup_cons.1 hnr
    have hal : a ∉ l.addrs := fun h => hd h (by simp)
    simp only [Tree.height] at hk
    obtain ⟨s1, e1, r1, f1, b1, n1, m1, d1⟩ := clear_node_sim k l s (some a) hr.2.1 hnl
      (by omega)
    have hr1 : Tree.Repr s1.heap (some a) r :=
      Tree.repr_congr (fun z hz => m1 z (fun h => hd h (by simp [hz]))) hr.2.2
    obtain ⟨s2, e2, r2, f2, b2, n2, m2, d2⟩ := clear_node_sim k r s1 (some a) hr1 hnr
      (by omega)
    have ha1 : s1.heap a = some ⟨v, l.ptr, r.ptr, par, c⟩ := by rw [m1 a hal]; exact hr.1
    have ha2 : s2.heap a = some ⟨v, l.ptr, r.ptr, par, c⟩ := by rw [m2 a har]; exact ha1
    refine ⟨{ s2 with heap := Function.update s2.heap a none }, ?_, ?_, ?_, ?_, ?_, ?_, ?_⟩
    · simp only [Set.clear_node, Tree.ptr_node, Set.node, hr.1, bind, Option.bind, e1, ha1,
        e2, Set.delete, ha2]
    · exact r2.trans r1
    · exact f2.trans f1
    · exact b2.trans b1
    · exact n2.trans n1
    · intro z hz
      simp only [Tree.addrs_node, List.mem_append, List.mem_cons, not_or] at hz
      simp only [Function.update_noteq hz.2.1]
      rw [m2 z hz.2.2, m1 z hz.1]
    · intro z hz
      simp only [Tree.addrs_node, List.mem_append, List.mem_cons] at hz
      by_cases hza : z = a
      · subst hza
        simp only [Function.update_same]
      · simp only [Function.update_noteq hza]
        rcases hz with hz | hz | hz
        · rw [m2 z (fun h => hd hz (by simp [h]))]
          exact d1 z hz
        · exact absurd hz hza
        · exact d2 z hz

/-- The function `clear` on a well-formed set: every node is deleted and the set is the
empty set. -/
theorem clear_full {s : Set α} {T : Tree α} (hS : s.Shape T) :
    ∃ s', s.clear = some s' ∧ s'.Shape Tree.nil ∧ s'._root = none ∧ s'._begin = none ∧
      s'._size = 0 ∧ s'.fresh = s.fresh ∧ ∀ z, z ∈ T.addrs → s'.heap z = none := by
  obtain ⟨s1, e1, -, f1, -, -, -, d1⟩ := clear_node_sim s.fuel T s none hS.repr hS.nodup
    (height_lt_fuel hS.nodup hS.bound)
  rw [← hS.root] at e1
  refine ⟨{ s1 with _begin := none, _root := none, _size := 0 }, ?_,
    ⟨trivial, rfl, List.nodup_nil, ?_, ?_⟩, rfl, rfl, rfl, f1, d1⟩
  · simp only [Set.clear, e1, bind, Option.bind, pure]
  · intro a ha
    simp at ha
  · intro a ha
    cases ha

end Set

end SetReview

namespace SetReview

variable {α : Type}

/-! ## The result of `lower_bound` -/

section Order

variable [LT α] [DecidableRel (fun a b : α => a < b)]

end Order

/-- The leftmost node after one node is removed from the in-order sequence. -/
theorem leftmost_remove {T T' : Tree α} {P Q : List Nat} {u : Nat} {b : Ptr}
    (hA : T.addrs = P ++ u :: Q) (hA' : T'.addrs = P ++ Q) (hb : b = T.leftmost) :
    (if b = some u then T'.leftmost else b) = T'.leftmost := by
  by_cases h : b = some u
  · simp only [h, if_true]
  · simp only [h, if_false]
    rw [hb, Tree.leftmost_eq_head, hA] at h
    rw [hb, Tree.leftmost_eq_head, Tree.leftmost_eq_head, hA, hA']
    cases P with
    | nil => exact absurd rfl h
    | cons p P => rfl

/-- The node stored at an address of a well-formed set holds the value the tree gives
to that address. -/
theorem Set.Shape.value_at {s : Set α} {T : Tree α} (hS : s.Shape T) {a : Nat} {v : α}
    (h : (a, v) ∈ T.cells) : ∃ n, s.heap a = some n ∧ n.value = v := by
  obtain ⟨n, e1, e2, -, -⟩ := Tree.repr_mem hS.repr (Tree.mem_addrs_of_mem_cells h)
  exact ⟨n, e1, cells_value_unique hS.nodup e2 h⟩

end SetReview

namespace SetReview

variable {α : Type}

/-! ## The place of a new minimum survives the rebalancing -/

theorem Tree.setColor_setColor (t : Tree α) (c c' : Color) :
    (t.setColor c).setColor c' = t.setColor c' := by
  cases t <;> rfl

theorem Tree.ptr_setColor_eq (t : Tree α) (c : Color) : (t.setColor c).ptr = t.ptr := by
  cases t <;> rfl

theorem Frame.before_eq_nil {f : Frame α} (h : f.before = []) :
    ∃ a c v r, f = Frame.left a c v r := by
  cases f with
  | left a c v r => exact ⟨a, c, v, r, rfl⟩
  | right a c l v => simp [Frame.before] at h

/-- When the new node is the first node in order, the rebalancing leaves it, possibly
recoloured, in the place where it was linked. -/
theorem insFix_first : ∀ (p : Path α) (t T' : Tree α), Path.before p = [] →
    insFix p t = some T' →
    ∃ ctx c', T' = Path.fill ctx (t.setColor c') ∧ Path.slot ctx = Path.slot p
  | p, Tree.nil, T', _, h => by
    rw [insFix_nil] at h
    cases h
  | [], Tree.node a c l v r, T', _, h => by
    simp only [insFix, Option.some.injEq] at h
    exact ⟨[], Color.black, h.symm, rfl⟩
  | [f], Tree.node a c l v r, T', _, h => by
    by_cases hb : f.color = Color.black
    · simp only [insFix, hb, if_true, Option.some.injEq] at h
      exact ⟨[f], c, h.symm, rfl⟩
    · simp only [insFix, hb, if_false] at h
      cases h
  | f :: g :: up, Tree.node a c l v r, T', hbef, h => by
    simp only [Path.before_cons, List.append_eq_nil] at hbef
    obtain ⟨⟨hup, hg⟩, hf⟩ := hbef
    obtain ⟨pa, pc, pv, pr, rfl⟩ := Frame.before_eq_nil hf
    obtain ⟨ga, gc, gv, u, rfl⟩ := Frame.before_eq_nil hg
    by_cases hb : pc = Color.black
    · simp only [insFix, Frame.color, hb, if_true, Option.some.injEq] at h
      subst hb
      exact ⟨_, c, h.symm, rfl⟩
    · by_cases hu : u.color = Color.red
      · simp only [insFix, Frame.color, hb, if_false, Frame.sibling, hu, if_true] at h
        obtain ⟨ctx, c', e, hs⟩ := insFix_first up _ T' hup h
        refine ⟨Frame.left pa Color.black pv pr ::
          Frame.left ga c' gv (u.setColor Color.black) :: ctx, c, e, rfl⟩
      · simp only [insFix, Frame.color, hb, if_false, Frame.sibling, hu,
          Option.some.injEq] at h
        exact ⟨Frame.left pa Color.black pv (Tree.node ga Color.red pr gv u) :: up, c,
          h.symm, rfl⟩

end SetReview

namespace SetReview

variable {α : Type}

/-! ## Calls of `insert`, `erase` and `clear` on a set that satisfies the invariants -/

section Order

variable [LT α] [DecidableRel (fun a b : α => a < b)]

theorem insPath_some_find (x : α) : ∀ (t : Tree α) (p q : Path α),
    insPath x p t = some q → t.find x = none
  | Tree.nil, _, _, _ => rfl
  | Tree.node a c l v r, p, q, h => by
    simp only [insPath] at h
    simp only [Tree.find]
    by_cases hlt : x < v
    · simp only [hlt, if_true] at h ⊢
      exact insPath_some_find x l _ q h
    · by_cases hgt : v < x
      · simp only [hlt, if_false, hgt, if_true] at h ⊢
        exact insPath_some_find x r _ q h
      · simp only [hlt, if_false, hgt] at h
        cases h

namespace Set

/-- The function `insert` keeps the invariants of the specification.  When the value
read at line 427 compares like the value inserted, it also keeps `_begin` at the
leftmost node. -/
theorem insert_valid [IsStrictOrder α (fun a b : α => a < b)] (moved : α → α) (s : Set α)
    (T : Tree α) (x : α) (hI : s.Inv T) :
    ∃ s' T', s.insert moved x = some s' ∧ s'.Inv T' ∧
      ((∃ a v, T.find x = some a ∧ (a, v) ∈ T.cells ∧ ¬ x < v ∧ ¬ v < x ∧ s' = s ∧ T' = T) ∨
        (T.find x = none ∧ ∃ X Z, T.cells = X ++ Z ∧ T'.cells = X ++ (s.fresh, x) :: Z ∧
          s'._size = s._size + 1 ∧ s'.fresh = s.fresh + 1)) ∧
      ((∀ a b, moved a < b ↔ a < b) → s._begin = T.leftmost → s'._begin = T'.leftmost) := by
  rcases insert_full moved s T x hI.shape hI.bst hI.rb1 hI.rb2 hI.rb3 with
    ⟨a, v, e1, e2, e3, e4, e5⟩ |
    ⟨p, s', T', c, hp, e, hS', hb', r1, r2, r3, hF, hc, hc', hlo, hhi, hsz, hfr, hslot, hyes,
      hno⟩
  · exact ⟨s, T, e5, hI, Or.inl ⟨a, v, e1, e2, e3, e4, rfl, rfl⟩, fun _ h => h⟩
  · refine ⟨s', T', e, ⟨hS', hb', r1, r2, r3⟩,
      Or.inr ⟨insPath_some_find x T [] p hp, _, _, hc, hc', hsz, hfr⟩, ?_⟩
    intro hm hbeg
    have hlm : T.leftmost = (T.cells.map Prod.fst).head? := Tree.leftmost_eq_head T
    have hlm' : T'.leftmost = (T'.cells.map Prod.fst).head? := Tree.leftmost_eq_head T'
    rw [hc] at hlm
    rw [hc'] at hlm'
    by_cases hcond : s._begin = none ∨
        ∃ z v, s._begin = some z ∧ (z, v) ∈ T.cells ∧ moved x < v
    · rw [hyes hcond]
      have hbef : Path.before p = [] := by
        cases hbp : Path.before p with
        | nil => rfl
        | cons zv rest =>
          obtain ⟨z0, v0⟩ := zv
          exfalso
          rw [hbp] at hlm hc hlo
          simp only [List.cons_append, List.map_cons, List.head?_cons] at hlm
          rw [hbeg, hlm] at hcond
          rcases hcond with h | ⟨z, v, hz, hv, hlt⟩
          · cases h
          · simp only [Option.some.injEq] at hz
            subst hz
            have hv0 : (z0, v0) ∈ T.cells := by simp [hc]
            have e := cells_value_unique hI.shape.nodup hv hv0
            subst e
            have h1 : v < x := hlo v (by simp)
            have h2 : x < v := (hm x v).1 hlt
            exact irrefl_of (fun a b : α => a < b) x (IsTrans.trans _ _ _ h2 h1)
      obtain ⟨ctx, c', hT', hs⟩ := insFix_first p _ T' hbef hF
      have hO : s'.Own (Path.fill ctx
          ((Tree.node s.fresh Color.red Tree.nil x Tree.nil).setColor c')) :=
        hT' ▸ hS'.owns
      have hget := slot_get_focus hO
      rw [hs, hslot] at hget
      simp only [Option.some.injEq] at hget
      rw [hget, hlm', hbef]
      rfl
    · rw [hno hcond, hbeg, hlm, hlm']
      cases hbp : Path.before p with
      | cons zv rest => rfl
      | nil =>
        exfalso
        rw [hbp] at hlm hc
        simp only [List.nil_append] at hlm hc
        apply hcond
        rw [hbeg, hlm]
        cases hap : Path.after p with
        | nil => exact Or.inl rfl
        | cons zv rest =>
          obtain ⟨z0, v0⟩ := zv
          refine Or.inr ⟨z0, v0, rfl, by simp [hc, hap], (hm x v0).2 (hhi v0 ?_)⟩
          simp [hap]

end Set

end Order

end SetReview

namespace SetReview

variable {α : Type}

section Order

variable [LT α]

namespace Set

/-- The function `clear` gives the empty set, which satisfies the invariants. -/
theorem clear_valid (s : Set α) (T : Tree α) (hI : s.Inv T) :
    ∃ s', s.clear = some s' ∧ s'.Inv Tree.nil ∧ s'._size = 0 ∧ s'._begin = none := by
  obtain ⟨s', e, hS, -, hb, hz, -, -⟩ := clear_full hI.shape
  exact ⟨s', e, ⟨hS, trivial, rfl, trivial, trivial⟩, hz, hb⟩

theorem ctor_inv : (Set.ctor : Set α).Inv Tree.nil :=
  ⟨⟨trivial, rfl, List.nodup_nil, fun a ha => by simp at ha, fun a ha => by cases ha⟩,
    trivial, rfl, trivial, trivial⟩

variable [DecidableRel (fun a b : α => a < b)]

/-- The function `erase` keeps the invariants of the specification, removes the value
found from the in-order sequence, and keeps `_begin` at the leftmost node. -/
theorem erase_valid [IsTrans α (fun a b : α => a < b)] (s : Set α) (T : Tree α) (x : α)
    (hI : s.Inv T) :
    ∃ s' T', s.erase x = some s' ∧ s'.Inv T' ∧
      ((T.find x = none ∧ (∀ y ∈ T.vals, x < y ∨ y < x) ∧ s' = s ∧ T' = T) ∨
        (∃ v X xv Z, T.find x = some v ∧ T.vals = X ++ xv :: Z ∧ T'.vals = X ++ Z ∧
          ¬ x < xv ∧ ¬ xv < x ∧ s'._size = s._size - 1)) ∧
      s'.fresh = s.fresh ∧ (s._begin = T.leftmost → s'._begin = T'.leftmost) := by
  rcases erase_full s T x hI.shape hI.bst hI.rb1 hI.rb2 hI.rb3 with
    ⟨hf, hall, e⟩ |
    ⟨s', T', v, u, X, xv, Z, P, Q, hf, e, hS', hb', r1, r2, r3, hv, hv', hlt, hgt, hA, hA',
      hsz, hfr, hbg⟩
  · exact ⟨s, T, e, hI, Or.inl ⟨hf, hall, rfl, rfl⟩, rfl, fun h => h⟩
  · refine ⟨s', T', e, ⟨hS', hb', r1, r2, r3⟩,
      Or.inr ⟨v, X, xv, Z, hf, hv, hv', hlt, hgt, hsz⟩, hfr, fun hbeg => ?_⟩
    rw [hbg]
    exact leftmost_remove hA hA' hbeg

/-- Every sequence of calls on the empty set runs to the end and gives a state that
satisfies the invariants, with `_size` the number of nodes; `_begin` is the leftmost
node when the value read at line 427 compares like the value inserted. -/
theorem run_valid [IsStrictOrder α (fun a b : α => a < b)] (moved : α → α) :
    ∀ (ops : List (Op α)) (s : Set α) (T : Tree α), s.Inv T → s._size = T.size →
    ∃ s' T', Set.run moved s ops = some s' ∧ s'.Inv T' ∧ s'._size = T'.size ∧
      ((∀ a b, moved a < b ↔ a < b) → s._begin = T.leftmost → s'._begin = T'.leftmost)
  | [], s, T, hI, hsz => ⟨s, T, rfl, hI, hsz, fun _ h => h⟩
  | Op.insert x :: ops, s, T, hI, hsz => by
    obtain ⟨s1, T1, e1, hI1, hcase, hbeg1⟩ := insert_valid moved s T x hI
    have hsz1 : s1._size = T1.size := by
      rcases hcase with ⟨a, v, -, -, -, -, rfl, rfl⟩ | ⟨-, X, Z, hc, hc', hs, -⟩
      · exact hsz
      · rw [hs, hsz, ← Tree.length_cells, ← Tree.length_cells, hc, hc']
        simp only [List.length_append, List.length_cons]
        omega
    obtain ⟨s2, T2, e2, hI2, hsz2, hbeg2⟩ := run_valid moved ops s1 T1 hI1 hsz1
    refine ⟨s2, T2, ?_, hI2, hsz2, fun hm hb => hbeg2 hm (hbeg1 hm hb)⟩
    simp only [Set.run, Set.step, e1, Option.bind, e2]
  | Op.erase x :: ops, s, T, hI, hsz => by
    obtain ⟨s1, T1, e1, hI1, hcase, -, hbeg1⟩ := erase_valid s T x hI
    have hsz1 : s1._size = T1.size := by
      rcases hcase with ⟨-, -, rfl, rfl⟩ | ⟨v, X, xv, Z, -, hv, hv', -, -, hs⟩
      · exact hsz
      · have l1 : T.vals.length = T.size := by simp [Tree.vals, Tree.length_cells]
        have l2 : T1.vals.length = T1.size := by simp [Tree.vals, Tree.length_cells]
        rw [hs, hsz, ← l1, ← l2, hv, hv']
        simp only [List.length_append, List.length_cons]
        omega
    obtain ⟨s2, T2, e2, hI2, hsz2, hbeg2⟩ := run_valid moved ops s1 T1 hI1 hsz1
    refine ⟨s2, T2, ?_, hI2, hsz2, fun hm hb => hbeg2 hm (hbeg1 hb)⟩
    simp only [Set.run, Set.step, e1, Option.bind, e2]
  | Op.clear :: ops, s, T, hI, hsz => by
    obtain ⟨s1, e1, hI1, hz, hb1⟩ := clear_valid s T hI
    obtain ⟨s2, T2, e2, hI2, hsz2, hbeg2⟩ := run_valid moved ops s1 Tree.nil hI1 hz
    refine ⟨s2, T2, ?_, hI2, hsz2, fun hm _ => hbeg2 hm hb1⟩
    simp only [Set.run, Set.step, e1, Option.bind, e2]

end Set

end Order

end SetReview

namespace SetReview

variable {α : Type}

/-! ## The scenarios -/

set_option maxRecDepth 100000 in
theorem scenario1_inv : scenario1.Inv scenario1Tree := by
  refine ⟨⟨?_, ?_, ?_, ?_, ?_⟩, ?_, ?_, ?_, ?_⟩
  · simp only [scenario1Tree, Tree.repr_node, Tree.repr_nil, Tree.ptr_node, Tree.ptr_nil,
      and_true]
    decide
  · decide
  · decide
  · decide
  · intro a ha
    have h : scenario1._begin = some 3 := by decide
    rw [h] at ha
    cases ha
    decide
  · simp only [scenario1Tree, Tree.BST, Tree.vals_node, Tree.vals_nil]
    decide
  · rfl
  · simp only [scenario1Tree, Tree.RB2_node, Tree.RB2_nil, Tree.color_node, Tree.color_nil]
    decide
  · simp only [scenario1Tree, Tree.RB3_node, Tree.RB3_nil, Tree.bh_node, Tree.bh_nil]
    decide

set_option maxRecDepth 100000 in
theorem scenario1_begin : scenario1._begin = scenario1Tree.leftmost := by decide

set_option maxRecDepth 100000 in
theorem scenario2_inv : scenario2.Inv scenario2Tree := by
  refine ⟨⟨?_, ?_, ?_, ?_, ?_⟩, ?_, ?_, ?_, ?_⟩
  · simp only [scenario2Tree, Tree.repr_node, Tree.repr_nil, Tree.ptr_node, Tree.ptr_nil,
      and_true]
    decide
  · decide
  · decide
  · decide
  · intro a ha
    have h : scenario2._begin = some 3 := by decide
    rw [h] at ha
    cases ha
    decide
  · simp only [scenario2Tree, Tree.BST, Tree.vals_node, Tree.vals_nil]
    decide
  · rfl
  · simp only [scenario2Tree, Tree.RB2_node, Tree.RB2_nil, Tree.color_node, Tree.color_nil]
    decide
  · simp only [scenario2Tree, Tree.RB3_node, Tree.RB3_nil, Tree.bh_node, Tree.bh_nil]
    decide

/-- Scenario 1: forward iteration yields 1, 3, 4, 5, 7, 8, 9. -/
theorem scenario1_toList : scenario1.toList = some [1, 3, 4, 5, 7, 8, 9] :=
  Set.toList_eq scenario1_inv.shape scenario1_begin

set_option maxRecDepth 100000 in
/-- Scenario 2: after `erase(5)` forward iteration yields 1, 3, 4, 7, 8, 9. -/
theorem scenario2_toList : scenario2.toList = some [1, 3, 4, 7, 8, 9] :=
  Set.toList_eq scenario2_inv.shape (by decide)

set_option maxRecDepth 100000 in
/-- Scenario 3: `lower_bound(6)` is the node holding 7 and `find(10)` is `end()`. -/
theorem scenario3 :
    scenario2.lower_bound 6 = some (some 5) ∧
      (scenario2.heap 5).map (fun n => n.value) = some 7 ∧
      scenario2.find 10 = some scenario2.end := by
  decide

end SetReview

namespace SetReview

variable {α : Type}

/-! ## The claims about `erase`, `insert`, `find` and `lower_bound` -/

namespace Set

section Order

variable [LT α] [DecidableRel (fun a b : α => a < b)]

/-- On a set that satisfies the invariants and has a valid begin cache (BST order,
red-black, `_begin` at the leftmost node), `erase(x)` returns, and forward iteration
afterwards yields the previous sequence with the element equivalent to `x` removed and
all other elements kept in order; when no element is equivalent to `x` the sequence is
unchanged. -/
theorem erase_iteration [IsTrans α (fun a b : α => a < b)] (s : Set α) (T : Tree α) (x : α)
    (hI : s.Inv T) (hb : s._begin = T.leftmost) :
    ∃ s' l l', s.erase x = some s' ∧ s.toList = some l ∧ s'.toList = some l' ∧
      (((∀ y ∈ l, x < y ∨ y < x) ∧ l' = l) ∨
        ∃ X xv Z, l = X ++ xv :: Z ∧ l' = X ++ Z ∧ ¬ x < xv ∧ ¬ xv < x) := by
  obtain ⟨s', T', e, hI', hcase, -, hbeg⟩ := erase_valid s T x hI
  refine ⟨s', T.vals, T'.vals, e, toList_eq hI.shape hb, toList_eq hI'.shape (hbeg hb), ?_⟩
  rcases hcase with ⟨-, hall, -, rfl⟩ | ⟨v, X, xv, Z, -, hv, hv', hlt, hgt, -⟩
  · exact Or.inl ⟨hall, rfl⟩
  · exact Or.inr ⟨X, xv, Z, hv, hv', hlt, hgt⟩

/-- C3: on a set that satisfies BST order and RB-1, RB-2, RB-3, `insert(x)` returns and
the set again satisfies RB-1, RB-2 and RB-3 (and is well formed), whatever state the
move leaves the parameter in. -/
theorem insert_preserves_rb [IsTrans α (fun a b : α => a < b)] (moved : α → α) (s : Set α)
    (T : Tree α) (x : α) (hS : s.Shape T) (hb : T.BST) (h1 : T.RB1) (h2 : T.RB2)
    (h3 : T.RB3) :
    ∃ s' T', s.insert moved x = some s' ∧ s'.Shape T' ∧ T'.RB1 ∧ T'.RB2 ∧ T'.RB3 := by
  rcases insert_full moved s T x hS hb h1 h2 h3 with
    ⟨a, v, -, -, -, -, e⟩ | ⟨p, s', T', c, -, e, hS', -, r1, r2, r3, -⟩
  · exact ⟨s, T, e, hS, h1, h2, h3⟩
  · exact ⟨s', T', e, hS', r1, r2, r3⟩

/-- C4: on a set that satisfies BST order and RB-1, RB-2, RB-3, `erase(x)` returns and
the set again satisfies RB-1, RB-2 and RB-3 (and is well formed). -/
theorem erase_preserves_rb [IsTrans α (fun a b : α => a < b)] (s : Set α) (T : Tree α)
    (x : α) (hS : s.Shape T) (hb : T.BST) (h1 : T.RB1) (h2 : T.RB2) (h3 : T.RB3) :
    ∃ s' T', s.erase x = some s' ∧ s'.Shape T' ∧ T'.RB1 ∧ T'.RB2 ∧ T'.RB3 := by
  rcases erase_full s T x hS hb h1 h2 h3 with
    ⟨-, -, e⟩ | ⟨s', T', v, u, X, xv, Z, P, Q, -, e, hS', -, r1, r2, r3, -⟩
  · exact ⟨s, T, e, hS, h1, h2, h3⟩
  · exact ⟨s', T', e, hS', r1, r2, r3⟩

/-- C5: on a well-formed set in BST order, `find(x)` returns; the result is `end()`
exactly when no node holds a value equivalent to `x`, and when some node does, the result
is a node of the tree whose value is equivalent to `x`. -/
theorem find_correct [IsTrans α (fun a b : α => a < b)] (s : Set α) (T : Tree α) (x : α)
    (hS : s.Shape T) (hb : T.BST) :
    ∃ it, s.find x = some it ∧
      (it = s.end ↔ ∀ y ∈ T.vals, ¬ (¬ x < y ∧ ¬ y < x)) ∧
      ((∃ y ∈ T.vals, ¬ x < y ∧ ¬ y < x) →
        ∃ a n, it = some a ∧ a ∈ T.addrs ∧ s.heap a = some n ∧
          ¬ x < n.value ∧ ¬ n.value < x) := by
  have hsome : ∀ a, T.find x = some a →
      ∃ n, a ∈ T.addrs ∧ s.heap a = some n ∧ n.value ∈ T.vals ∧
        ¬ x < n.value ∧ ¬ n.value < x := by
    intro a ha
    obtain ⟨v, hv, h1, h2⟩ := Tree.find_some x T a ha
    obtain ⟨n, e1, e2⟩ := hS.value_at hv
    subst e2
    exact ⟨n, Tree.mem_addrs_of_mem_cells hv, e1, List.mem_map.2 ⟨_, hv, rfl⟩, h1, h2⟩
  have hiff : T.find x = none ↔ ∀ y ∈ T.vals, ¬ (¬ x < y ∧ ¬ y < x) := by
    constructor
    · intro h y hy hn
      rcases Tree.find_none x T hb h y hy with h1 | h1
      · exact hn.1 h1
      · exact hn.2 h1
    · intro h
      cases hf : T.find x with
      | none => rfl
      | some a =>
        obtain ⟨n, -, -, hm, h1, h2⟩ := hsome a hf
        exact absurd ⟨h1, h2⟩ (h _ hm)
  refine ⟨T.find x, find_eq hS x, hiff, ?_⟩
  rintro ⟨y, hy, hn⟩
  cases hf : T.find x with
  | none => exact absurd hn (hiff.1 hf y hy)
  | some a =>
    obtain ⟨n, ha, e1, -, h1, h2⟩ := hsome a hf
    exact ⟨a, n, rfl, ha, e1, h1, h2⟩

/-- C7: on a set that satisfies the invariants, `insert(x)` returns, and `find(x)`
afterwards returns an iterator different from `end()` to a node whose value is equivalent
to `x`, whatever state the move leaves the parameter in. -/
theorem insert_then_find [IsStrictOrder α (fun a b : α => a < b)] (moved : α → α)
    (s : Set α) (T : Tree α) (x : α) (hI : s.Inv T) :
    ∃ s' a n, s.insert moved x = some s' ∧ s'.find x = some (some a) ∧
      s'.heap a = some n ∧ ¬ x < n.value ∧ ¬ n.value < x := by
  obtain ⟨s', T', e, hI', hcase, -⟩ := insert_valid moved s T x hI
  have hx : ∃ y ∈ T'.vals, ¬ x < y ∧ ¬ y < x := by
    rcases hcase with ⟨a, v, -, hv, h1, h2, -, rfl⟩ | ⟨-, X, Z, -, hc', -, -⟩
    · exact ⟨v, List.mem_map.2 ⟨_, hv, rfl⟩, h1, h2⟩
    · refine ⟨x, ?_, irrefl_of (fun a b : α => a < b) x, irrefl_of (fun a b : α => a < b) x⟩
      simp [Tree.vals, hc']
  cases hf : T'.find x with
  | none =>
    obtain ⟨y, hy, h1, h2⟩ := hx
    rcases Tree.find_none x T' hI'.bst hf y hy with h | h
    · exact absurd h h1
    · exact absurd h h2
  | some a =>
    obtain ⟨v, hv, h1, h2⟩ := Tree.find_some x T' a hf
    obtain ⟨n, e1, e2⟩ := hI'.shape.value_at hv
    subst e2
    exact ⟨s', a, n, e, by rw [find_eq hI'.shape x, hf], e1, h1, h2⟩

/-- C8: on a set that satisfies the invariants, for a comparison that is a strict weak
order, `erase(x)` returns, and `find(x)` afterwards returns `end()`, whether or not an
element equivalent to `x` was present. -/
theorem erase_then_find [IsStrictWeakOrder α (fun a b : α => a < b)] (s : Set α)
    (T : Tree α) (x : α) (hI : s.Inv T) :
    ∃ s', s.erase x = some s' ∧ s'.find x = some s'.end := by
  obtain ⟨s', T', e, hI', hcase, -, -⟩ := erase_valid s T x hI
  refine ⟨s', e, ?_⟩
  rw [find_eq hI'.shape x]
  rcases hcase with ⟨hf, -, -, rfl⟩ | ⟨v, X, xv, Z, -, hv, hv', hlt, hgt, -⟩
  · rw [hf]
    rfl
  · cases hf : T'.find x with
    | none => rfl
    | some a =>
      exfalso
      obtain ⟨w, hw, h1, h2⟩ := Tree.find_some x T' a hf
      have hwm : w ∈ T'.vals := List.mem_map.2 ⟨_, hw, rfl⟩
      have hinc := @IsStrictWeakOrder.incomp_trans α (fun a b : α => a < b) _ w x xv
        ⟨h2, h1⟩ ⟨hlt, hgt⟩
      have hs := (Tree.BST_iff_sorted T).1 hI.bst
      rw [hv] at hs
      rw [hv'] at hwm
      simp only [List.pairwise_append, List.pairwise_cons, List.mem_cons, List.mem_append]
        at hs hwm
      rcases hwm with hwm | hwm
      · exact hinc.1 (hs.2.2 w hwm xv (Or.inl rfl))
      · exact hinc.2 (hs.2.1.1 w hwm)

end Order

end Set

end SetReview

namespace SetReview

variable {α : Type}

/-! ## The claims about reachable states -/

namespace Set

section Order

variable [LT α] [DecidableRel (fun a b : α => a < b)]

/-- When the value read at line 427 compares like the value inserted, the begin-cache
invariant holds in every reachable state: `_begin` is the leftmost node, absent exactly
when the tree is empty, so `begin() == end()` exactly for the empty set. -/
theorem begin_cache_valid [IsStrictOrder α (fun a b : α => a < b)] (moved : α → α)
    (hm : ∀ a b, moved a < b ↔ a < b) (ops : List (Op α)) :
    ∃ s T, Set.run moved Set.ctor ops = some s ∧ s.Inv T ∧ s._begin = T.leftmost ∧
      (s._begin = none ↔ T = Tree.nil) ∧ (s.begin = s.end ↔ s.empty = true) := by
  obtain ⟨s, T, e, hI, hsz, hb⟩ := run_valid moved ops Set.ctor Tree.nil ctor_inv rfl
  have hb := hb hm rfl
  have hnil : s._begin = none ↔ T = Tree.nil := by
    rw [hb]
    exact ⟨Tree.leftmost_eq_none, fun h => by rw [h]; rfl⟩
  refine ⟨s, T, e, hI, hb, hnil, ?_⟩
  simp only [Set.begin, Set.end, Set.empty, beq_iff_eq, hsz, hnil]
  constructor
  · intro h
    rw [h]
    rfl
  · intro h
    cases T with
    | nil => rfl
    | node a c l v r => simp [Tree.size] at h

/-- The loop of the range constructor on a valid set with a correct begin-cache, when
the value read at line 427 compares like the value inserted. -/
theorem insert_range_valid [IsStrictOrder α (fun a b : α => a < b)] (moved : α → α)
    (hm : ∀ a b, moved a < b ↔ a < b) :
    ∀ (xs : List α) (s : Set α) (T : Tree α), s.Inv T → s._begin = T.leftmost →
    ∃ s' T', Set.insert_range moved s xs = some s' ∧ s'.Inv T' ∧ s'._begin = T'.leftmost ∧
      (∀ y ∈ T'.vals, y ∈ T.vals ∨ y ∈ xs) ∧ (∀ y ∈ T.vals, y ∈ T'.vals) ∧
      ∀ x ∈ xs, ∃ y ∈ T'.vals, ¬ x < y ∧ ¬ y < x
  | [], s, T, hI, hb =>
    ⟨s, T, rfl, hI, hb, fun y hy => Or.inl hy, fun y hy => hy, fun x hx => by cases hx⟩
  | x :: xs, s, T, hI, hb => by
    obtain ⟨s1, T1, e1, hI1, hcase, hb1⟩ := insert_valid moved s T x hI
    obtain ⟨s2, T2, e2, hI2, hb2, hsub, hsup, hin⟩ :=
      insert_range_valid moved hm xs s1 T1 hI1 (hb1 hm hb)
    have h01 : (∀ y ∈ T1.vals, y ∈ T.vals ∨ y = x) ∧ (∀ y ∈ T.vals, y ∈ T1.vals) ∧
        ∃ y ∈ T1.vals, ¬ x < y ∧ ¬ y < x := by
      rcases hcase with ⟨a, v, -, hv, h1, h2, -, rfl⟩ | ⟨-, X, Z, hc, hc', -, -⟩
      · exact ⟨fun y hy => Or.inl hy, fun y hy => hy, v, List.mem_map.2 ⟨_, hv, rfl⟩, h1, h2⟩
      · refine ⟨fun y hy => ?_, fun y hy => ?_, x, ?_, irrefl_of (fun a b : α => a < b) x,
          irrefl_of (fun a b : α => a < b) x⟩
        · simp only [Tree.vals, hc, hc', List.map_append, List.map_cons, List.mem_append,
            List.mem_cons] at hy ⊢
          tauto
        · simp only [Tree.vals, hc, hc', List.map_append, List.map_cons, List.mem_append,
            List.mem_cons] at hy ⊢
          tauto
        · simp [Tree.vals, hc']
    refine ⟨s2, T2, ?_, hI2, hb2, ?_, fun y hy => hsup y (h01.2.1 y hy), ?_⟩
    · simp only [Set.insert_range, e1, bind, Option.bind, e2]
    · intro y hy
      rcases hsub y hy with h | h
      · rcases h01.1 y h with h | h
        · exact Or.inl h
        · exact Or.inr (by simp [h])
      · exact Or.inr (List.mem_cons_of_mem _ h)
    · intro z hz
      simp only [List.mem_cons] at hz
      rcases hz with rfl | hz
      · obtain ⟨y, hy, hn⟩ := h01.2.2
        exact ⟨y, hsup y hy, hn⟩
      · exact hin z hz

/-- When the value read at line 427 compares like the value inserted (as for `int`),
the values given to the range constructor are iterated in strictly increasing order,
each value of the input once up to equivalence. -/
theorem insert_range_sorted [IsStrictOrder α (fun a b : α => a < b)] (moved : α → α)
    (hm : ∀ a b, moved a < b ↔ a < b) (xs : List α) :
    ∃ s l, Set.insert_range moved Set.ctor xs = some s ∧ s.toList = some l ∧
      l.Pairwise (fun a b => a < b) ∧ (∀ y ∈ l, y ∈ xs) ∧
      ∀ x ∈ xs, ∃ y ∈ l, ¬ x < y ∧ ¬ y < x := by
  obtain ⟨s, T, e, hI, hb, hsub, -, hin⟩ :=
    insert_range_valid moved hm xs Set.ctor Tree.nil ctor_inv rfl
  refine ⟨s, T.vals, e, toList_eq hI.shape hb, (Tree.BST_iff_sorted T).1 hI.bst, ?_, hin⟩
  intro y hy
  rcases hsub y hy with h | h
  · simp at h
  · exact h

end Order

set_option maxRecDepth 100000 in
/-- C1 (defect in the code): on a `Set<std::string>`, where a moved-from string is empty
and so less than every other string, inserting "b" and then "c" leaves `_begin` at the
node of "c": forward iteration from `begin()` yields only "c", not "b", "c".  Strings
are written as lists of character codes. -/
theorem insert_range_moved_from :
    (Set.insert_range (fun _ => ([] : List Nat)) Set.ctor [[98], [99]]).bind Set.toList =
      some [[99]] := by
  decide

set_option maxRecDepth 100000 in
/-- C10 (defect in the code): on a `Set<std::string>`, where a moved-from string is empty,
after `insert("b")` and `insert("c")` the cached `_begin` is the node at address 1,
which holds "c", while the leftmost node from the root is the node at address 0; and
after `insert("c")`, `insert("a")`, `insert("b")` the cached `_begin` is null, so
`begin() == end()`, although the set holds three nodes. -/
theorem begin_cache_moved_from :
    (Set.run (fun _ => ([] : List Nat)) Set.ctor [Op.insert [98], Op.insert [99]]).map
        (fun s => (s._begin, (s.node s._begin).map (fun n => n.value),
          s.descend_left s.fuel s._root)) =
      some (some 1, some [99], some (some 0)) ∧
    (Set.run (fun _ => ([] : List Nat)) Set.ctor
        [Op.insert [99], Op.insert [97], Op.insert [98]]).map
        (fun s => (s.begin, s.end, s.size, s.descend_left s.fuel s._root)) =
      some (none, none, 3, some (some 1)) := by
  decide

end Set

end SetReview

namespace SetReview

/-! ## The claims on the scenarios of the specification -/

namespace Set

/-- Scenario 2: `erase(5)` on the set of Scenario 1. -/
theorem erase_iteration_witness :
    scenario1.Inv scenario1Tree ∧ scenario1._begin = scenario1Tree.leftmost ∧
      ∃ s' l l', scenario1.erase 5 = some s' ∧ scenario1.toList = some l ∧
        s'.toList = some l' ∧
        (((∀ y ∈ l, 5 < y ∨ y < 5) ∧ l' = l) ∨
          ∃ X xv Z, l = X ++ xv :: Z ∧ l' = X ++ Z ∧ ¬ 5 < xv ∧ ¬ xv < 5) :=
  ⟨scenario1_inv, scenario1_begin,
    erase_iteration scenario1 scenario1Tree 5 scenario1_inv scenario1_begin⟩

/-- Witness of C3: `insert(6)` on the set of Scenario 1. -/
theorem insert_preserves_rb_witness :
    scenario1.Shape scenario1Tree ∧ scenario1Tree.BST ∧ scenario1Tree.RB1 ∧
      scenario1Tree.RB2 ∧ scenario1Tree.RB3 ∧
      ∃ s' T', scenario1.insert id 6 = some s' ∧ s'.Shape T' ∧ T'.RB1 ∧ T'.RB2 ∧ T'.RB3 :=
  ⟨scenario1_inv.shape, scenario1_inv.bst, scenario1_inv.rb1, scenario1_inv.rb2,
    scenario1_inv.rb3,
    insert_preserves_rb id scenario1 scenario1Tree 6 scenario1_inv.shape scenario1_inv.bst
      scenario1_inv.rb1 scenario1_inv.rb2 scenario1_inv.rb3⟩

/-- Witness of C4: `erase(5)` on the set of Scenario 1. -/
theorem erase_preserves_rb_witness :
    scenario1.Shape scenario1Tree ∧ scenario1Tree.BST ∧ scenario1Tree.RB1 ∧
      scenario1Tree.RB2 ∧ scenario1Tree.RB3 ∧
      ∃ s' T', scenario1.erase 5 = some s' ∧ s'.Shape T' ∧ T'.RB1 ∧ T'.RB2 ∧ T'.RB3 :=
  ⟨scenario1_inv.shape, scenario1_inv.bst, scenario1_inv.rb1, scenario1_inv.rb2,
    scenario1_inv.rb3,
    erase_preserves_rb scenario1 scenario1Tree 5 scenario1_inv.shape scenario1_inv.bst
      scenario1_inv.rb1 scenario1_inv.rb2 scenario1_inv.rb3⟩

/-- Witness of C5 on Scenario 3: `find(10)` on the set of Scenario 2. -/
theorem find_correct_witness :
    scenario2.Shape scenario2Tree ∧ scenario2Tree.BST ∧
      ∃ it, scenario2.find 10 = some it ∧
        (it = scenario2.end ↔ ∀ y ∈ scenario2Tree.vals, ¬ (¬ 10 < y ∧ ¬ y < 10)) ∧
        ((∃ y ∈ scenario2Tree.vals, ¬ 10 < y ∧ ¬ y < 10) →
          ∃ a n, it = some a ∧ a ∈ scenario2Tree.addrs ∧ scenario2.heap a = some n ∧
            ¬ 10 < n.value ∧ ¬ n.value < 10) :=
  ⟨scenario2_inv.shape, scenario2_inv.bst,
    find_correct scenario2 scenario2Tree 10 scenario2_inv.shape scenario2_inv.bst⟩

/-- Witness of C7: `insert(6)` then `find(6)` on the set of Scenario 1, with a move that
leaves 0 in the parameter. -/
theorem insert_then_find_witness :
    scenario1.Inv scenario1Tree ∧
      ∃ s' a n, scenario1.insert (fun _ => 0) 6 = some s' ∧ s'.find 6 = some (some a) ∧
        s'.heap a = some n ∧ ¬ 6 < n.value ∧ ¬ n.value < 6 :=
  ⟨scenario1_inv, insert_then_find (fun _ => 0) scenario1 scenario1Tree 6 scenario1_inv⟩

/-- Witness of C8: `erase(5)` then `find(5)` on the set of Scenario 1. -/
theorem erase_then_find_witness :
    scenario1.Inv scenario1Tree ∧
      ∃ s', scenario1.erase 5 = some s' ∧ s'.find 5 = some s'.end :=
  ⟨scenario1_inv, erase_then_find scenario1 scenario1Tree 5 scenario1_inv⟩

end Set

end SetReview

namespace SetReview

variable {α : Type}

/-! ## The height of a red-black tree -/

namespace Tree

/-- A tree with uniform black height `b` has at least `2 ^ b - 1` nodes. -/
theorem pow_bh_le_size : ∀ (t : Tree α), t.RB3 → 2 ^ t.bh ≤ t.size + 1
  | nil, _ => by simp [Tree.size]
  | node a c l v r, h => by
    simp only [RB3_node] at h
    have hl := pow_bh_le_size l h.2.1
    have hr := pow_bh_le_size r h.2.2
    rw [h.1] at hl
    simp only [bh_node, Tree.size]
    cases c with
    | black =>
      simp only [if_true, pow_succ, h.1]
      omega
    | red =>
      simp only [reduceCtorEq, if_false, Nat.add_zero, h.1]
      omega

/-- The longest path of a red-black tree has at most twice as many nodes as black nodes,
and one more below a red root. -/
theorem height_le_bh : ∀ (t : Tree α), t.RB2 → t.RB3 →
    t.height ≤ 2 * t.bh + (if t.color = Color.red then 1 else 0)
  | nil, _, _ => by simp [Tree.height]
  | node a c l v r, h2, h3 => by
    simp only [RB2_node] at h2
    simp only [RB3_node] at h3
    have hl := height_le_bh l h2.2.1 h3.2.1
    have hr := height_le_bh r h2.2.2 h3.2.2
    rw [← h3.1] at hr
    simp only [bh_node, Tree.height, color_node]
    cases c with
    | black =>
      simp only [if_true, reduceCtorEq, if_false]
      split at hl <;> split at hr <;> omega
    | red =>
      obtain ⟨c1, c2⟩ := h2.1 rfl
      simp only [c1, c2, reduceCtorEq, if_false, Nat.add_zero] at hl hr
      simp only [reduceCtorEq, if_false, if_true, Nat.add_zero]
      omega

/-- The height bound of red-black trees: `2 ^ h ≤ (n + 1) ^ 2`. -/
theorem pow_height_le (t : Tree α) (h1 : t.RB1) (h2 : t.RB2) (h3 : t.RB3) :
    t.height ≤ 2 * t.bh ∧ 2 ^ t.bh ≤ t.size + 1 ∧ 2 ^ t.height ≤ (t.size + 1) ^ 2 := by
  have hh := height_le_bh t h2 h3
  have hs := pow_bh_le_size t h3
  rw [Tree.RB1] at h1
  simp only [h1, reduceCtorEq, if_false, Nat.add_zero] at hh
  refine ⟨hh, hs, ?_⟩
  calc 2 ^ t.height ≤ 2 ^ (2 * t.bh) := Nat.pow_le_pow_right (by norm_num) hh
    _ = (2 ^ t.bh) ^ 2 := by rw [Nat.mul_comm, Nat.pow_mul]
    _ ≤ (t.size + 1) ^ 2 := Nat.pow_le_pow_left hs 2

end Tree

namespace Set

section Order

variable [LT α] [DecidableRel (fun a b : α => a < b)]

/-- C11: after any sequence of `insert` and `erase` calls (and `clear` calls) on an empty
set, for any state the moves leave the parameters in, with `n = size()` and `h` the
number of nodes on the longest path from the root to a leaf, `2 ^ h ≤ (n + 1) ^ 2`, and
`h` is at most twice the integer part of `log2 (n + 1)`; in particular `h ≤ 8` when
`n = 20`. -/
theorem height_bound [IsStrictOrder α (fun a b : α => a < b)] (moved : α → α)
    (ops : List (Op α)) :
    ∃ s T, Set.run moved Set.ctor ops = some s ∧ s.Shape T ∧ s.size = T.size ∧
      2 ^ T.height ≤ (s.size + 1) ^ 2 ∧ T.height ≤ 2 * Nat.log 2 (s.size + 1) ∧
      (s.size = 20 → T.height ≤ 8) := by
  obtain ⟨s, T, e, hI, hsz, -⟩ := run_valid moved ops Set.ctor Tree.nil ctor_inv rfl
  obtain ⟨h1, h2, h3⟩ := Tree.pow_height_le T hI.rb1 hI.rb2 hI.rb3
  refine ⟨s, T, e, hI.shape, hsz, ?_, ?_, ?_⟩
  · rw [Set.size, hsz]
    exact h3
  · rw [Set.size, hsz]
    have := Nat.le_log_of_pow_le (by norm_num : 1 < 2) h2
    omega
  · intro h20
    rw [Set.size, hsz] at h20
    rw [h20] at h3
    by_contra hc
    have h9 : 2 ^ 9 ≤ 2 ^ T.height := Nat.pow_le_pow_right (by norm_num) (by omega)
    omega

end Order

end Set

end SetReview

namespace SetReview

variable {α : Type}

/-! ## Calls that change nothing, rotations, and the absence of null dereferences -/

namespace Set

/-- In the embedding the assignment `son->parent = parent` of `rotate_left` fails when
`v` has no right child. -/
theorem rotate_left_null_son (s : Set α) (a : Nat) (nv : Node α) (h : s.heap a = some nv)
    (hr : nv.right = none) : s.rotate_left (some a) = none := by
  simp only [Set.rotate_left, Set.node, h, hr, bind, Option.bind]
  cases nv.parent with
  | none => rfl
  | some p =>
    simp only
    cases hp : s.heap p with
    | none => rfl
    | some np =>
      simp only [pure]
      split <;> simp only [Set.write, hp]

/-- In the embedding the assignment `son->parent = parent` of `rotate_right` fails when
`v` has no left child. -/
theorem rotate_right_null_son (s : Set α) (a : Nat) (nv : Node α) (h : s.heap a = some nv)
    (hl : nv.left = none) : s.rotate_right (some a) = none := by
  simp only [Set.rotate_right, Set.node, h, hl, bind, Option.bind]
  cases nv.parent with
  | none => rfl
  | some p =>
    simp only
    cases hp : s.heap p with
    | none => rfl
    | some np =>
      simp only [pure]
      split <;> simp only [Set.write, hp]

/-- In the embedding `brother` fails on a node without parent. -/
theorem brother_null_parent (s : Set α) (a : Nat) (nv : Node α) (h : s.heap a = some nv)
    (hp : nv.parent = none) : s.brother (some a) = none := by
  simp only [Set.brother, Set.node, h, hp, bind, Option.bind]

section Order

variable [LT α] [DecidableRel (fun a b : α => a < b)]

/-- The function `erase` on the empty set returns the empty set. -/
theorem erase_empty (x : α) : (Set.ctor : Set α).erase x = some Set.ctor := rfl

/-- C12: on a set that satisfies the invariants, `insert(x)` followed by `insert(x)`
gives exactly the state a single `insert(x)` gives (so the same iteration sequence and
size), and `insert(x)` on a set that holds an element equivalent to `x` returns the state
unchanged (memory, root, begin cache and size), whatever the moves leave behind. -/
theorem insert_idempotent [IsStrictOrder α (fun a b : α => a < b)] (moved : α → α)
    (s : Set α) (T : Tree α) (x : α) (hI : s.Inv T) :
    ∃ s', s.insert moved x = some s' ∧ s'.insert moved x = some s' ∧
      ((∃ y ∈ T.vals, ¬ x < y ∧ ¬ y < x) → s' = s) := by
  obtain ⟨s', T', e, hI', hcase, -⟩ := insert_valid moved s T x hI
  have hx : ∃ y ∈ T'.vals, ¬ x < y ∧ ¬ y < x := by
    rcases hcase with ⟨a, v, -, hv, h1, h2, -, rfl⟩ | ⟨-, X, Z, -, hc', -, -⟩
    · exact ⟨v, List.mem_map.2 ⟨_, hv, rfl⟩, h1, h2⟩
    · refine ⟨x, ?_, irrefl_of (fun a b : α => a < b) x, irrefl_of (fun a b : α => a < b) x⟩
      simp [Tree.vals, hc']
  refine ⟨s', e, ?_, ?_⟩
  · rcases insert_full moved s' T' x hI'.shape hI'.bst hI'.rb1 hI'.rb2 hI'.rb3 with
      ⟨a, v, -, -, -, -, e2⟩ | ⟨p, s2, T2, c, hp, -⟩
    · exact e2
    · obtain ⟨y, hy, h1, h2⟩ := hx
      rcases Tree.find_none x T' hI'.bst (insPath_some_find x T' [] p hp) y hy with h | h
      · exact absurd h h1
      · exact absurd h h2
  · rintro ⟨y, hy, h1, h2⟩
    rcases hcase with ⟨a, v, -, -, -, -, rfl, -⟩ | ⟨hf, -⟩
    · rfl
    · rcases Tree.find_none x T hI.bst hf y hy with h | h
      · exact absurd h h1
      · exact absurd h h2

/-- C13: on a well-formed set that holds no element equivalent to `x`, `erase(x)` returns
the state unchanged: memory (tree shape, values, colours), root, begin cache and size. -/
theorem erase_absent_noop (s : Set α) (T : Tree α) (x : α) (hS : s.Shape T)
    (hx : ∀ y ∈ T.vals, ¬ (¬ x < y ∧ ¬ y < x)) : s.erase x = some s := by
  refine erase_absent hS x ?_
  cases hf : T.find x with
  | none => rfl
  | some a =>
    obtain ⟨v, hv, h1, h2⟩ := Tree.find_some x T a hf
    exact absurd ⟨h1, h2⟩ (hx v (List.mem_map.2 ⟨_, hv, rfl⟩))

/-- C20: on a set that satisfies BST order and the red-black invariants with consistent
parent links, `insert(x)` and `erase(x)` run to their end: in the embedding every read
or write through a null or dangling pointer makes the call fail (`brother_null_parent`,
`rotate_left_null_son`, `rotate_right_null_son`), so the grandparent in
`insert_rebalance`, the sibling in `erase_rebalance` and the promoted child in every
rotation exist whenever they are dereferenced. -/
theorem fixups_no_null_deref [IsTrans α (fun a b : α => a < b)] (moved : α → α) (s : Set α)
    (T : Tree α) (x : α) (hS : s.Shape T) (hb : T.BST) (h1 : T.RB1) (h2 : T.RB2)
    (h3 : T.RB3) :
    (∃ s', s.insert moved x = some s') ∧ (∃ s', s.erase x = some s') := by
  constructor
  · rcases insert_full moved s T x hS hb h1 h2 h3 with
      ⟨a, v, -, -, -, -, e⟩ | ⟨p, s', T', c, -, e, -⟩
    · exact ⟨s, e⟩
    · exact ⟨s', e⟩
  · rcases erase_full s T x hS hb h1 h2 h3 with
      ⟨-, -, e⟩ | ⟨s', T', v, u, X, xv, Z, P, Q, -, e, -⟩
    · exact ⟨s, e⟩
    · exact ⟨s', e⟩

end Order

/-- C19: in a tree with consistent parent links, `rotate_left(v)` on a node `v` with a
right child `s` returns, keeps the in-order sequence of the whole tree, puts `s` in the
place of `v` (at the root if `v` was the root) with `v` as its left child and the former
left subtree of `s` as the right subtree of `v`, and leaves all parent links consistent;
symmetrically for `rotate_right(v)` on a node with a left child. -/
theorem rotate_preserves_inorder (s1 : Set α) (ctx1 : Path α) (a1 : Nat) (ca1 : Color)
    (l1 : Tree α) (va1 : α) (b1 : Nat) (cb1 : Color) (m1 : Tree α) (vb1 : α) (r1 : Tree α)
    (hO1 : s1.Own (ctx1.fill (Tree.node a1 ca1 l1 va1 (Tree.node b1 cb1 m1 vb1 r1))))
    (s2 : Set α) (ctx2 : Path α) (a2 : Nat) (ca2 : Color)
    (l2 : Tree α) (va2 : α) (b2 : Nat) (cb2 : Color) (m2 : Tree α) (vb2 : α) (r2 : Tree α)
    (hO2 : s2.Own (ctx2.fill (Tree.node a2 ca2 (Tree.node b2 cb2 l2 vb2 m2) va2 r2))) :
    (∃ s', s1.rotate_left (some a1) = some s' ∧
      s'.Own (ctx1.fill (Tree.node b1 cb1 (Tree.node a1 ca1 l1 va1 m1) vb1 r1)) ∧
      (ctx1.fill (Tree.node b1 cb1 (Tree.node a1 ca1 l1 va1 m1) vb1 r1)).vals =
        (ctx1.fill (Tree.node a1 ca1 l1 va1 (Tree.node b1 cb1 m1 vb1 r1))).vals ∧
      s'.slot_get ctx1.slot = some (some b1) ∧ (ctx1 = [] → s'._root = some b1) ∧
      s'._begin = s1._begin ∧ s'._size = s1._size) ∧
    (∃ s', s2.rotate_right (some a2) = some s' ∧
      s'.Own (ctx2.fill (Tree.node b2 cb2 l2 vb2 (Tree.node a2 ca2 m2 va2 r2))) ∧
      (ctx2.fill (Tree.node b2 cb2 l2 vb2 (Tree.node a2 ca2 m2 va2 r2))).vals =
        (ctx2.fill (Tree.node a2 ca2 (Tree.node b2 cb2 l2 vb2 m2) va2 r2)).vals ∧
      s'.slot_get ctx2.slot = some (some b2) ∧ (ctx2 = [] → s'._root = some b2) ∧
      s'._begin = s2._begin ∧ s'._size = s2._size) := by
  constructor
  · obtain ⟨s', e, m⟩ := rotate_left_ok s1 ctx1 a1 ca1 l1 va1 b1 cb1 m1 vb1 r1 hO1
    have hO := m.own hO1
    refine ⟨s', e, hO, by rw [Tree.vals, Tree.vals, m.cells], slot_get_focus hO, ?_,
      m.step.begin_eq, m.step.size_eq⟩
    rintro rfl
    exact hO.root
  · obtain ⟨s', e, m⟩ := rotate_right_ok s2 ctx2 a2 ca2 l2 va2 b2 cb2 m2 vb2 r2 hO2
    have hO := m.own hO2
    refine ⟨s', e, hO, by rw [Tree.vals, Tree.vals, m.cells], slot_get_focus hO, ?_,
      m.step.begin_eq, m.step.size_eq⟩
    rintro rfl
    exact hO.root

end Set

end SetReview

namespace SetReview

variable {α : Type}

/-! ## Which nodes survive `insert` and `erase` -/

section Lookup

variable [LT α] [DecidableRel (fun a b : α => a < b)]

/-- The node `u` that `erase` unlinks, for a value found at the node `v`: when `v` has at
most one child it is `v`; when `v` has two children it is the rightmost node of the left
subtree of `v`, the node just before `v` in order, whose value `v` takes over. -/
theorem erasePos_cells (x : α) (T : Tree α) (v : Nat) (hf : T.find x = some v) :
    ∃ pv c l xv r ctx u cu ul ur, Path.fill pv (Tree.node v c l xv r) = T ∧
      ¬ x < xv ∧ ¬ xv < x ∧ erasePos x T = some (ctx, Tree.node u cu ul xv ur) ∧
      (((l = Tree.nil ∨ r = Tree.nil) ∧ u = v ∧ T.cells = (Path.before ctx ++ ul.cells) ++
          (u, xv) :: (ur.cells ++ Path.after ctx)) ∨
        (l ≠ Tree.nil ∧ r ≠ Tree.nil ∧ l.rightmost = some u ∧
          ∃ y R, ur.cells ++ Path.after ctx = (v, y) :: R ∧
            T.cells = (Path.before ctx ++ ul.cells) ++ (u, y) :: (v, xv) :: R)) := by
  cases hfp : findPath x [] T with
  | none => rw [findPath_none x T [] hfp] at hf; cases hf
  | some res =>
    obtain ⟨pv, n⟩ := res
    obtain ⟨hfill, v', c, l, xv, r, rfl, hf2, hlt, hgt⟩ := findPath_some x T [] pv n hfp
    simp only [Path.fill_nil] at hfill
    subst hfill
    rw [hf] at hf2
    simp only [Option.some.injEq] at hf2
    subst hf2
    by_cases hboth : l.ptr ≠ none ∧ r.ptr ≠ none
    · obtain ⟨pm, u, cu, ul, y, h1, h2, h3, h4⟩ := maxPath_some l hboth.1
      refine ⟨pv, c, l, xv, r, pm ++ Frame.left v c y r :: pv, u, cu, ul, Tree.nil, rfl, hlt,
        hgt, ?_, Or.inr ⟨fun h => hboth.1 (by rw [h]; rfl), fun h => hboth.2 (by rw [h]; rfl),
          h4, y, r.cells ++ Path.after pv, ?_, ?_⟩⟩
      · simp only [erasePos, hfp, h1]
        rw [if_pos hboth]
      · simp [Path.after_append, Frame.after, h3]
      · rw [← h2]
        simp [Path.cells_fill, Path.before_append, Frame.before, h3]
    · refine ⟨pv, c, l, xv, r, pv, v, c, l, r, rfl, hlt, hgt, ?_, Or.inl ⟨?_, rfl, ?_⟩⟩
      · simp only [erasePos, hfp]
        rw [if_neg hboth]
      · by_cases hl : l.ptr = none
        · exact Or.inl (Tree.ptr_eq_none hl)
        · by_cases hr : r.ptr = none
          · exact Or.inr (Tree.ptr_eq_none hr)
          · exact absurd ⟨hl, hr⟩ hboth
      · simp [Path.cells_fill]

end Lookup

namespace Set

section Order

variable [LT α] [DecidableRel (fun a b : α => a < b)]

/-- The nodes of the tree after `erase` on a value that is found at the node `v`: the
node `u` that is deallocated is `v` when `v` has at most one child, and is the rightmost
node of the left subtree of `v`, just before `v` in order, when `v` has two children, and
`v` holds its value afterwards; every other node keeps its place in the order and its
value. -/
theorem erase_cells [IsTrans α (fun a b : α => a < b)] (s : Set α) (T : Tree α) (x : α)
    (v : Nat) (hI : s.Inv T) (hf : T.find x = some v) :
    ∃ pv c l xv r s' T' u P, Path.fill pv (Tree.node v c l xv r) = T ∧
      ¬ x < xv ∧ ¬ xv < x ∧ s.erase x = some s' ∧ s'.Shape T' ∧ s'.heap u = none ∧
      (((l = Tree.nil ∨ r = Tree.nil) ∧ u = v ∧
          ∃ Q, T.cells = P ++ (u, xv) :: Q ∧ T'.cells = P ++ Q) ∨
        (l ≠ Tree.nil ∧ r ≠ Tree.nil ∧ l.rightmost = some u ∧
          ∃ y R, T.cells = P ++ (u, y) :: (v, xv) :: R ∧ T'.cells = P ++ (v, y) :: R)) := by
  obtain ⟨pv, c, l, xv, r, ctx, u, cu, ul, ur, hfill, hlt, hgt, hpos, hcase⟩ :=
    erasePos_cells x T v hf
  obtain ⟨ctx0, u0, cu0, ul0, xv0, ur0, h0, hch, -, -, -, -, hcol, hrb2, hrb3⟩ :=
    erasePos_spec x T v hf
  rw [hpos] at h0
  simp only [Option.some.injEq, Prod.mk.injEq, Tree.node.injEq] at h0
  obtain ⟨rfl, rfl, rfl, rfl, rfl, rfl⟩ := h0
  obtain ⟨T', hT, -⟩ := splice_RB ctx u cu ul xv ur hch
    (by rw [Tree.RB1, hcol]; exact hI.rb1) (hrb2 hI.rb2) (hrb3 hI.rb3)
  obtain ⟨s', e, hS', -, -, -, hcells, -, hfree⟩ :=
    erase_found hI.shape x v hf ctx u cu ul xv ur T' hpos hT
  refine ⟨pv, c, l, xv, r, s', T', u, Path.before ctx ++ ul.cells, hfill, hlt, hgt, e, hS',
    hfree, ?_⟩
  rcases hcase with ⟨hone, huv, hc⟩ | ⟨hl, hr, hmax, y, R, hR, hc⟩
  · refine Or.inl ⟨hone, huv, ur.cells ++ Path.after ctx, hc, ?_⟩
    rw [hcells]
    simp
  · refine Or.inr ⟨hl, hr, hmax, y, R, hc, ?_⟩
    rw [hcells, ← hR]
    simp

/-- C14, as the code has it: on a set that satisfies the invariants, `insert(x)` returns
and every node of the tree is still in the tree and holds the value it held; `erase(x)`
changes nothing when no element is equivalent to `x`; otherwise, with `v` the node that
holds the element equivalent to `x`, `erase(x)` returns and deallocates one node `u` of
the tree, which is no longer in the tree, and every node other than `u` and `v` is still
in the tree and holds the value it held.  When `v` has at most one child, `u` is `v`.
When `v` has two children, `u` is another node, the rightmost node of the left subtree
of `v` (its in-order predecessor), and `v` stays in the tree and holds afterwards the
value `y` that `u` held. -/
theorem node_stability [IsTrans α (fun a b : α => a < b)] (moved : α → α) (s : Set α)
    (T : Tree α) (x : α) (hI : s.Inv T) :
    (∃ s' T', s.insert moved x = some s' ∧ s'.Shape T' ∧
      ∀ a w, (a, w) ∈ T.cells →
        (a, w) ∈ T'.cells ∧ ∃ n, s'.heap a = some n ∧ n.value = w) ∧
    (((∀ y ∈ T.vals, x < y ∨ y < x) ∧ s.erase x = some s) ∨
      ∃ ctx v c l xv r s' T' u, T = Path.fill ctx (Tree.node v c l xv r) ∧
        ¬ x < xv ∧ ¬ xv < x ∧ s.erase x = some s' ∧ s'.Shape T' ∧
        u ∈ T.addrs ∧ u ∉ T'.addrs ∧ s'.heap u = none ∧
        (∀ a w, (a, w) ∈ T.cells → a ≠ u → a ≠ v →
          (a, w) ∈ T'.cells ∧ ∃ n, s'.heap a = some n ∧ n.value = w) ∧
        ((l = Tree.nil ∨ r = Tree.nil) → u = v) ∧
        (l ≠ Tree.nil → r ≠ Tree.nil → u ≠ v ∧ l.rightmost = some u ∧
          ∃ y, (u, y) ∈ T.cells ∧ (v, y) ∈ T'.cells ∧
            ∃ n, s'.heap v = some n ∧ n.value = y)) := by
  constructor
  · rcases insert_full moved s T x hI.shape hI.bst hI.rb1 hI.rb2 hI.rb3 with
      ⟨a, v, -, -, -, -, e⟩ | ⟨p, s', T', c, -, e, hS', -, -, -, -, -, hc, hc', -⟩
    · exact ⟨s, T, e, hI.shape, fun a w h => ⟨h, hI.shape.value_at h⟩⟩
    · refine ⟨s', T', e, hS', fun a w h => ?_⟩
      have h' : (a, w) ∈ T'.cells := by
        rw [hc] at h
        rw [hc']
        simp only [List.mem_append, List.mem_cons] at h ⊢
        tauto
      exact ⟨h', hS'.value_at h'⟩
  · cases hf : T.find x with
    | none => exact Or.inl ⟨Tree.find_none x T hI.bst hf, erase_absent hI.shape x hf⟩
    | some v =>
      right
      obtain ⟨pv, c, l, xv, r, s', T', u, P, hfill, hlt, hgt, e, hS', hfree, hcase⟩ :=
        erase_cells s T x v hI hf
      have hN := hI.shape.nodup
      rcases hcase with ⟨hone, huv, Q, hc, hc'⟩ | ⟨hl, hr, hmax, y, R, hc, hc'⟩
      · have hA : T.addrs = P.map Prod.fst ++ u :: Q.map Prod.fst := by
          simp [Tree.addrs, hc]
        have hA' : T'.addrs = P.map Prod.fst ++ Q.map Prod.fst := by simp [Tree.addrs, hc']
        rw [hA] at hN
        obtain ⟨-, hu, -⟩ := nodup_remove hN
        refine ⟨pv, v, c, l, xv, r, s', T', u, hfill.symm, hlt, hgt, e, hS', by simp [hA],
          by rw [hA']; exact hu, hfree, ?_, fun _ => huv, ?_⟩
        · intro a w h hau _
          have h' : (a, w) ∈ T'.cells := by
            rw [hc] at h
            rw [hc']
            simp only [List.mem_append, List.mem_cons, Prod.mk.injEq, hau, false_and,
              false_or] at h ⊢
            exact h
          exact ⟨h', hS'.value_at h'⟩
        · intro hl hr
          rcases hone with h | h
          · exact absurd h hl
          · exact absurd h hr
      · have hvy : (v, y) ∈ T'.cells := by simp [hc']
        have huy : (u, y) ∈ T.cells := by simp [hc]
        have hA : T.addrs = P.map Prod.fst ++ u :: (v :: R.map Prod.fst) := by
          simp [Tree.addrs, hc]
        have hA' : T'.addrs = P.map Prod.fst ++ (v :: R.map Prod.fst) := by
          simp [Tree.addrs, hc']
        rw [hA] at hN
        obtain ⟨-, hu, -⟩ := nodup_remove hN
        have huv : u ≠ v := by
          intro h
          apply hu
          simp [h]
        refine ⟨pv, v, c, l, xv, r, s', T', u, hfill.symm, hlt, hgt, e, hS', by simp [hA],
          by rw [hA']; exact hu, hfree, ?_, ?_,
          fun _ _ => ⟨huv, hmax, y, huy, hvy, hS'.value_at hvy⟩⟩
        · intro a w h hau hav
          have h' : (a, w) ∈ T'.cells := by
            rw [hc] at h
            rw [hc']
            simp only [List.mem_append, List.mem_cons, Prod.mk.injEq, hau, hav, false_and,
              false_or] at h ⊢
            exact h
          exact ⟨h', hS'.value_at h'⟩
        · rintro (h | h)
          · exact absurd h hl
          · exact absurd h hr

end Order

set_option maxRecDepth 100000 in
/-- C14 fails as stated: in the set of Scenario 1 the node at address 4 holds the value
4, which is not equivalent to 5, and after `erase(5)` that node is deallocated; the value
4 is then held by the node at address 0, which held 5. -/
theorem erase_destroys_predecessor :
    ¬ (∀ a n, scenario1.heap a = some n → a ∈ scenario1Tree.addrs →
        ¬ (¬ 5 < n.value ∧ ¬ n.value < 5) →
        ∃ s' n', scenario1.erase 5 = some s' ∧ s'.heap a = some n' ∧
          n'.value = n.value) := by
  intro h
  have h4 : scenario1.heap 4 = some ⟨4, none, none, some 1, Color.red⟩ := by decide
  obtain ⟨s', n', e, e', -⟩ := h 4 _ h4 (by decide) (by decide)
  have h5 : (scenario1.erase 5).bind (fun t => t.heap 4) = none := by decide
  rw [e] at h5
  simp only [Option.bind] at h5
  rw [e'] at h5
  cases h5

end Set

end SetReview

namespace SetReview

variable {α : Type}

namespace Tree

theorem rightmost_node_nil (a : Nat) (c : Color) (l : Tree α) (v : α) :
    (node a c l v nil).rightmost = some a := rfl

theorem rightmost_node_node (a : Nat) (c : Color) (l : Tree α) (v : α) (b : Nat) (cb : Color)
    (rl : Tree α) (vb : α) (rr : Tree α) :
    (node a c l v (node b cb rl vb rr)).rightmost = (node b cb rl vb rr).rightmost := rfl

theorem rightmost_eq_none : ∀ {t : Tree α}, t.rightmost = none → t = nil
  | nil, _ => rfl
  | node a c l v nil, h => by cases h
  | node a c l v (node b cb rl vb rr), h => by
    rw [rightmost_node_node] at h
    cases rightmost_eq_none h

/-- The rightmost node is the last node of the in-order traversal. -/
theorem rightmost_eq_getLast : ∀ (t : Tree α), t.rightmost = t.addrs.getLast?
  | nil => rfl
  | node a c l v nil => by simp [rightmost_node_nil, Tree.addrs, Tree.cells]
  | node a c l v (node b cb rl vb rr) => by
    rw [rightmost_node_node, rightmost_eq_getLast (node b cb rl vb rr)]
    have h : (node b cb rl vb rr).addrs ≠ [] := by simp [Tree.addrs, Tree.cells]
    have e : (node a c l v (node b cb rl vb rr)).addrs =
        (l.addrs ++ [a]) ++ (node b cb rl vb rr).addrs := by
      simp [Tree.addrs, Tree.cells]
    rw [e, List.getLast?_append_of_ne_nil _ h]

end Tree

namespace Path

/-- The node that precedes an exhausted subtree, with what comes before it. -/
theorem prevUp_cases : ∀ (ctx : Path α) (t : Tree α),
    (prevUp ctx = none ∧ ctx.before = []) ∨
    ∃ a c l v r ctx', fill ctx' (Tree.node a c l v r) = fill ctx t ∧ prevUp ctx = some a ∧
      ctx.before = (before (Frame.left a c v r :: ctx') ++ l.cells) ++ [(a, v)]
  | [], _ => Or.inl ⟨rfl, rfl⟩
  | Frame.right a c l v :: up, t =>
    Or.inr ⟨a, c, l, v, t, up, rfl, rfl, by simp [before, Frame.before]⟩
  | Frame.left a c v r :: up, t => by
    rcases prevUp_cases up (Tree.node a c t v r) with h | ⟨a', c', l', v', r', ctx', h1, h2, h3⟩
    · exact Or.inl ⟨h.1, by simp [before, Frame.before, h.2]⟩
    · exact Or.inr ⟨a', c', l', v', r', ctx', h1, h2, by
        simp only [before, Frame.before, List.append_nil] at h3 ⊢
        exact h3⟩

/-- The last node of what remains to be visited backwards, with what comes before it. -/
theorem last_cases : ∀ (t : Tree α) (ctx : Path α),
    (last t ctx = none ∧ ctx.before ++ t.cells = []) ∨
    ∃ a c l v r ctx', fill ctx' (Tree.node a c l v r) = fill ctx t ∧ last t ctx = some a ∧
      ctx.before ++ t.cells = (before (Frame.left a c v r :: ctx') ++ l.cells) ++ [(a, v)]
  | Tree.nil, ctx => by
    simpa [last, Tree.rightmost] using prevUp_cases ctx Tree.nil
  | Tree.node a c l v Tree.nil, ctx =>
    Or.inr ⟨a, c, l, v, Tree.nil, ctx, rfl, rfl, by simp [before, Frame.before]⟩
  | Tree.node a c l v (Tree.node b cb rl vb rr), ctx => by
    rcases last_cases (Tree.node b cb rl vb rr) (Frame.right a c l v :: ctx) with
      h | ⟨a', c', l', v', r', ctx', h1, h2, h3⟩
    · simp at h
    · refine Or.inr ⟨a', c', l', v', r', ctx', h1, ?_, ?_⟩
      · simp only [last, Tree.rightmost_node_node] at h2 ⊢
        cases hl : (Tree.node b cb rl vb rr).rightmost with
        | none => cases Tree.rightmost_eq_none hl
        | some z =>
          rw [hl] at h2
          exact h2
      · rw [← h3]
        simp [before, Frame.before]

end Path

namespace Set

/-- The upward loop of `prev` ends at the nearest ancestor reached from the right. -/
theorem climb_left_sim : ∀ (k : Nat) (ctx : Path α) (t : Tree α) (s : Set α) (a : Nat),
    s.Own (ctx.fill t) → t.ptr = some a → ctx.length < k →
    s.climb_left k (some a) ctx.ptr = some ctx.prevUp
  | 0, _, _, _, _, _, _, hk => absurd hk (Nat.not_lt_zero _)
  | k + 1, [], t, s, a, _, _, _ => rfl
  | k + 1, Frame.right b cb lb vb :: up, t, s, a, hO, ht, _ => by
    have h1 := node_parent hO
    have h2 := sibling_ptr_ne hO ht
    simp only [Frame.addr, Frame.cell] at h1
    simp only [Frame.sibling] at h2
    simp only [Set.climb_left, Path.ptr_cons, Frame.addr, h1, bind, Option.bind, Ne.symm h2,
      if_false, pure, Path.prevUp]
  | k + 1, Frame.left b cb vb rb :: up, t, s, a, hO, ht, hk => by
    have h1 := node_parent hO
    simp only [Frame.addr, Frame.cell] at h1
    have ih := climb_left_sim k up ((Frame.left b cb vb rb).plug t) s b hO rfl
      (by simp only [List.length_cons] at hk; omega)
    simp only [Set.climb_left, Path.ptr_cons, Frame.addr, h1, bind, Option.bind, ht, if_true,
      ih, Path.prevUp]

/-- The function `prev` steps from a node to its in-order predecessor. -/
theorem prev_sim {s : Set α} {T : Tree α} (hS : s.Shape T) (ctx : Path α) (a : Nat) (c : Color)
    (l : Tree α) (v : α) (r : Tree α) (hT : ctx.fill (Tree.node a c l v r) = T) :
    s.prev (some a) = some (Path.last l (Frame.left a c v r :: ctx)) := by
  have hO : s.Own (ctx.fill (Tree.node a c l v r)) := hT ▸ hS.owns
  have hfuel := height_lt_fuel hS.nodup hS.bound
  have hlen := Path.length_le_height ctx (Tree.node a c l v r)
  rw [hT] at hlen
  simp only [Tree.height] at hlen
  have h2 := node_focus hO
  cases l with
  | nil =>
    have h3 := climb_left_sim s.fuel ctx _ s a hO rfl (by omega)
    simp only [Set.prev, h2, bind, Option.bind, Tree.ptr_nil, h3, Path.last, Tree.rightmost,
      Path.prevUp]
  | node b cb ll vb lr =>
    have h3 := descend_right_sim s.fuel (Frame.left a c v r :: ctx) (Tree.node b cb ll vb lr) s
      hO (by simp) (by omega)
    simp only [Tree.ptr_node] at h3
    have h4 : ∃ z, (Tree.node b cb ll vb lr).rightmost = some z := by
      cases h : (Tree.node b cb ll vb lr).rightmost with
      | none => cases Tree.rightmost_eq_none h
      | some z => exact ⟨z, rfl⟩
    obtain ⟨z, hz⟩ := h4
    simp only [Set.prev, h2, bind, Option.bind, Tree.ptr_node, h3, Path.last, hz]

/-- The function `prev` steps from `end()` to the rightmost node. -/
theorem prev_end {s : Set α} {T : Tree α} (hS : s.Shape T) :
    s.prev none = some T.rightmost := by
  have hfuel := height_lt_fuel hS.nodup hS.bound
  cases T with
  | nil =>
    have hr : s._root = none := hS.root
    simp only [Set.prev, hr]
    rfl
  | node a c l v r =>
    have hr : s._root = some a := hS.root
    have h3 := descend_right_sim s.fuel [] (Tree.node a c l v r) s hS.owns (by simp) hfuel
    simp only [Tree.ptr_node] at h3
    simp only [Set.prev, hr, h3]

/-- A node is the one `begin()` references exactly when no node precedes it. -/
theorem begin_iff {s : Set α} {T : Tree α} (hS : s.Shape T) (hb : s._begin = T.leftmost)
    (ctx : Path α) (a : Nat) (c : Color) (l : Tree α) (v : α) (r : Tree α)
    (hT : ctx.fill (Tree.node a c l v r) = T) :
    some a = s.begin ↔ Path.before (Frame.left a c v r :: ctx) ++ l.cells = [] := by
  have hN := hS.nodup
  have hA : T.addrs = (Path.before (Frame.left a c v r :: ctx) ++ l.cells).map Prod.fst ++
      a :: (r.cells ++ ctx.after).map Prod.fst := by
    rw [← hT, Tree.addrs, Path.cells_fill]
    simp [Path.before, Frame.before, Tree.cells]
  rw [hA] at hN
  simp only [Set.begin, hb, Tree.leftmost_eq_head, hA]
  cases hB : Path.before (Frame.left a c v r :: ctx) ++ l.cells with
  | nil => simp
  | cons b0 B =>
    rw [hB] at hN
    simp only [List.map_cons, List.cons_append, List.head?_cons, Option.some.injEq,
      reduceCtorEq, iff_false]
    intro h
    subst h
    simp at hN

/-- Iteration with `prev` from a position visits the nodes before it in reverse order. -/
theorem iterate_back_sim {s : Set α} {T : Tree α}
    (hS : s.Shape T) (hb : s._begin = T.leftmost) :
    ∀ (k : Nat) (t : Tree α) (ctx : Path α) (it : Ptr), ctx.fill t = T →
    (ctx.before ++ t.cells).length < k → s.prev it = some (Path.last t ctx) →
    (it = s.begin ↔ ctx.before ++ t.cells = []) →
    s.iterate_back k it = some ((ctx.before ++ t.cells).map Prod.snd).reverse
  | 0, _, _, _, _, hk, _, _ => absurd hk (Nat.not_lt_zero _)
  | k + 1, t, ctx, it, hT, hk, hp, hi => by
    rcases Path.last_cases t ctx with h | ⟨a, c, l, v, r, ctx', h1, h2, h3⟩
    · rw [h.2]
      simp only [Set.iterate_back, hi.2 h.2, if_true]
      rfl
    · rw [hT] at h1
      have hO : s.Own (ctx'.fill (Tree.node a c l v r)) := h1 ▸ hS.owns
      have hn := node_focus hO
      have hx := prev_sim hS ctx' a c l v r h1
      have hne : ¬ it = s.begin := by
        intro e
        have := hi.1 e
        rw [h3] at this
        simp at this
      rw [h3] at hk ⊢
      have ih := iterate_back_sim hS hb k l (Frame.left a c v r :: ctx') (some a) h1
        (by simp only [List.length_append, List.length_cons, List.length_nil] at hk ⊢; omega)
        hx (begin_iff hS hb ctx' a c l v r h1)
      simp only [Set.iterate_back, hne, if_false, hp, h2, hn, ih, bind, Option.bind, pure,
        List.map_append, List.map_cons, List.map_nil, List.reverse_append, List.reverse_cons,
        List.reverse_nil, List.nil_append, List.singleton_append]

/-- Backward iteration from `end()` yields the reversed in-order traversal when
`_begin` points to the leftmost node. -/
theorem toListBack_eq {s : Set α} {T : Tree α}
    (hS : s.Shape T) (hb : s._begin = T.leftmost) : s.toListBack = some T.vals.reverse := by
  have hl : Path.last T ([] : Path α) = T.rightmost := by
    simp only [Path.last, Path.prevUp]
    cases T.rightmost <;> rfl
  have hi : (none : Ptr) = s.begin ↔ Path.before ([] : Path α) ++ T.cells = [] := by
    simp only [Set.begin, hb, Path.before, List.nil_append]
    constructor
    · intro h
      rw [Tree.leftmost_eq_none h.symm]
      rfl
    · intro h
      cases T with
      | nil => rfl
      | node a c l v r => simp [Tree.cells] at h
  have h := iterate_back_sim hS hb s.fuel T [] none rfl (by
    have h1 := length_le_of_nodup_lt hS.nodup hS.bound
    simp only [Tree.addrs, List.length_map] at h1
    simp only [Path.before, List.nil_append, Set.fuel]
    omega) (by rw [hl]; exact prev_end hS) hi
  simp only [Path.before, List.nil_append] at h
  simp only [Set.toListBack, Set.«end»]
  exact h

end Set

end SetReview

namespace SetReview

variable {α : Type}

namespace Set

variable [LT α]

/-- Backward iteration on a non-empty well-formed set (parent links consistent, BST
order) whose `_begin` is the leftmost node: `prev(end())` is the node that holds the
maximum, its value being an element that every other element is less than; forward
iteration yields the in-order values, and backward iteration with `--` from `end()`
until `begin()` returns and yields exactly their reverse, which is strictly
decreasing. -/
theorem backward_iteration [IsTrans α (fun a b : α => a < b)] (s : Set α) (T : Tree α)
    (hS : s.Shape T) (hb : T.BST) (hbeg : s._begin = T.leftmost) (hne : T ≠ Tree.nil) :
    (∃ a n, s.prev s.end = some (some a) ∧ s.heap a = some n ∧ n.value ∈ T.vals ∧
      ∀ y ∈ T.vals, y = n.value ∨ y < n.value) ∧
    s.toList = some T.vals ∧ s.toListBack = some T.vals.reverse ∧
      T.vals.reverse.Pairwise (fun a b => b < a) := by
  have hsorted := (Tree.BST_iff_sorted T).1 hb
  refine ⟨?_, toList_eq hS hbeg, toListBack_eq hS hbeg, ?_⟩
  · rcases Path.last_cases T [] with h | ⟨a, c, l, v, r, ctx', h1, h2, h3⟩
    · have h0 := h.2
      simp only [Path.before, List.nil_append] at h0
      cases T with
      | nil => exact absurd rfl hne
      | node a c l v r => simp [Tree.cells] at h0
    · simp only [Path.fill] at h1
      have hO : s.Own (ctx'.fill (Tree.node a c l v r)) := h1 ▸ hS.owns
      have hn := node_focus hO
      have hl : Path.last T ([] : Path α) = T.rightmost := by
        simp only [Path.last, Path.prevUp]
        cases T.rightmost <;> rfl
      have hp := prev_end hS
      rw [← hl, h2] at hp
      simp only [Path.before, List.nil_append] at h3
      have hv : T.vals = (Path.before (Frame.left a c v r :: ctx') ++ l.cells).map Prod.snd ++
          [v] := by
        rw [Tree.vals, h3, List.map_append]
        rfl
      refine ⟨a, ⟨v, l.ptr, r.ptr, ctx'.ptr, c⟩, hp, hn, ?_, ?_⟩
      · rw [hv]
        simp
      · intro y hy
        rw [hv] at hy hsorted
        rcases List.mem_append.1 hy with hy | hy
        · exact Or.inr ((List.pairwise_append.1 hsorted).2.2 y hy v (by simp))
        · exact Or.inl (by simpa using hy)
  · rw [List.pairwise_reverse]
    exact hsorted

end Set

end SetReview

namespace SetReview

variable {α : Type}

namespace Set

/-! ## Allocation failure -/

section Alloc

variable [LT α] [DecidableRel (fun a b : α => a < b)]

/-- When `new` throws in `insert(x)` for a value with no equivalent in the set, the
exception leaves the memory, `_root` and `_begin` as they were and `_size` one larger
than before the call. -/
theorem insert_alloc_thrown (moved : α → α) (s : Set α) (T : Tree α) (x : α)
    (hS : s.Shape T) (hx : ∀ y ∈ T.vals, x < y ∨ y < x) :
    s.insert_alloc false moved x = some (Outcome.thrown { s with _size := s._size + 1 }) := by
  have hloop := insert_loop_sim x s.fuel [] T s hS.owns (height_lt_fuel hS.nodup hS.bound)
  simp only [Path.ptr_empty, Path.slot] at hloop
  cases hp : insPath x [] T with
  | none =>
    obtain ⟨a, v, -, hm, h1, h2⟩ := insPath_none x T [] hp
    rcases hx v (List.mem_map.2 ⟨(a, v), hm, rfl⟩) with h | h
    · exact absurd h h1
    · exact absurd h h2
  | some q =>
    rw [hp] at hloop
    simp only [Set.insert_alloc, hloop, bind, Option.bind, Option.map_some', pure]
    rfl

end Alloc

/-- C17: `insert(1)` on the empty `Set<int>` with `new` throwing at line 424: the
exception leaves `insert` with `_root` and `_begin` null, no node allocated, and
`size() == 1`, although the set is empty and `size()` was 0 before the call. -/
theorem insert_failure_size :
    (Set.ctor : Set Nat).size = 0 ∧
    ∃ s, Set.insert_alloc false id (Set.ctor : Set Nat) 1 = some (Outcome.thrown s) ∧
      s._root = none ∧ s._begin = none ∧ (∀ a, s.heap a = none) ∧ s.size = 1 ∧
      s.toList = some [] :=
  ⟨rfl, _, rfl, rfl, rfl, fun _ => rfl, rfl, rfl⟩

set_option maxRecDepth 100000 in
/-- C18: `clone` of the tree of the set built from 2 and 1 when the second `new` throws:
the first allocation, the copy of the root at address 2, is still allocated when the
exception leaves `clone`, and no pointer to it is returned; the source nodes at
addresses 0 and 1 are unchanged. -/
theorem clone_failure_leak :
    scenarioPair.fresh = 2 ∧
    ∃ s, scenarioPair.clone scenarioPair.fuel 1 scenarioPair._root none =
        some (Outcome.thrown s) ∧
      s.heap 2 = some ⟨2, none, none, none, Color.black⟩ ∧
      s.heap 0 = scenarioPair.heap 0 ∧ s.heap 1 = scenarioPair.heap 1 ∧
      s._root = scenarioPair._root :=
  ⟨by decide, _, rfl, by decide, by decide, by decide, by decide⟩

end Set

end SetReview

namespace SetReview

variable {α : Type}

/-! ## Copy construction -/

namespace Tree

theorem relabel_size : ∀ (t : Tree α) (b : Nat), (t.relabel b).size = t.size
  | nil, _ => rfl
  | node a c l v r, b => by
    simp only [relabel, size, relabel_size l, relabel_size r]

/-- The copy has the shape, the colours and the values of the source. -/
theorem relabel_shape : ∀ (t : Tree α) (b : Nat), (t.relabel b).shape = t.shape
  | nil, _ => rfl
  | node a c l v r, b => by
    simp only [relabel, shape, relabel_shape l, relabel_shape r]

theorem relabel_vals : ∀ (t : Tree α) (b : Nat), (t.relabel b).vals = t.vals
  | nil, _ => rfl
  | node a c l v r, b => by
    simp only [relabel, vals_node, relabel_vals l, relabel_vals r]

/-- The addresses of the copy are the next `size` addresses. -/
theorem relabel_addrs_range : ∀ (t : Tree α) (b : Nat),
    ∀ a ∈ (t.relabel b).addrs, b ≤ a ∧ a < b + t.size
  | nil, _, a, h => by simp [relabel] at h
  | node x c l v r, b, a, h => by
    simp only [relabel, addrs_node, List.mem_append, List.mem_cons] at h
    simp only [size]
    rcases h with h | h | h
    · have := relabel_addrs_range l (b + 1) a h
      omega
    · omega
    · have := relabel_addrs_range r (b + 1 + l.size) a h
      omega

theorem relabel_nodup : ∀ (t : Tree α) (b : Nat), (t.relabel b).addrs.Nodup
  | nil, _ => by simp [relabel]
  | node x c l v r, b => by
    simp only [relabel, addrs_node]
    rw [List.nodup_append]
    refine ⟨relabel_nodup l _, ?_, ?_⟩
    · rw [List.nodup_cons]
      refine ⟨?_, relabel_nodup r _⟩
      intro h
      have := relabel_addrs_range r _ _ h
      omega
    · intro a h1 h2
      have e1 := relabel_addrs_range l _ _ h1
      rcases List.mem_cons.1 h2 with h2 | h2
      · omega
      · have e2 := relabel_addrs_range r _ _ h2
        omega

theorem relabel_ptr_node (x : Nat) (c : Color) (l : Tree α) (v : α) (r : Tree α) (b : Nat) :
    ((node x c l v r).relabel b).ptr = some b := rfl

end Tree

namespace Set

/-- With enough allocations left `clone` returns a copy of the subtree at the next unused
addresses and writes nowhere else. -/
theorem clone_sim : ∀ (k n : Nat) (t : Tree α) (s : Set α) (par p : Ptr),
    t.Repr s.heap par → (∀ a ∈ t.addrs, a < s.fresh) → t.height < k → t.size ≤ n →
    ∃ s', s.clone k n t.ptr p =
        some (Outcome.returned s' ((t.relabel s.fresh).ptr, n - t.size)) ∧
      s'.fresh = s.fresh + t.size ∧
      (∀ a, a < s.fresh → s'.heap a = s.heap a) ∧
      (∀ a, s.fresh + t.size ≤ a → s'.heap a = s.heap a) ∧
      (t.relabel s.fresh).Repr s'.heap p ∧
      s'._root = s._root ∧ s'._begin = s._begin ∧ s'._size = s._size
  | 0, _, _, _, _, _, _, _, hk, _ => absurd hk (Nat.not_lt_zero _)
  | k + 1, n, Tree.nil, s, par, p, _, _, _, _ =>
    ⟨s, rfl, rfl, fun _ _ => rfl, fun _ _ => rfl, trivial, rfl, rfl, rfl⟩
  | k + 1, n, Tree.node x c l v r, s, par, p, hr, hb, hk, hn => by
    simp only [Tree.repr_node] at hr
    simp only [Tree.height] at hk
    simp only [Tree.size] at hn
    obtain ⟨m, rfl⟩ : ∃ m, n = m + 1 := ⟨n - 1, by omega⟩
    have hxb : x < s.fresh := hb x (by simp)
    have hlb : ∀ a ∈ l.addrs, a < s.fresh := fun a h => hb a (by simp [h])
    have hrb : ∀ a ∈ r.addrs, a < s.fresh := fun a h => hb a (by simp [h])
    obtain ⟨s2, e2, f2, lo2, hi2, r2, ro2, be2, si2⟩ := clone_sim k m l
      { s with heap := Function.update s.heap s.fresh (some ⟨v, none, none, p, c⟩),
               fresh := s.fresh + 1 } (some x) (some s.fresh)
      ((Tree.repr_update (fun h => Nat.lt_irrefl _ (hlb _ h))).2 hr.2.1)
      (fun a h => Nat.lt_succ_of_lt (hlb a h)) (by omega) (by omega)
    simp only [] at e2 f2 lo2 hi2 r2 ro2 be2 si2
    have h2f : s2.heap s.fresh = some ⟨v, none, none, p, c⟩ := by
      rw [lo2 s.fresh (by omega), Function.update_same]
    have h2x : ∀ a, a < s.fresh → s2.heap a = s.heap a := by
      intro a ha
      rw [lo2 a (by omega), Function.update_noteq (by omega)]
    obtain ⟨s4, e4, f4, lo4, hi4, r4, ro4, be4, si4⟩ := clone_sim k (m - l.size) r
      { s2 with heap := Function.update s2.heap s.fresh
                  (some ⟨v, (l.relabel (s.fresh + 1)).ptr, none, p, c⟩) } (some x) (some s.fresh)
      (Tree.repr_congr (fun z hz => by
          have := hrb z hz
          simp only []
          rw [Function.update_noteq (by omega), h2x z this]) hr.2.2)
      (fun a h => by
        have := hrb a h
        simp only [f2]
        omega) (by omega) (by omega)
    simp only [f2] at e4 f4 lo4 hi4 r4 ro4 be4 si4
    have h4f : s4.heap s.fresh = some ⟨v, (l.relabel (s.fresh + 1)).ptr, none, p, c⟩ := by
      rw [lo4 s.fresh (by omega), Function.update_same]
    refine ⟨⟨Function.update s4.heap s.fresh (some
        ⟨v, (l.relabel (s.fresh + 1)).ptr, (r.relabel (s.fresh + 1 + l.size)).ptr, p, c⟩),
      s4.fresh, s4._root, s4._begin, s4._size⟩, ?_, ?_, ?_, ?_, ?_, ?_, ?_, ?_⟩
    · have hnx : s2.heap x = some ⟨v, l.ptr, r.ptr, par, c⟩ := by rw [h2x x hxb, hr.1]
      have hnx' : Function.update s2.heap s.fresh
          (some ⟨v, (l.relabel (s.fresh + 1)).ptr, none, p, c⟩) x =
          some ⟨v, l.ptr, r.ptr, par, c⟩ := by
        rw [Function.update_noteq (by omega), hnx]
      have hsub : m + 1 - (l.size + 1 + r.size) = m - l.size - r.size := by omega
      simp only [Set.clone, Tree.ptr_node, Set.node, hr.1, bind, Option.bind, Set.alloc, e2, f2,
        Set.write, h2f, hnx', e4, h4f, Tree.relabel_ptr_node, Tree.size, hsub]
    · simp only [f4, Tree.size]
      omega
    · intro a ha
      simp only []
      rw [Function.update_noteq (by omega), lo4 a (by omega),
        Function.update_noteq (by omega), h2x a ha]
    · intro a ha
      simp only [Tree.size] at ha
      simp only []
      rw [Function.update_noteq (by omega), hi4 a (by omega),
        Function.update_noteq (by omega), hi2 a (by omega), Function.update_noteq (by omega)]
    · simp only [Tree.relabel, Tree.repr_node, Function.update_same, true_and]
      constructor
      · refine Tree.repr_congr (fun z hz => ?_) r2
        have := Tree.relabel_addrs_range l _ z hz
        rw [Function.update_noteq (by omega), lo4 z (by omega),
          Function.update_noteq (by omega)]
      · refine Tree.repr_congr (fun z hz => ?_) r4
        have := Tree.relabel_addrs_range r _ z hz
        rw [Function.update_noteq (by omega)]
    · simp only [ro4, ro2]
    · simp only [be4, be2]
    · simp only [si4, si2]

end Set

end SetReview

namespace SetReview

variable {α : Type}

namespace Set

/-- For every well-formed source set with tree `T`, the copy constructor (with
enough memory for `T.size` nodes) returns; the copy is a well-formed set whose tree `C`
has the shape of `T` with the same value and the same colour at every position, every
parent link of `C` pointing to the copy of the parent (null at the root); the nodes of
`C` are newly allocated, none shared with `T`; `size()` of the copy is `size()` of the
source; `_begin` of the copy is the leftmost node of `C`; forward iteration over the copy
yields the in-order values of `T`, which is forward iteration over the source when the
begin cache of the source is valid; and every node of the source is left as it was, the
memory still holding `T`. -/
theorem copy_construction (n : Nat) (src : Set α) (T : Tree α) (hS : src.Shape T)
    (hn : T.size ≤ n) :
    ∃ s C, src.copy_ctor n = some (Outcome.returned s ()) ∧ s.Shape C ∧
      C.shape = T.shape ∧ C.vals = T.vals ∧ C.size = T.size ∧
      (∀ a ∈ C.addrs, src.fresh ≤ a ∧ a ∉ T.addrs) ∧
      s.size = src.size ∧ s._begin = C.leftmost ∧ s.toList = some T.vals ∧
      (src._begin = T.leftmost → s.toList = src.toList) ∧
      (∀ a, a < src.fresh → s.heap a = src.heap a) ∧ T.Repr s.heap none := by
  have hfuel := height_lt_fuel hS.nodup hS.bound
  have hroot := hS.root
  obtain ⟨s1, e1, f1, lo1, -, r1, -, -, -⟩ := clone_sim src.fuel n T
    { src with _root := none, _begin := none, _size := 0 } none none hS.repr hS.bound hfuel hn
  simp only [] at e1 f1 lo1 r1
  have hrange := Tree.relabel_addrs_range T src.fresh
  have hnd := Tree.relabel_nodup T src.fresh
  have hsrc : T.Repr s1.heap none :=
    Tree.repr_congr (fun z hz => lo1 z (hS.bound z hz)) hS.repr
  have hfresh : ∀ a ∈ (T.relabel src.fresh).addrs, src.fresh ≤ a ∧ a ∉ T.addrs := by
    intro a ha
    have h1 := hrange a ha
    refine ⟨h1.1, fun h => ?_⟩
    have := hS.bound a h
    omega
  have hlist : ∀ s : Set α, s.Shape (T.relabel src.fresh) →
      s._begin = (T.relabel src.fresh).leftmost →
      s.toList = some T.vals ∧ (src._begin = T.leftmost → s.toList = src.toList) := by
    intro s h1 h2
    have h3 := toList_eq h1 h2
    rw [Tree.relabel_vals] at h3
    exact ⟨h3, fun hb => by rw [h3, toList_eq hS hb]⟩
  cases T with
  | nil =>
    have hsh : Set.Shape { s1 with _root := none, _size := src._size, _begin := none }
        (Tree.nil : Tree α) :=
      ⟨trivial, rfl, List.nodup_nil, fun a h => by simp at h, fun a h => by cases h⟩
    refine ⟨{ s1 with _root := none, _size := src._size, _begin := none }, Tree.nil, ?_, hsh,
      rfl, rfl, rfl, fun a h => by simp at h, rfl, rfl,
      (hlist _ hsh rfl).1, (hlist _ hsh rfl).2, lo1, trivial⟩
    simp only [Tree.relabel, Tree.ptr_nil] at e1
    simp only [Set.copy_ctor, Set.fuel, bind, Option.bind, pure, hroot, Tree.ptr_nil] at e1 ⊢
    simp only [e1]
    try rfl
  | node x c l v r =>
    have hsh : Set.Shape (⟨s1.heap, s1.fresh, some src.fresh,
        ((Tree.node x c l v r).relabel src.fresh).leftmost, src._size⟩ : Set α)
        ((Tree.node x c l v r).relabel src.fresh) :=
      ⟨r1, rfl, hnd, fun a h => by
        have := hrange a h
        simp only [f1]
        omega, fun a h => Tree.leftmost_mem h⟩
    have hO : Set.Own (⟨s1.heap, s1.fresh, some src.fresh,
        some src.fresh, src._size⟩ : Set α) (Path.fill [] ((Tree.node x c l v r).relabel src.fresh)) :=
      ⟨r1, rfl, hnd⟩
    have hd := descend_left_sim (s1.fresh + 1) [] ((Tree.node x c l v r).relabel src.fresh)
      ⟨s1.heap, s1.fresh, some src.fresh, some src.fresh, src._size⟩ hO
      (by simp [Tree.relabel]) (by
        have h := height_lt_fuel hsh.nodup hsh.bound
        simp only [Set.fuel] at h
        exact h)
    simp only [Tree.relabel_ptr_node] at hd e1
    refine ⟨(⟨s1.heap, s1.fresh, some src.fresh,
        ((Tree.node x c l v r).relabel src.fresh).leftmost, src._size⟩ : Set α),
      (Tree.node x c l v r).relabel src.fresh, ?_, hsh,
      Tree.relabel_shape _ _, Tree.relabel_vals _ _, Tree.relabel_size _ _,
      hfresh, rfl, rfl,
      (hlist _ hsh rfl).1, (hlist _ hsh rfl).2, lo1, hsrc⟩
    simp only [Set.copy_ctor, Set.fuel, bind, Option.bind, pure, hroot, Tree.ptr_node] at e1 hd ⊢
    simp only [e1, hd]

end Set

end SetReview

namespace SetReview

/-! ## The theorems on the scenarios -/

set_option maxRecDepth 1000000 in
/-- Scenario 4: after the twenty insertions `size()` is 20. -/
theorem scenario4_size : (Set.run id Set.ctor scenario4Ops).map Set.size = some 20 := by
  decide

/-- Scenario 4: the tree built by ten decreasing and ten increasing insertions has 20
nodes and height at most 8. -/
theorem scenario4_height :
    ∃ s T, Set.run id Set.ctor scenario4Ops = some s ∧ s.Shape T ∧ T.size = 20 ∧
      T.height ≤ 8 := by
  obtain ⟨s, T, e, hI, hsz, -⟩ := Set.run_valid id scenario4Ops Set.ctor Tree.nil Set.ctor_inv rfl
  obtain ⟨-, -, h3⟩ := Tree.pow_height_le T hI.rb1 hI.rb2 hI.rb3
  have h := scenario4_size
  rw [e] at h
  simp only [Option.map_some', Option.some.injEq, Set.size] at h
  rw [hsz] at h
  refine ⟨s, T, e, hI.shape, h, ?_⟩
  rw [h] at h3
  by_contra hc
  have h9 : 2 ^ 9 ≤ 2 ^ T.height := Nat.pow_le_pow_right (by norm_num) (by omega)
  omega

namespace Set

/-- Witness of C11 on Scenario 4. -/
theorem height_bound_witness :
    ∃ s T, Set.run id Set.ctor scenario4Ops = some s ∧ s.Shape T ∧ s.size = T.size ∧
      2 ^ T.height ≤ (s.size + 1) ^ 2 ∧ T.height ≤ 2 * Nat.log 2 (s.size + 1) ∧
      (s.size = 20 → T.height ≤ 8) :=
  height_bound id scenario4Ops

/-- Witness of C12: `insert(5)` and `insert(6)` twice on the set of Scenario 1. -/
theorem insert_idempotent_witness :
    scenario1.Inv scenario1Tree ∧
      (∃ s', scenario1.insert id 5 = some s' ∧ s'.insert id 5 = some s' ∧
        ((∃ y ∈ scenario1Tree.vals, ¬ 5 < y ∧ ¬ y < 5) → s' = scenario1)) :=
  ⟨scenario1_inv, insert_idempotent id scenario1 scenario1Tree 5 scenario1_inv⟩

/-- Witness of C13: `erase(6)` on the set of Scenario 1. -/
theorem erase_absent_noop_witness :
    scenario1.Shape scenario1Tree ∧ (∀ y ∈ scenario1Tree.vals, ¬ (¬ 6 < y ∧ ¬ y < 6)) ∧
      scenario1.erase 6 = some scenario1 :=
  ⟨scenario1_inv.shape, by decide,
    erase_absent_noop scenario1 scenario1Tree 6 scenario1_inv.shape (by decide)⟩

/-- Backward iteration on Scenario 1 yields 9, 8, 7, 5, 4, 3, 1. -/
theorem backward_iteration_witness :
    scenario1.Shape scenario1Tree ∧ scenario1Tree.BST ∧
      scenario1._begin = scenario1Tree.leftmost ∧ scenario1Tree ≠ Tree.nil ∧
      (∃ a n, scenario1.prev scenario1.end = some (some a) ∧ scenario1.heap a = some n ∧
        n.value ∈ scenario1Tree.vals ∧ ∀ y ∈ scenario1Tree.vals, y = n.value ∨ y < n.value) ∧
      scenario1.toList = some scenario1Tree.vals ∧
      scenario1.toListBack = some scenario1Tree.vals.reverse ∧
      scenario1Tree.vals.reverse.Pairwise (fun a b => b < a) :=
  ⟨scenario1_inv.shape, scenario1_inv.bst, scenario1_begin, fun h => Tree.noConfusion h,
    backward_iteration scenario1 scenario1Tree scenario1_inv.shape scenario1_inv.bst
      scenario1_begin (fun h => Tree.noConfusion h)⟩

/-- The copy of the set of Scenario 1, with memory for 7 nodes. -/
theorem copy_construction_witness :
    scenario1.Shape scenario1Tree ∧ scenario1Tree.size ≤ 7 ∧
      ∃ s C, scenario1.copy_ctor 7 = some (Outcome.returned s ()) ∧ s.Shape C ∧
        C.shape = scenario1Tree.shape ∧ C.vals = scenario1Tree.vals ∧
        C.size = scenario1Tree.size ∧
        (∀ a ∈ C.addrs, scenario1.fresh ≤ a ∧ a ∉ scenario1Tree.addrs) ∧
        s.size = scenario1.size ∧ s._begin = C.leftmost ∧
        s.toList = some scenario1Tree.vals ∧
        (scenario1._begin = scenario1Tree.leftmost → s.toList = scenario1.toList) ∧
        (∀ a, a < scenario1.fresh → s.heap a = scenario1.heap a) ∧
        scenario1Tree.Repr s.heap none :=
  ⟨scenario1_inv.shape, by decide,
    copy_construction 7 scenario1 scenario1Tree scenario1_inv.shape (by decide)⟩

/-- Witness of C14: `insert(5)` and `erase(5)` on the set of Scenario 1. -/
theorem node_stability_witness :
    scenario1.Inv scenario1Tree ∧
    ((∃ s' T', scenario1.insert id 5 = some s' ∧ s'.Shape T' ∧
      ∀ a w, (a, w) ∈ scenario1Tree.cells →
        (a, w) ∈ T'.cells ∧ ∃ n, s'.heap a = some n ∧ n.value = w) ∧
    (((∀ y ∈ scenario1Tree.vals, 5 < y ∨ y < 5) ∧ scenario1.erase 5 = some scenario1) ∨
      ∃ ctx v c l xv r s' T' u, scenario1Tree = Path.fill ctx (Tree.node v c l xv r) ∧
        ¬ 5 < xv ∧ ¬ xv < 5 ∧ scenario1.erase 5 = some s' ∧ s'.Shape T' ∧
        u ∈ scenario1Tree.addrs ∧ u ∉ T'.addrs ∧ s'.heap u = none ∧
        (∀ a w, (a, w) ∈ scenario1Tree.cells → a ≠ u → a ≠ v →
          (a, w) ∈ T'.cells ∧ ∃ n, s'.heap a = some n ∧ n.value = w) ∧
        ((l = Tree.nil ∨ r = Tree.nil) → u = v) ∧
        (l ≠ Tree.nil → r ≠ Tree.nil → u ≠ v ∧ l.rightmost = some u ∧
          ∃ y, (u, y) ∈ scenario1Tree.cells ∧ (v, y) ∈ T'.cells ∧
            ∃ n, s'.heap v = some n ∧ n.value = y))) :=
  ⟨scenario1_inv, node_stability id scenario1 scenario1Tree 5 scenario1_inv⟩

/-- Witness of C19 on the tree of Scenario 1: `rotate_left` at the root (address 0),
whose right child is the node at address 2, and `rotate_right` at the left child of the
root (address 1), whose left child is the node at address 3. -/
theorem rotate_preserves_inorder_witness :
    scenario1.Own (Path.fill [] (Tree.node 0 Color.black
      (Tree.node 1 Color.black (Tree.node 3 Color.red Tree.nil 1 Tree.nil) 3
        (Tree.node 4 Color.red Tree.nil 4 Tree.nil)) 5
      (Tree.node 2 Color.black (Tree.node 5 Color.red Tree.nil 7 Tree.nil) 8
        (Tree.node 6 Color.red Tree.nil 9 Tree.nil)))) ∧
    scenario1.Own (Path.fill [Frame.left 0 Color.black 5
        (Tree.node 2 Color.black (Tree.node 5 Color.red Tree.nil 7 Tree.nil) 8
          (Tree.node 6 Color.red Tree.nil 9 Tree.nil))]
      (Tree.node 1 Color.black (Tree.node 3 Color.red Tree.nil 1 Tree.nil) 3
        (Tree.node 4 Color.red Tree.nil 4 Tree.nil))) ∧
    (∃ s', scenario1.rotate_left (some 0) = some s' ∧
      s'.Own (Path.fill [] (Tree.node 2 Color.black (Tree.node 0 Color.black
        (Tree.node 1 Color.black (Tree.node 3 Color.red Tree.nil 1 Tree.nil) 3
        (Tree.node 4 Color.red Tree.nil 4 Tree.nil)) 5
        (Tree.node 5 Color.red Tree.nil 7 Tree.nil)) 8
        (Tree.node 6 Color.red Tree.nil 9 Tree.nil))) ∧
      (Path.fill [] (Tree.node 2 Color.black (Tree.node 0 Color.black
        (Tree.node 1 Color.black (Tree.node 3 Color.red Tree.nil 1 Tree.nil) 3
        (Tree.node 4 Color.red Tree.nil 4 Tree.nil)) 5
        (Tree.node 5 Color.red Tree.nil 7 Tree.nil)) 8
        (Tree.node 6 Color.red Tree.nil 9 Tree.nil))).vals =
      (Path.fill [] (Tree.node 0 Color.black
        (Tree.node 1 Color.black (Tree.node 3 Color.red Tree.nil 1 Tree.nil) 3
        (Tree.node 4 Color.red Tree.nil 4 Tree.nil)) 5
        (Tree.node 2 Color.black (Tree.node 5 Color.red Tree.nil 7 Tree.nil) 8
        (Tree.node 6 Color.red Tree.nil 9 Tree.nil)))).vals ∧
      s'.slot_get (Path.slot ([] : Path Nat)) = some (some 2) ∧
      (([] : Path Nat) = [] → s'._root = some 2) ∧
      s'._begin = scenario1._begin ∧ s'._size = scenario1._size) ∧
    (∃ s', scenario1.rotate_right (some 1) = some s' ∧
      s'.Own (Path.fill [Frame.left 0 Color.black 5
        (Tree.node 2 Color.black (Tree.node 5 Color.red Tree.nil 7 Tree.nil) 8
          (Tree.node 6 Color.red Tree.nil 9 Tree.nil))]
        (Tree.node 3 Color.red Tree.nil 1
          (Tree.node 1 Color.black Tree.nil 3 (Tree.node 4 Color.red Tree.nil 4 Tree.nil)))) ∧
      (Path.fill [Frame.left 0 Color.black 5
        (Tree.node 2 Color.black (Tree.node 5 Color.red Tree.nil 7 Tree.nil) 8
          (Tree.node 6 Color.red Tree.nil 9 Tree.nil))]
        (Tree.node 3 Color.red Tree.nil 1
          (Tree.node 1 Color.black Tree.nil 3 (Tree.node 4 Color.red Tree.nil 4 Tree.nil)))).vals =
      (Path.fill [Frame.left 0 Color.black 5
        (Tree.node 2 Color.black (Tree.node 5 Color.red Tree.nil 7 Tree.nil) 8
          (Tree.node 6 Color.red Tree.nil 9 Tree.nil))]
        (Tree.node 1 Color.black (Tree.node 3 Color.red Tree.nil 1 Tree.nil) 3
          (Tree.node 4 Color.red Tree.nil 4 Tree.nil))).vals ∧
      s'.slot_get (Path.slot [Frame.left 0 Color.black 5
        (Tree.node 2 Color.black (Tree.node 5 Color.red Tree.nil 7 Tree.nil) 8
          (Tree.node 6 Color.red Tree.nil 9 Tree.nil))]) = some (some 3) ∧
      ([Frame.left 0 Color.black 5
        (Tree.node 2 Color.black (Tree.node 5 Color.red Tree.nil 7 Tree.nil) 8
          (Tree.node 6 Color.red Tree.nil 9 Tree.nil))] = [] → s'._root = some 3) ∧
      s'._begin = scenario1._begin ∧ s'._size = scenario1._size) :=
  ⟨scenario1_inv.shape.owns, scenario1_inv.shape.owns,
    rotate_preserves_inorder scenario1 [] 0 Color.black _ 5 2 Color.black _ 8 _
      scenario1_inv.shape.owns
      scenario1 [Frame.left 0 Color.black 5
        (Tree.node 2 Color.black (Tree.node 5 Color.red Tree.nil 7 Tree.nil) 8
          (Tree.node 6 Color.red Tree.nil 9 Tree.nil))] 1 Color.black Tree.nil 3 3 Color.red Tree.nil 1 _
      scenario1_inv.shape.owns⟩

/-- Witness of C20: `insert(6)` and `erase(6)` on the set of Scenario 1. -/
theorem fixups_no_null_deref_witness :
    scenario1.Shape scenario1Tree ∧ scenario1Tree.BST ∧ scenario1Tree.RB1 ∧
      scenario1Tree.RB2 ∧ scenario1Tree.RB3 ∧
      ((∃ s', scenario1.insert id 6 = some s') ∧ (∃ s', scenario1.erase 6 = some s')) :=
  ⟨scenario1_inv.shape, scenario1_inv.bst, scenario1_inv.rb1, scenario1_inv.rb2,
    scenario1_inv.rb3,
    fixups_no_null_deref id scenario1 scenario1Tree 6 scenario1_inv.shape scenario1_inv.bst
      scenario1_inv.rb1 scenario1_inv.rb2 scenario1_inv.rb3⟩

end Set

end SetReview

namespace SetReview

/-! ## Stale begin caches on `Set<std::string>` -/

set_option maxRecDepth 100000 in
theorem scenarioBC_inv : scenarioBC.Inv scenarioBCTree := by
  refine ⟨⟨?_, ?_, ?_, ?_, ?_⟩, ?_, ?_, ?_, ?_⟩
  · simp only [scenarioBCTree, Tree.repr_node, Tree.repr_nil, Tree.ptr_node, Tree.ptr_nil,
      and_true]
    decide
  · decide
  · decide
  · decide
  · intro a ha
    have h : scenarioBC._begin = some 1 := by decide
    rw [h] at ha
    cases ha
    decide
  · simp only [scenarioBCTree, Tree.BST, Tree.vals_node, Tree.vals_nil]
    decide
  · rfl
  · simp only [scenarioBCTree, Tree.RB2_node, Tree.RB2_nil, Tree.color_node, Tree.color_nil]
    decide
  · simp only [scenarioBCTree, Tree.RB3_node, Tree.RB3_nil, Tree.bh_node, Tree.bh_nil]
    decide

set_option maxRecDepth 100000 in
theorem scenarioCAB_inv : scenarioCAB.Inv scenarioCABTree := by
  refine ⟨⟨?_, ?_, ?_, ?_, ?_⟩, ?_, ?_, ?_, ?_⟩
  · simp only [scenarioCABTree, Tree.repr_node, Tree.repr_nil, Tree.ptr_node, Tree.ptr_nil,
      and_true]
    decide
  · decide
  · decide
  · decide
  · intro a ha
    have h : scenarioCAB._begin = none := by decide
    rw [h] at ha
    cases ha
  · simp only [scenarioCABTree, Tree.BST, Tree.vals_node, Tree.vals_nil]
    decide
  · rfl
  · simp only [scenarioCABTree, Tree.RB2_node, Tree.RB2_nil, Tree.color_node, Tree.color_nil]
    decide
  · simp only [scenarioCABTree, Tree.RB3_node, Tree.RB3_nil, Tree.bh_node, Tree.bh_nil]
    decide

namespace Set

set_option maxRecDepth 100000 in
/-- C2 (defect in the code): on a `Set<std::string>`, where a moved-from string is
empty, the set reached by `insert("b")` and `insert("c")` satisfies BST order and the
red-black invariants, with "b" and "c" in its tree, but `_begin` is the node of "c":
forward iteration yields only "c" before `erase("c")` and yields "b" after it, which is
not the previous sequence with "c" removed. -/
theorem erase_iteration_moved_from :
    Set.run (fun _ => ([] : List Nat)) Set.ctor [Op.insert [98], Op.insert [99]] =
      some scenarioBC ∧
    scenarioBC.Inv scenarioBCTree ∧ scenarioBCTree.vals = [[98], [99]] ∧
    scenarioBC.toList = some [[99]] ∧
    (scenarioBC.erase [99]).bind Set.toList = some [[98]] :=
  ⟨rfl, scenarioBC_inv, rfl, by decide, by decide⟩

set_option maxRecDepth 100000 in
/-- C15 (defect in the code): on a `Set<std::string>`, where a moved-from string is
empty, the set reached by `insert("c")`, `insert("a")` and `insert("b")` has consistent
parent links and BST order and holds "a", "b" and "c", and `prev(end())` is the node of
the maximum "c" (address 0); but `_begin` is null, so `begin() == end()` and backward
iteration from `end()` until `begin()` visits no element.  On the set reached by
`insert("b")` and `insert("c")` it visits only "c". -/
theorem backward_iteration_moved_from :
    Set.run (fun _ => ([] : List Nat)) Set.ctor
      [Op.insert [99], Op.insert [97], Op.insert [98]] = some scenarioCAB ∧
    scenarioCAB.Shape scenarioCABTree ∧ scenarioCABTree.BST ∧
    scenarioCABTree.vals = [[97], [98], [99]] ∧
    scenarioCAB.begin = scenarioCAB.end ∧
    scenarioCAB.prev scenarioCAB.end = some (some 0) ∧
    (scenarioCAB.node (some 0)).map (fun n => n.value) = some [99] ∧
    scenarioCAB.toListBack = some [] ∧
    scenarioBC.toListBack = some [[99]] :=
  ⟨rfl, scenarioCAB_inv.shape, scenarioCAB_inv.bst, rfl, by decide, by decide, by decide,
    by decide, by decide⟩

set_option maxRecDepth 100000 in
/-- C16 (defect in the code): on a `Set<std::string>`, where a moved-from string is
empty, the copy of the set reached by `insert("b")` and `insert("c")` has its `_begin` at
the leftmost node of the copy, so forward iteration over the copy yields "b", "c", while
forward iteration over the source, whose `_begin` is the node of "c", yields only
"c". -/
theorem copy_iteration_moved_from :
    Set.run (fun _ => ([] : List Nat)) Set.ctor [Op.insert [98], Op.insert [99]] =
      some scenarioBC ∧
    scenarioBC.toList = some [[99]] ∧
    ∃ s, scenarioBC.copy_ctor 2 = some (Outcome.returned s ()) ∧
      s.toList = some [[98], [99]] := by
  refine ⟨rfl, by decide, ?_⟩
  obtain ⟨s, C, e, -, -, -, -, -, -, -, h, -⟩ :=
    copy_construction 2 scenarioBC scenarioBCTree scenarioBC_inv.shape (by decide)
  exact ⟨s, e, h⟩

end Set

end SetReview
